import Mathlib

/-!
# Grassfire path planning (`grassfire.c`)

A shallow embedding of the grid search of `grassfire.c`: the wavefront expansion loop of
`main`, `modify_adjacent`, `get_cell_info`, `scrub_depth` and `backtrack_grid`. The
knight's tour solver `knightstour.c` is embedded further down, in `KnightsTour`.

* The global `int grid[NUM_ROWS][NUM_COLS]` is a function from (row, column) to `Int`;
  the dimensions `NUM_ROWS`, `NUM_COLS` are the parameters `R`, `C` of every definition.
* The globals `destinationRow`, `destinationCol`, `currentDepth` are fields of `State`.
* Cell contents: `0` start, `-1` free, `-2` destination, `-3` obstacle, `n ≥ 1` layer.
* C `int` is `Int`; the depth counter never exceeds `R * C + 2`, so no wrap-around occurs
  on grids that fit in memory.
-/

namespace Grassfire

/-! ## Data model -/

/-- The grid: cell contents indexed by row and column. -/
abbrev Grid := Int → Int → Int

/-- The global variables of `grassfire.c`. -/
structure State where
  grid : Grid
  destinationRow : Int
  destinationCol : Int
  currentDepth : Int

/-- Assignment `grid[row][col] = v`. -/
def setCell (g : Grid) (row col v : Int) : Grid :=
  fun i j => if i = row ∧ j = col then v else g i j

/-- Coordinates inside the `R × C` grid. -/
def inGrid (R C : Nat) (row col : Int) : Prop :=
  0 ≤ row ∧ row < R ∧ 0 ≤ col ∧ col < C

instance (R C : Nat) (row col : Int) : Decidable (inGrid R C row col) := by
  unfold inGrid; infer_instance

/-! ## The program -/

/-- Function `get_cell_info`: `-4` for an off-grid coordinate, the cell content otherwise. -/
def get_cell_info (R C : Nat) (s : State) (row col : Int) : Int :=
  if row ≥ R ∨ row < 0 ∨ col ≥ C ∨ col < 0 then -4 else s.grid row col

/-- One of the four neighbour blocks of `modify_adjacent`, for the neighbour `(r, c)`:
`Except.error` is the early `return -2` (destination recorded), `Except.ok` carries the
state and the flag `adjacentModifiable` on to the next block. -/
def check_neighbour (R C : Nat) (p : State × Bool) (r c : Int) : Except State (State × Bool) :=
  let cellRetVal := get_cell_info R C p.1 r c
  if cellRetVal = -2 then
    Except.error { p.1 with destinationRow := r, destinationCol := c }
  else if cellRetVal = -1 then
    Except.ok ({ p.1 with grid := setCell p.1.grid r c (p.1.currentDepth + 1) }, true)
  else
    Except.ok p

/-- Function `modify_adjacent`: scans right, top, left, bottom; returns the new globals and
the return value (`-2` destination found, `1` something stamped, `0` nothing). -/
def modify_adjacent (R C : Nat) (s : State) (row col : Int) : State × Int :=
  match check_neighbour R C (s, false) row (col + 1) with
  | Except.error s1 => (s1, -2)
  | Except.ok p1 =>
    match check_neighbour R C p1 (row - 1) col with
    | Except.error s2 => (s2, -2)
    | Except.ok p2 =>
      match check_neighbour R C p2 row (col - 1) with
      | Except.error s3 => (s3, -2)
      | Except.ok p3 =>
        match check_neighbour R C p3 (row + 1) col with
        | Except.error s4 => (s4, -2)
        | Except.ok p4 => (p4.1, if p4.2 then 1 else 0)

/-- Body of the inner loop of `scrub_depth` for the cell `(i, j)`. -/
def scrub_cell (rowToKeep colToKeep : Int) (s : State) (i j : Int) : State :=
  if ¬ (i = rowToKeep ∧ j = colToKeep) ∧ s.grid i j = s.currentDepth then
    { s with grid := setCell s.grid i j (-1) }
  else s

/-- Function `scrub_depth`: the two nested `for` loops over the whole grid. -/
def scrub_depth (R C : Nat) (s : State) (rowToKeep colToKeep : Int) : State :=
  (List.range R).foldl
    (fun s (i : Nat) =>
      (List.range C).foldl (fun s (j : Nat) => scrub_cell rowToKeep colToKeep s i j) s) s

/-- The local variables `currentRow`, `currentCol` of `backtrack_grid` with the globals. -/
structure Walk where
  st : State
  currentRow : Int
  currentCol : Int

/-- Body of the `while (currentDepth > 0)` loop of `backtrack_grid`. -/
def backtrack_step (R C : Nat) (w : Walk) : Walk :=
  let d := w.st.currentDepth
  let w1 : Walk :=
    if get_cell_info R C w.st w.currentRow (w.currentCol + 1) = d then
      { w with st := scrub_depth R C w.st w.currentRow (w.currentCol + 1),
               currentCol := w.currentCol + 1 }
    else if get_cell_info R C w.st (w.currentRow + 1) w.currentCol = d then
      { w with st := scrub_depth R C w.st (w.currentRow + 1) w.currentCol,
               currentRow := w.currentRow + 1 }
    else if get_cell_info R C w.st w.currentRow (w.currentCol - 1) = d then
      { w with st := scrub_depth R C w.st w.currentRow (w.currentCol - 1),
               currentCol := w.currentCol - 1 }
    else if get_cell_info R C w.st (w.currentRow - 1) w.currentCol = d then
      { w with st := scrub_depth R C w.st (w.currentRow - 1) w.currentCol,
               currentRow := w.currentRow - 1 }
    else w
  { w1 with st := { w1.st with currentDepth := w1.st.currentDepth - 1 } }

/-- The `while (currentDepth > 0)` loop of `backtrack_grid`, at most `n` iterations. -/
def backtrack_loop (R C : Nat) : Nat → Walk → Walk
  | 0, w => w
  | n + 1, w => if w.st.currentDepth > 0 then backtrack_loop R C n (backtrack_step R C w) else w

/-- Function `backtrack_grid`. The loop counter decreases by one per iteration, so
`currentDepth` iterations exhaust the loop. -/
def backtrack_grid (R C : Nat) (s : State) : State :=
  let w : Walk :=
    { st := scrub_depth R C s s.destinationRow s.destinationCol,
      currentRow := s.destinationRow, currentCol := s.destinationCol }
  (backtrack_loop R C s.currentDepth.toNat w).st

/-- The positions `(currentRow, currentCol)` of the walk of `backtrack_grid` at each test of
its loop condition, for at most `n` iterations. -/
def backtrack_positions (R C : Nat) : Nat → Walk → List (Int × Int)
  | 0, w => [(w.currentRow, w.currentCol)]
  | n + 1, w =>
    (w.currentRow, w.currentCol) ::
      (if w.st.currentDepth > 0 then backtrack_positions R C n (backtrack_step R C w) else [])

/-- The cells visited by the backward walk of `backtrack_grid` started on the globals `s`. -/
def visited (R C : Nat) (s : State) : List (Int × Int) :=
  backtrack_positions R C s.currentDepth.toNat
    { st := scrub_depth R C s s.destinationRow s.destinationCol,
      currentRow := s.destinationRow, currentCol := s.destinationCol }

/-- The loop-carried variables of the expansion loop of `main`. -/
structure Scan where
  st : State
  continueChecking : Bool
  destinationReached : Bool

/-- Body of the inner `for` loop of `main` for the cell `(i, j)`; once `destinationReached`
is set the `break`s skip every remaining cell. -/
def scan_cell (R C : Nat) (m : Scan) (i j : Int) : Scan :=
  if m.destinationReached then m
  else if m.st.grid i j = m.st.currentDepth then
    let r := modify_adjacent R C m.st i j
    if r.2 = -2 then
      { st := r.1, continueChecking := false, destinationReached := true }
    else if r.2 = 1 then
      { m with st := r.1, continueChecking := true }
    else
      { m with st := r.1 }
  else m

/-- The inner `for (j ...)` loop of `main` for row `i`. -/
def scan_row (R C : Nat) (m : Scan) (i : Int) : Scan :=
  (List.range C).foldl (fun m (j : Nat) => scan_cell R C m i j) m

/-- One iteration of the `while (continueChecking)` loop of `main`. -/
def scan_pass (R C : Nat) (m : Scan) : Scan :=
  let m1 := (List.range R).foldl
    (fun m (i : Nat) => if m.destinationReached then m else scan_row R C m i)
    { m with continueChecking := false }
  { m1 with st := { m1.st with currentDepth := m1.st.currentDepth + 1 } }

/-- The `while (continueChecking)` loop of `main` with a bound on the number of loop tests;
`none` when the bound is reached. -/
def expansion (R C : Nat) : Nat → Scan → Option Scan
  | 0, _ => none
  | fuel + 1, m =>
    if m.continueChecking then expansion R C fuel (scan_pass R C m) else some m

/-- What `main` prints. -/
inductive Outcome where
  | PathFound
  | NoPathFound
  deriving DecidableEq, Repr

/-- The expansion loop of `main` run on the grid `g` produced by `randomize_grid`, the
globals holding their initial value 0. Every pass that asks for another one consumes a free
cell, so `R * C + 2` loop tests are enough. -/
def expand (R C : Nat) (g : Grid) : Option Scan :=
  expansion R C (R * C + 2)
    { st := { grid := g, destinationRow := 0, destinationCol := 0, currentDepth := 0 },
      continueChecking := true, destinationReached := false }

/-- Function `main` after `randomize_grid` has produced `g`: the expansion loop, then
`backtrack_grid` when the destination was reached. -/
def main (R C : Nat) (g : Grid) : Option (Outcome × State) :=
  match expand R C g with
  | none => none
  | some m =>
    if m.destinationReached then some (Outcome.PathFound, backtrack_grid R C m.st)
    else some (Outcome.NoPathFound, m.st)

/-- The grid as a list of rows, for display and comparison. -/
def rows (R C : Nat) (g : Grid) : List (List Int) :=
  (List.range R).map fun (i : Nat) => (List.range C).map fun (j : Nat) => g i j

/-- Builds a grid from a list of rows (cells outside the list read `-3`). -/
def ofRows (l : List (List Int)) : Grid :=
  fun i j => if i < 0 ∨ j < 0 then -3 else ((l.getD i.toNat []).getD j.toNat (-3))

/-- The 3×3 scenario of the specification: `S . .` / `x x .` / `. . D`. -/
def grid3x3 : Grid := ofRows [[0, -1, -1], [-3, -3, -1], [-1, -1, -2]]

/-- The 3×4 scenario of the specification: `S . . .` / `x x x .` / `. . . D`. -/
def grid3x4 : Grid := ofRows [[0, -1, -1, -1], [-3, -3, -3, -1], [-1, -1, -1, -2]]

/-- The 1×3 grid `S x D`: the destination is cut off by an obstacle. -/
def gridBlocked : Grid := ofRows [[0, -3, -2]]

/-! ## Specification vocabulary -/

/-- Orthogonal adjacency of two cells. -/
def adjacent (a b : Int × Int) : Prop :=
  (a.1 = b.1 ∧ (b.2 = a.2 + 1 ∨ b.2 = a.2 - 1)) ∨ (a.2 = b.2 ∧ (b.1 = a.1 + 1 ∨ b.1 = a.1 - 1))

instance (a b : Int × Int) : Decidable (adjacent a b) := by
  unfold adjacent; infer_instance

/-- The cells of the `R × C` grid. -/
def cellSet (R C : Nat) : Finset (Nat × Nat) := Finset.range R ×ˢ Finset.range C

/-- Number of grid cells whose content satisfies `p`. -/
def countCells (R C : Nat) (g : Grid) (p : Int → Prop) [DecidablePred p] : Nat :=
  ((cellSet R C).filter fun c => p (g c.1 c.2)).card

/-- A valid input grid: exactly one start cell, exactly one destination cell, every cell
start, free, destination or obstacle. -/
def Valid (R C : Nat) (g : Grid) : Prop :=
  countCells R C g (fun v => v = 0) = 1 ∧ countCells R C g (fun v => v = -2) = 1 ∧
  ∀ c ∈ cellSet R C, g c.1 c.2 = 0 ∨ g c.1 c.2 = -1 ∨ g c.1 c.2 = -2 ∨ g c.1 c.2 = -3

instance (R C : Nat) (g : Grid) : Decidable (Valid R C g) := by
  unfold Valid; infer_instance

/-- A sequence of orthogonally adjacent in-grid cells from the start to the destination. -/
def isRoute (R C : Nat) (g : Grid) (p : List (Int × Int)) : Prop :=
  p.Chain' adjacent ∧ (∀ c ∈ p, inGrid R C c.1 c.2) ∧
  (∃ a, p.head? = some a ∧ g a.1 a.2 = 0) ∧ (∃ b, p.getLast? = some b ∧ g b.1 b.2 = -2)

/-- A route whose intermediate cells are all free. -/
def isFreePath (R C : Nat) (g : Grid) (p : List (Int × Int)) : Prop :=
  isRoute R C g p ∧ ∀ c ∈ p.tail.dropLast, g c.1 c.2 = -1

/-- A sequence of orthogonally adjacent in-grid cells from the start to the cell `c`, every
cell after the start being free. -/
def isFreeWalk (R C : Nat) (g : Grid) (c : Int × Int) (p : List (Int × Int)) : Prop :=
  p.Chain' adjacent ∧ (∀ x ∈ p, inGrid R C x.1 x.2) ∧
  (∃ a, p.head? = some a ∧ g a.1 a.2 = 0) ∧ p.getLast? = some c ∧ ∀ x ∈ p.tail, g x.1 x.2 = -1

/-- The shortest distance of `c` from the start is `n` moves through free cells. -/
def shortestDistance (R C : Nat) (g : Grid) (c : Int × Int) (n : Nat) : Prop :=
  (∃ p, isFreeWalk R C g c p ∧ p.length = n + 1) ∧ ∀ p, isFreeWalk R C g c p → n + 1 ≤ p.length

/-- The shortest free path from the start to the destination has `L` moves. -/
def shortestPathLength (R C : Nat) (g : Grid) (L : Nat) : Prop :=
  (∃ p, isFreePath R C g p ∧ p.length = L + 1) ∧ ∀ p, isFreePath R C g p → L + 1 ≤ p.length

/-! ## Vocabulary of the proofs -/

/-- Relation between the grid before and after stamping around the parent cell `a` at
depth `d`: a cell is unchanged, or it was free, is a neighbour of `a` and now holds `d + 1`. -/
def Stamped (R C : Nat) (d : Int) (a : Int × Int) (g g' : Grid) : Prop :=
  ∀ i j, g' i j = g i j ∨ (g i j = -1 ∧ g' i j = d + 1 ∧ inGrid R C i j ∧ adjacent a (i, j))

/-- State of `modify_adjacent` between two neighbour blocks: `s0` is the state on entry,
`a` the parent cell, `done` the neighbours already examined. -/
structure Probe (R C : Nat) (s0 : State) (a : Int × Int) (done : List (Int × Int))
    (p : State × Bool) : Prop where
  depth : p.1.currentDepth = s0.currentDepth
  drow : p.1.destinationRow = s0.destinationRow
  dcol : p.1.destinationCol = s0.destinationCol
  stamped : Stamped R C s0.currentDepth a s0.grid p.1.grid
  closed : ∀ c ∈ done, inGrid R C c.1 c.2 → p.1.grid c.1 c.2 ≠ -1 ∧ s0.grid c.1 c.2 ≠ -2
  flagT : p.2 = true →
    ∃ i j, inGrid R C i j ∧ s0.grid i j = -1 ∧ p.1.grid i j = s0.currentDepth + 1
  flagF : p.2 = false → p.1.grid = s0.grid

/-- What a call `modify_adjacent(row, col)` does to the globals `s`, `r` being the pair of
the new globals and the return value. -/
structure ModSpec (R C : Nat) (s : State) (row col : Int) (r : State × Int) : Prop where
  depth : r.1.currentDepth = s.currentDepth
  stamped : Stamped R C s.currentDepth (row, col) s.grid r.1.grid
  found : r.2 = -2 → ∃ i j, adjacent (row, col) (i, j) ∧ inGrid R C i j ∧ s.grid i j = -2 ∧
    r.1.destinationRow = i ∧ r.1.destinationCol = j
  dest : r.2 ≠ -2 → r.1.destinationRow = s.destinationRow ∧
    r.1.destinationCol = s.destinationCol
  closed : r.2 ≠ -2 → ∀ i j, adjacent (row, col) (i, j) → inGrid R C i j →
    r.1.grid i j ≠ -1 ∧ s.grid i j ≠ -2
  ret : r.2 = -2 ∨ r.2 = 1 ∨ r.2 = 0
  one : r.2 = 1 → ∃ i j, inGrid R C i j ∧ s.grid i j = -1 ∧ r.1.grid i j = s.currentDepth + 1
  zero : r.2 = 0 → r.1.grid = s.grid

/-- The cells of the grid in row-major order, as visited by the nested `for` loops. -/
def cellList (R C : Nat) : List (Int × Int) :=
  (List.range R).flatMap fun (i : Nat) => (List.range C).map fun (j : Nat) => ((i : Int), (j : Int))

/-- One pass of the expansion loop, before the depth counter is advanced. -/
def scan_all (R C : Nat) (m : Scan) : Scan :=
  (cellList R C).foldl (fun m c => scan_cell R C m c.1 c.2) { m with continueChecking := false }

/-- Number of free cells of the grid. -/
def freeCount (R C : Nat) (g : Grid) : Nat := countCells R C g (fun v => v = -1)

/-- Invariant of one pass for the count of free cells: it never grows, and it has dropped
as soon as `continueChecking` is set. -/
def TermInv (R C : Nat) (n : Nat) (d : Int) (m : Scan) : Prop :=
  m.st.currentDepth = d ∧ freeCount R C m.st.grid ≤ n ∧
    (m.continueChecking = true → freeCount R C m.st.grid < n)

/-- The cell `c` is reached from the start by `n` moves, each onto a free cell of `g`. -/
def Reach (R C : Nat) (g : Grid) : Nat → Int × Int → Prop
  | 0, c => inGrid R C c.1 c.2 ∧ g c.1 c.2 = 0
  | n + 1, c => inGrid R C c.1 c.2 ∧ g c.1 c.2 = -1 ∧ ∃ c', adjacent c' c ∧ Reach R C g n c'

/-- The cell `c` is reached by `n` moves and by no fewer. -/
def Dist (R C : Nat) (g : Grid) (n : Nat) (c : Int × Int) : Prop :=
  Reach R C g n c ∧ ∀ m, m < n → ¬ Reach R C g m c

/-- The valid grid `g` with its start cell `a` and its destination cell `b`. -/
structure ValidAt (R C : Nat) (g : Grid) (a b : Int × Int) : Prop where
  ain : inGrid R C a.1 a.2
  aval : g a.1 a.2 = 0
  bin : inGrid R C b.1 b.2
  bval : g b.1 b.2 = -2
  uniq0 : ∀ i j, inGrid R C i j → g i j = 0 → (i, j) = a
  uniq2 : ∀ i j, inGrid R C i j → g i j = -2 → (i, j) = b
  vals : ∀ i j, inGrid R C i j → g i j = 0 ∨ g i j = -1 ∨ g i j = -2 ∨ g i j = -3

/-- The grid `g` during the expansion from the input grid `g0`: only free cells have been
overwritten, with layer numbers at most `b`; every layer number is the distance of its cell;
every cell at distance at most `k` holds its distance. -/
structure Layers (R C : Nat) (g0 : Grid) (b k : Nat) (g : Grid) : Prop where
  frame : ∀ i j, inGrid R C i j →
    g i j = g0 i j ∨ (g0 i j = -1 ∧ ∃ n : Nat, 1 ≤ n ∧ n ≤ b ∧ g i j = n)
  sound : ∀ i j, inGrid R C i j → ∀ n : Nat, g i j = n → Dist R C g0 n (i, j)
  complete : ∀ i j, inGrid R C i j → ∀ n : Nat, n ≤ k → Dist R C g0 n (i, j) → g i j = n

/-- No cell reached in fewer than `k` moves has the destination as a neighbour. -/
def NoDest (R C : Nat) (g0 : Grid) (k : Nat) : Prop :=
  ∀ n, n < k → ∀ c, Reach R C g0 n c → ∀ i j, adjacent c (i, j) → inGrid R C i j → g0 i j ≠ -2

/-- Invariant of one pass of the expansion loop at depth `k`, `pre` being the cells already
scanned and `(dr, dc)` the destination coordinates recorded before the pass. -/
structure PassInv (R C : Nat) (g0 : Grid) (k : Nat) (pre : List (Int × Int)) (m : Scan) :
    Prop where
  depth : m.st.currentDepth = k
  layers : Layers R C g0 (k + 1) k m.st.grid
  closed : m.destinationReached = false → ∀ c ∈ pre, m.st.grid c.1 c.2 = k →
    ∀ i j, adjacent c (i, j) → inGrid R C i j → m.st.grid i j ≠ -1 ∧ g0 i j ≠ -2
  quiet : m.destinationReached = false → m.continueChecking = false →
    ∀ i j, inGrid R C i j → m.st.grid i j ≠ (k : Int) + 1
  found : m.destinationReached = true → m.continueChecking = false ∧
    inGrid R C m.st.destinationRow m.st.destinationCol ∧
    g0 m.st.destinationRow m.st.destinationCol = -2 ∧
    ∃ a : Int × Int, inGrid R C a.1 a.2 ∧ m.st.grid a.1 a.2 = k ∧
      adjacent a (m.st.destinationRow, m.st.destinationCol)

/-- Invariant at the head of the expansion loop, `k` passes done. -/
structure LoopInv (R C : Nat) (g0 : Grid) (k : Nat) (m : Scan) : Prop where
  depth : m.st.currentDepth = k
  notReached : m.destinationReached = false
  layers : Layers R C g0 k k m.st.grid
  nodest : NoDest R C g0 k

/-- The expansion loop has stopped on the destination `b`, found from a cell of layer `k`. -/
structure Found (R C : Nat) (g0 : Grid) (b : Int × Int) (k : Nat) (m : Scan) : Prop where
  reached : m.destinationReached = true
  depth : m.st.currentDepth = (k : Int) + 1
  layers : Layers R C g0 (k + 1) k m.st.grid
  nodest : NoDest R C g0 k
  drow : m.st.destinationRow = b.1
  dcol : m.st.destinationCol = b.2
  parent : ∃ a : Int × Int, inGrid R C a.1 a.2 ∧ m.st.grid a.1 a.2 = k ∧ adjacent a b

/-- The expansion loop has stopped by exhaustion after the pass at depth `k`. -/
structure Exhausted (R C : Nat) (g0 : Grid) (k : Nat) (m : Scan) : Prop where
  notReached : m.destinationReached = false
  depth : m.st.currentDepth = (k : Int) + 1
  layers : Layers R C g0 k k m.st.grid
  nodest : NoDest R C g0 (k + 1)
  last : ∀ c, ¬ Dist R C g0 (k + 1) c

/-- Invariant of the loop of `backtrack_grid` when the depth counter is `m`: the layers up to
`m` are as expansion left them, each layer above `m` (up to `k`) is reduced to one cell
`p n`, these cells form a chain ending at the destination `b`, and the walk stands on
`p (m + 1)`. -/
structure BackInv (R C : Nat) (g0 : Grid) (b : Int × Int) (k m : Nat) (w : Walk) : Prop where
  depth : w.st.currentDepth = m
  mle : m ≤ k
  layers : Layers R C g0 k m w.st.grid
  chain : ∃ p : Nat → Int × Int, p (k + 1) = b ∧ p (m + 1) = (w.currentRow, w.currentCol) ∧
    ∀ n, m < n → n ≤ k → inGrid R C (p n).1 (p n).2 ∧ w.st.grid (p n).1 (p n).2 = n ∧
      adjacent (p n) (p (n + 1)) ∧ ∀ i j, inGrid R C i j → w.st.grid i j = n → (i, j) = p n
  pred : 1 ≤ m → ∃ c : Int × Int, inGrid R C c.1 c.2 ∧
    adjacent (w.currentRow, w.currentCol) c ∧ w.st.grid c.1 c.2 = m

/-! ## Counters, scan orders and the reconstruction loop of the specification -/

/-- Number of iterations of the `while (continueChecking)` loop of `main` run from `m`, with
the same bound on the number of loop tests as `expansion`. -/
def expansion_passes (R C : Nat) : Nat → Scan → Option Nat
  | 0, _ => none
  | fuel + 1, m =>
    if m.continueChecking then (expansion_passes R C fuel (scan_pass R C m)).map (· + 1)
    else some 0

/-- Number of iterations of the `while (currentDepth > 0)` loop of `backtrack_grid` run from
`w`, with the same bound as `backtrack_loop`. -/
def backtrack_iterations (R C : Nat) : Nat → Walk → Nat
  | 0, _ => 0
  | n + 1, w =>
    if w.st.currentDepth > 0 then backtrack_iterations R C n (backtrack_step R C w) + 1 else 0

/-- The grid `g` during a pass at depth `d` started on the grid `g0`: a cell is unchanged, or
it was free, lies in the grid and now holds `d + 1`. -/
def PassChange (R C : Nat) (d : Int) (g0 g : Grid) : Prop :=
  ∀ i j, g i j = g0 i j ∨ (g0 i j = -1 ∧ g i j = d + 1 ∧ inGrid R C i j)

/-- Invariant of one pass at depth `d` started on the grid `g0`, for any grid. -/
def ChangeInv (R C : Nat) (d : Int) (g0 : Grid) (m : Scan) : Prop :=
  m.st.currentDepth = d ∧ PassChange R C d g0 m.st.grid ∧
    (m.continueChecking = true →
      ∃ i j, inGrid R C i j ∧ g0 i j = -1 ∧ m.st.grid i j = d + 1)

/-- The 3×3 grid `. . .` / `. S .` / `. D .`: the destination is the last neighbour of the
start in the scan order of `modify_adjacent`. -/
def gridAdjacent : Grid := ofRows [[-1, -1, -1], [-1, 0, -1], [-1, -2, -1]]

/-- The neighbours of `(r, c)` in the scan order of `modify_adjacent`: east, north, west,
south. -/
def expansion_order (r c : Int) : List (Int × Int) :=
  [(r, c + 1), (r - 1, c), (r, c - 1), (r + 1, c)]

/-- The neighbours of `(r, c)` in the scan order of `backtrack_grid`: east, south, west,
north. -/
def backtrack_order (r c : Int) : List (Int × Int) :=
  [(r, c + 1), (r + 1, c), (r, c - 1), (r - 1, c)]

/-- The first neighbour of `(r, c)`, in the order of `backtrack_grid`, for which
`get_cell_info` returns the current depth. -/
def first_holding (R C : Nat) (s : State) (r c : Int) : Option (Int × Int) :=
  (backtrack_order r c).find? fun x => decide (get_cell_info R C s x.1 x.2 = s.currentDepth)

/-- The 2×2 grid `S .` / `. D`. -/
def grid2x2 : Grid := ofRows [[0, -1], [-1, -2]]

/-- The loop variables of `main` on the 2×2 grid `S .` / `. D` when the second pass starts:
the first pass is done and `continueChecking` has been cleared. -/
def scan2x2 : Scan :=
  { scan_pass 2 2
      { st := { grid := grid2x2, destinationRow := 0, destinationCol := 0, currentDepth := 0 },
        continueChecking := true, destinationReached := false } with
    continueChecking := false }

/-- State of `modify_adjacent` between two neighbour blocks with the exact content of the
grid: the free in-grid cells among the neighbours `done` hold the next layer, every other
cell is as on entry. -/
structure Exact (R C : Nat) (s0 : State) (done : List (Int × Int)) (p : State × Bool) :
    Prop where
  depth : p.1.currentDepth = s0.currentDepth
  drow : p.1.destinationRow = s0.destinationRow
  dcol : p.1.destinationCol = s0.destinationCol
  grid : ∀ i j, p.1.grid i j =
    if (i, j) ∈ done ∧ inGrid R C i j ∧ s0.grid i j = -1 then s0.currentDepth + 1
    else s0.grid i j

/-- Step 1 of the reconstruction loop in the words of the specification ("Prune: for every
grid cell, if its state equals Layer(currentDepth) and it is not the current position,
reset it to Free"). -/
def spec_prune (R C : Nat) (g : Grid) (depth : Int) (cur : Int × Int) : Grid :=
  fun i j => if inGrid R C i j ∧ g i j = depth ∧ (i, j) ≠ cur then -1 else g i j

/-- Step 2 of the reconstruction loop in the words of the specification ("Step back: scan
the four orthogonal neighbors of the current position in a fixed order (east, south, west,
north) for one holding Layer(currentDepth)"): the first such neighbour, if there is one. -/
def spec_step_back (R C : Nat) (g : Grid) (depth : Int) (cur : Int × Int) :
    Option (Int × Int) :=
  (backtrack_order cur.1 cur.2).find? fun x => decide (inGrid R C x.1 x.2 ∧ g x.1 x.2 = depth)

/-- The reconstruction loop in the words of the specification: while `currentDepth > 0`,
(1) prune around the current position, (2) step back onto the first neighbour holding
`Layer(currentDepth)`, (3) decrement `currentDepth`. -/
def spec_reconstruct_loop (R C : Nat) : Nat → Grid → Int → Int × Int → Grid
  | 0, g, _, _ => g
  | n + 1, g, depth, cur =>
    if depth > 0 then
      let g1 := spec_prune R C g depth cur
      let cur1 := (spec_step_back R C g1 depth cur).getD cur
      spec_reconstruct_loop R C n g1 (depth - 1) cur1
    else g

/-- The reconstruction of the specification run on the globals left by expansion, the
current position initialised to `destinationCell`. -/
def spec_reconstruct (R C : Nat) (s : State) : Grid :=
  spec_reconstruct_loop R C s.currentDepth.toNat s.grid s.currentDepth
    (s.destinationRow, s.destinationCol)

/-- The reconstruction loop with the two first steps of the specification exchanged: while
`currentDepth > 0`, (1) look for the first neighbour holding `Layer(currentDepth)`, (2) if
there is one, prune around it and move onto it, (3) decrement `currentDepth`. -/
def amended_reconstruct_loop (R C : Nat) : Nat → Grid → Int → Int × Int → Grid
  | 0, g, _, _ => g
  | n + 1, g, depth, cur =>
    if depth > 0 then
      match spec_step_back R C g depth cur with
      | some nb => amended_reconstruct_loop R C n (spec_prune R C g depth nb) (depth - 1) nb
      | none => amended_reconstruct_loop R C n g (depth - 1) cur
    else g

/-- The amended reconstruction run on the globals left by expansion: one prune around
`destinationCell`, then the amended loop started there. -/
def amended_reconstruct (R C : Nat) (s : State) : Grid :=
  amended_reconstruct_loop R C s.currentDepth.toNat
    (spec_prune R C s.grid s.currentDepth (s.destinationRow, s.destinationCol))
    s.currentDepth (s.destinationRow, s.destinationCol)

end Grassfire

/-!
# Knight's tour (`knightstour.c`)

A shallow embedding of `jumpValid`, `allVisited` and the recursive `jump` of `knightstour.c`.
The board dimensions `NUM_FILES`, `NUM_RANKS` are the parameters `F`, `Rk`; the array
`visitedSpaces` is a function from (file, rank) to `Int`, whose values outside the bounds
stand for whatever an out-of-bounds read returns.
-/

namespace KnightsTour

/-- The board `visitedSpaces`: contents indexed by file and rank. A read outside the bounds
of the array yields whatever the function holds there. -/
abbrev Board := Int → Int → Int

/-- Assignment `visitedSpaces[file][rank] = v`. -/
def setSquare (b : Board) (file rank v : Int) : Board :=
  fun f r => if f = file ∧ r = rank then v else b f r

/-- Coordinates inside the `F × Rk` board (`NUM_FILES`, `NUM_RANKS`). -/
def inBoard (F Rk : Nat) (file rank : Int) : Prop :=
  0 ≤ file ∧ file < F ∧ 0 ≤ rank ∧ rank < Rk

instance (F Rk : Nat) (file rank : Int) : Decidable (inBoard F Rk file rank) := by
  unfold inBoard; infer_instance

/-- The global array `jumpCoords`. -/
def jumpCoords : List Int := [1, -1, 2, -2]

/-- Function `jumpValid`: the square is read first, then the bounds are tested. -/
def jumpValid (F Rk : Nat) (visitedSpaces : Board)
    (currentFile currentRank jumpFiles jumpRanks : Int) : Bool :=
  let newFile := currentFile + jumpFiles
  let newRank := currentRank + jumpRanks
  if visitedSpaces newFile newRank ≠ 0 ∨ newFile < 0 ∨ newFile ≥ F ∨ newRank < 0 ∨ newRank ≥ Rk
  then false else true

/-- Function `allVisited`: `false` at the first square holding 0. -/
def allVisited (F Rk : Nat) (visitedSpaces : Board) : Bool :=
  (List.range F).all fun (file : Nat) =>
    (List.range Rk).all fun (rank : Nat) => decide (visitedSpaces file rank ≠ 0)

/-- The pairs `(jumpCoords[i], jumpCoords[j])` in the order of the two nested `for` loops of
`jump`. -/
def jumpPairs : List (Int × Int) :=
  jumpCoords.flatMap fun a => jumpCoords.map fun b => (a, b)

/-- The two nested `for` loops of `jump` over the remaining pairs `(filesToJump,
ranksToJump)`, `rec` being the recursive call of `jump`: `none` when a recursive call ran out
of fuel, `some (board, some d)` on the early `return returnDepth`, `some (board, none)` when
the loops end. -/
def jump_loop (F Rk : Nat) (rec : Board → Int → Int → Int → Int → Int → Option (Board × Int))
    (depth currentFile currentRank : Int) :
    List (Int × Int) → Board → Option (Board × Option Int)
  | [], b => some (b, none)
  | (filesToJump, ranksToJump) :: rest, b =>
    if filesToJump.natAbs = ranksToJump.natAbs then
      jump_loop F Rk rec depth currentFile currentRank rest b
    else if jumpValid F Rk b currentFile currentRank filesToJump ranksToJump then
      match rec b depth currentFile currentRank filesToJump ranksToJump with
      | none => none
      | some (b', returnDepth) =>
        if returnDepth > 0 then some (b', some returnDepth)
        else jump_loop F Rk rec depth currentFile currentRank rest b'
    else jump_loop F Rk rec depth currentFile currentRank rest b

/-- Function `jump` with a bound on the recursion depth (`none` when it is reached): returns
the board and the return value. -/
def jump (F Rk : Nat) : Nat → Board → Int → Int → Int → Int → Int → Option (Board × Int)
  | 0, _, _, _, _, _, _ => none
  | fuel + 1, visitedSpaces, lastDepth, lastFile, lastRank, filesJumped, ranksJumped =>
    let depth := lastDepth + 1
    let currentFile := lastFile + filesJumped
    let currentRank := lastRank + ranksJumped
    let b1 := setSquare visitedSpaces currentFile currentRank depth
    if allVisited F Rk b1 then some (b1, depth)
    else
      match jump_loop F Rk (jump F Rk fuel) depth currentFile currentRank jumpPairs b1 with
      | none => none
      | some (b2, some returnDepth) => some (b2, returnDepth)
      | some (b2, none) => some (setSquare b2 currentFile currentRank 0, -1)

/-- The board as printed by `printBoard` would list it, file by file. -/
def squares (F Rk : Nat) (b : Board) : List (List Int) :=
  (List.range F).map fun (f : Nat) => (List.range Rk).map fun (r : Nat) => b f r

/-- The all-zero board set up by `main`. -/
def emptyBoard : Board := fun _ _ => 0

/-- The squares `a` and `b` are one knight's move apart. -/
def knightMove (a b : Int × Int) : Prop :=
  ((b.1 - a.1).natAbs = 1 ∧ (b.2 - a.2).natAbs = 2) ∨
    ((b.1 - a.1).natAbs = 2 ∧ (b.2 - a.2).natAbs = 1)

/-- The board `t` is a complete knight's tour starting at `(f0, r0)`: every square holds a
distinct integer between 1 and the number of squares, `(f0, r0)` holds 1, and the squares
holding `k` and `k + 1` are one knight's move apart. -/
def isTour (F Rk : Nat) (f0 r0 : Int) (t : Board) : Prop :=
  (∀ f r, inBoard F Rk f r → 1 ≤ t f r ∧ t f r ≤ (F * Rk : Nat)) ∧
  (∀ f r f' r', inBoard F Rk f r → inBoard F Rk f' r' → t f r = t f' r' → f = f' ∧ r = r') ∧
  t f0 r0 = 1 ∧
  (∀ f r f' r', inBoard F Rk f r → inBoard F Rk f' r' → t f' r' = t f r + 1 →
    knightMove (f, r) (f', r'))

/-- The squares of the `F × Rk` board. -/
def squareSet (F Rk : Nat) : Finset (Nat × Nat) := Finset.range F ×ˢ Finset.range Rk

/-- Number of squares of the board holding 0. -/
def zeroCount (F Rk : Nat) (b : Board) : Nat :=
  ((squareSet F Rk).filter fun c => b c.1 c.2 = 0).card

/-- The board `t` agrees with `b` on every square that `b` has marked. -/
def Extends (F Rk : Nat) (b t : Board) : Prop :=
  ∀ f r, inBoard F Rk f r → b f r ≠ 0 → t f r = b f r

/-- The board `b` holds the first `d` squares of a knight's path from `(f0, r0)`, numbered
1 to `d`, the last one being `cur`; every other square holds 0. -/
structure Prefix (F Rk : Nat) (f0 r0 : Int) (b : Board) (d : Nat) (cur : Int × Int) :
    Prop where
  range : ∀ f r, inBoard F Rk f r → 0 ≤ b f r ∧ b f r ≤ d
  inj : ∀ f r f' r', inBoard F Rk f r → inBoard F Rk f' r' → b f r ≠ 0 →
    b f r = b f' r' → f = f' ∧ r = r'
  first : 1 ≤ d → b f0 r0 = 1
  last : 1 ≤ d → inBoard F Rk cur.1 cur.2 ∧ b cur.1 cur.2 = d
  step : ∀ f r f' r', inBoard F Rk f r → inBoard F Rk f' r' → 1 ≤ b f r →
    b f' r' = b f r + 1 → knightMove (f, r) (f', r')
  zeros : zeroCount F Rk b + d = F * Rk

/-- The call of `jump` succeeded from the board `b1`: it returns the number of squares and
leaves a complete tour that keeps the marks of `b1`. -/
def Success (F Rk : Nat) (f0 r0 : Int) (b1 b' : Board) (r : Int) : Prop :=
  r = ((F * Rk : Nat) : Int) ∧ isTour F Rk f0 r0 b' ∧ Extends F Rk b1 b'

/-- No complete tour from `(f0, r0)` keeps the marks of `b1`. -/
def NoTour (F Rk : Nat) (f0 r0 : Int) (b1 : Board) : Prop :=
  ¬ ∃ t, isTour F Rk f0 r0 t ∧ Extends F Rk b1 t

/-- The recursive call `rec` behaves as `jump` should on the board `b1`, where `d` squares
are marked and the knight stands on `cur`. -/
def RecSpec (F Rk : Nat) (f0 r0 : Int)
    (rec : Board → Int → Int → Int → Int → Int → Option (Board × Int)) (b1 : Board) (d : Nat)
    (cur : Int × Int) : Prop :=
  ∀ fj rj, inBoard F Rk (cur.1 + fj) (cur.2 + rj) → b1 (cur.1 + fj) (cur.2 + rj) = 0 →
    knightMove cur (cur.1 + fj, cur.2 + rj) →
    ∃ b' r, rec b1 d cur.1 cur.2 fj rj = some (b', r) ∧
      (Success F Rk f0 r0 (setSquare b1 (cur.1 + fj) (cur.2 + rj) ((d : Int) + 1)) b' r ∨
        (r = -1 ∧ b' = b1 ∧
          NoTour F Rk f0 r0 (setSquare b1 (cur.1 + fj) (cur.2 + rj) ((d : Int) + 1))))

end KnightsTour

namespace Grassfire

/-! ## Effect of `modify_adjacent` -/

theorem Stamped.refl (R C : Nat) (d : Int) (a : Int × Int) (g : Grid) : Stamped R C d a g g :=
  fun _ _ => Or.inl rfl

theorem adjacent_symm {a b : Int × Int} (h : adjacent a b) : adjacent b a := by
  unfold adjacent at *; omega

theorem adjacent_cases {row col i j : Int} (h : adjacent (row, col) (i, j)) :
    (i = row ∧ j = col + 1) ∨ (i = row - 1 ∧ j = col) ∨ (i = row ∧ j = col - 1) ∨
      (i = row + 1 ∧ j = col) := by
  unfold adjacent at h; simp only at h; omega

theorem get_cell_info_in {R C : Nat} (s : State) {r c : Int} (h : inGrid R C r c) :
    get_cell_info R C s r c = s.grid r c := by
  unfold get_cell_info inGrid at *
  rw [if_neg (by omega)]

theorem get_cell_info_out {R C : Nat} (s : State) {r c : Int} (h : ¬ inGrid R C r c) :
    get_cell_info R C s r c = -4 := by
  unfold get_cell_info inGrid at *
  rw [if_pos (by omega)]

theorem check_neighbour_error {R C : Nat} {p : State × Bool} {r c : Int} {s' : State}
    (h : check_neighbour R C p r c = Except.error s') :
    inGrid R C r c ∧ p.1.grid r c = -2 ∧
      s' = { p.1 with destinationRow := r, destinationCol := c } := by
  unfold check_neighbour at h
  by_cases hin : inGrid R C r c
  · rw [get_cell_info_in _ hin] at h
    by_cases h2 : p.1.grid r c = -2
    · simp only [h2, if_true] at h
      injection h with h
      exact ⟨hin, h2, h.symm⟩
    · by_cases h1 : p.1.grid r c = -1 <;> simp [h2, h1] at h
  · rw [get_cell_info_out _ hin] at h
    simp at h

theorem check_neighbour_ok {R C : Nat} {p p' : State × Bool} {r c : Int}
    (h : check_neighbour R C p r c = Except.ok p') :
    (inGrid R C r c → p.1.grid r c ≠ -2) ∧
      ((inGrid R C r c ∧ p.1.grid r c = -1 ∧
          p' = ({ p.1 with grid := setCell p.1.grid r c (p.1.currentDepth + 1) }, true)) ∨
        (¬ (inGrid R C r c ∧ p.1.grid r c = -1) ∧ p' = p)) := by
  unfold check_neighbour at h
  by_cases hin : inGrid R C r c
  · rw [get_cell_info_in _ hin] at h
    by_cases h2 : p.1.grid r c = -2
    · simp [h2] at h
    · by_cases h1 : p.1.grid r c = -1
      · simp only [h1] at h
        simp only [if_true, show ¬ ((-1 : Int) = -2) by decide, if_false] at h
        injection h with h
        exact ⟨fun _ => h2, Or.inl ⟨hin, h1, h.symm⟩⟩
      · simp only [h2, h1, if_false] at h
        injection h with h
        exact ⟨fun _ => h2, Or.inr ⟨fun hg => h1 hg.2, h.symm⟩⟩
  · rw [get_cell_info_out _ hin] at h
    simp only [show ¬ ((-4 : Int) = -2) by decide, show ¬ ((-4 : Int) = -1) by decide,
      if_false] at h
    injection h with h
    exact ⟨fun hg => absurd hg hin, Or.inr ⟨fun hg => hin hg.1, h.symm⟩⟩

theorem Probe.start (R C : Nat) (s0 : State) (a : Int × Int) :
    Probe R C s0 a [] (s0, false) where
  depth := rfl
  drow := rfl
  dcol := rfl
  stamped := Stamped.refl _ _ _ _ _
  closed := by simp
  flagT := by simp
  flagF := fun _ => rfl

theorem Probe.error {R C : Nat} {s0 : State} {a : Int × Int} {done : List (Int × Int)}
    {p : State × Bool} (hd : 0 ≤ s0.currentDepth) (hp : Probe R C s0 a done p) {r c : Int}
    {s' : State} (h : check_neighbour R C p r c = Except.error s') :
    inGrid R C r c ∧ s0.grid r c = -2 ∧ s'.currentDepth = s0.currentDepth ∧
      s'.destinationRow = r ∧ s'.destinationCol = c ∧
      Stamped R C s0.currentDepth a s0.grid s'.grid := by
  obtain ⟨hin, h2, rfl⟩ := check_neighbour_error h
  refine ⟨hin, ?_, hp.depth, rfl, rfl, hp.stamped⟩
  rcases hp.stamped r c with h' | ⟨_, h', _⟩
  · rw [← h']; exact h2
  · rw [h'] at h2; omega

theorem Probe.ok {R C : Nat} {s0 : State} {a : Int × Int} {done : List (Int × Int)}
    {p : State × Bool} (hd : 0 ≤ s0.currentDepth) (hp : Probe R C s0 a done p) {r c : Int}
    (ha : adjacent a (r, c)) {p' : State × Bool}
    (h : check_neighbour R C p r c = Except.ok p') :
    Probe R C s0 a ((r, c) :: done) p' := by
  obtain ⟨hne, h' | h'⟩ := check_neighbour_ok h
  · obtain ⟨hin, h1, rfl⟩ := h'
    have hs0 : s0.grid r c = -1 := by
      rcases hp.stamped r c with h' | ⟨h', _⟩
      · rw [← h']; exact h1
      · exact h'
    refine ⟨hp.depth, hp.drow, hp.dcol, ?_, ?_, ?_, ?_⟩
    · intro i j
      by_cases hij : i = r ∧ j = c
      · obtain ⟨rfl, rfl⟩ := hij
        right
        refine ⟨hs0, ?_, hin, ha⟩
        simp [setCell, hp.depth]
      · simp only [setCell, if_neg hij]
        exact hp.stamped i j
    · intro x hx hxin
      simp only [setCell]
      rcases List.mem_cons.1 hx with rfl | hx
      · simp only [and_self, if_true]
        refine ⟨by have := hp.depth; omega, ?_⟩
        rw [hs0]; decide
      · split_ifs with hxe
        · refine ⟨by have := hp.depth; omega, ?_⟩
          rw [hxe.1, hxe.2, hs0]; decide
        · exact hp.closed x hx hxin
    · intro _
      exact ⟨r, c, hin, hs0, by simp [setCell, hp.depth]⟩
    · intro hf; simp at hf
  · obtain ⟨hn, hpp⟩ := h'
    rw [hpp]
    refine ⟨hp.depth, hp.drow, hp.dcol, hp.stamped, ?_, hp.flagT, hp.flagF⟩
    intro x hx hxin
    rcases List.mem_cons.1 hx with rfl | hx
    · have hne' := hne hxin
      have hn1 : p.1.grid r c ≠ -1 := fun h1 => hn ⟨hxin, h1⟩
      refine ⟨hn1, ?_⟩
      rcases hp.stamped r c with h' | ⟨h', _⟩
      · rw [← h']; exact hne'
      · simp only at h' ⊢; rw [h']; decide
    · exact hp.closed x hx hxin

theorem adjacent_right (row col : Int) : adjacent (row, col) (row, col + 1) := by
  unfold adjacent; simp

theorem adjacent_top (row col : Int) : adjacent (row, col) (row - 1, col) := by
  unfold adjacent; simp

theorem adjacent_left (row col : Int) : adjacent (row, col) (row, col - 1) := by
  unfold adjacent; simp

theorem adjacent_bottom (row col : Int) : adjacent (row, col) (row + 1, col) := by
  unfold adjacent; simp

theorem modSpec_of_error {R C : Nat} {s : State} {row col : Int} {done : List (Int × Int)}
    {p : State × Bool} (hd : 0 ≤ s.currentDepth) (hp : Probe R C s (row, col) done p)
    {r c : Int} (ha : adjacent (row, col) (r, c)) {s' : State}
    (h : check_neighbour R C p r c = Except.error s') :
    ModSpec R C s row col (s', -2) := by
  obtain ⟨hin, h2, hdep, hr, hc, hst⟩ := hp.error hd h
  exact ⟨hdep, hst, fun _ => ⟨r, c, ha, hin, h2, hr, hc⟩, fun h => absurd rfl h,
    fun h => absurd rfl h, Or.inl rfl, fun h => by simp at h, fun h => by simp at h⟩

theorem modify_adjacent_spec (R C : Nat) (s : State) (row col : Int)
    (hd : 0 ≤ s.currentDepth) : ModSpec R C s row col (modify_adjacent R C s row col) := by
  unfold modify_adjacent
  have h0 := Probe.start R C s (row, col)
  cases h1 : check_neighbour R C (s, false) row (col + 1) with
  | error s1 => exact modSpec_of_error hd h0 (adjacent_right _ _) h1
  | ok p1 =>
    dsimp only
    have hp1 := h0.ok hd (adjacent_right _ _) h1
    cases h2 : check_neighbour R C p1 (row - 1) col with
    | error s2 => exact modSpec_of_error hd hp1 (adjacent_top _ _) h2
    | ok p2 =>
      dsimp only
      have hp2 := hp1.ok hd (adjacent_top _ _) h2
      cases h3 : check_neighbour R C p2 row (col - 1) with
      | error s3 => exact modSpec_of_error hd hp2 (adjacent_left _ _) h3
      | ok p3 =>
        dsimp only
        have hp3 := hp2.ok hd (adjacent_left _ _) h3
        cases h4 : check_neighbour R C p3 (row + 1) col with
        | error s4 => exact modSpec_of_error hd hp3 (adjacent_bottom _ _) h4
        | ok p4 =>
          have hp4 := hp3.ok hd (adjacent_bottom _ _) h4
          dsimp only
          refine ⟨hp4.depth, hp4.stamped, ?_, fun _ => ⟨hp4.drow, hp4.dcol⟩, ?_, ?_, ?_, ?_⟩
          · intro h; split_ifs at h
          · intro _ i j hadj hin
            rcases adjacent_cases hadj with ⟨rfl, rfl⟩ | ⟨rfl, rfl⟩ | ⟨rfl, rfl⟩ | ⟨rfl, rfl⟩
            · exact hp4.closed (i, col + 1) (by simp) hin
            · exact hp4.closed (row - 1, j) (by simp) hin
            · exact hp4.closed (i, col - 1) (by simp) hin
            · exact hp4.closed (row + 1, j) (by simp) hin
          · cases p4.2 <;> simp
          · intro h
            apply hp4.flagT
            cases hb : p4.2 <;> simp [hb] at h ⊢
          · intro h
            apply hp4.flagF
            cases hb : p4.2 <;> simp [hb] at h ⊢

/-! ## The nested `for` loops as one scan over the cells in row-major order -/

theorem mem_cellList {R C : Nat} {c : Int × Int} : c ∈ cellList R C ↔ inGrid R C c.1 c.2 := by
  unfold cellList inGrid
  simp only [List.mem_flatMap, List.mem_map, List.mem_range]
  constructor
  · rintro ⟨i, hi, j, hj, rfl⟩
    simp only
    omega
  · intro h
    refine ⟨c.1.toNat, by omega, c.2.toNat, by omega, ?_⟩
    ext
    · simp only; omega
    · simp only; omega

theorem nested_foldl_eq {σ : Type} (f : σ → Int → Int → σ) (C : Nat) (l : List Nat) (s : σ) :
    l.foldl (fun s (i : Nat) => (List.range C).foldl (fun s (j : Nat) => f s i j) s) s =
      (l.flatMap fun (i : Nat) =>
        (List.range C).map fun (j : Nat) => ((i : Int), (j : Int))).foldl
        (fun s c => f s c.1 c.2) s := by
  induction l generalizing s with
  | nil => rfl
  | cons i l ih =>
    rw [List.foldl_cons, List.flatMap_cons, List.foldl_append, List.foldl_map, ih]

theorem foldl_prefix_inv {α σ : Type} (step : σ → α → σ) (I : List α → σ → Prop)
    (l : List α) (s0 : σ) (h0 : I [] s0)
    (hstep : ∀ pre x s, x ∈ l → I pre s → I (pre ++ [x]) (step s x)) :
    I l (l.foldl step s0) := by
  have key : ∀ (l' pre : List α) (s : σ), (∀ x ∈ l', x ∈ l) → I pre s →
      I (pre ++ l') (l'.foldl step s) := by
    intro l'
    induction l' with
    | nil => intro pre s _ h; simpa using h
    | cons x l' ih =>
      intro pre s hmem h
      have := ih (pre ++ [x]) (step s x) (fun y hy => hmem y (List.mem_cons_of_mem _ hy))
        (hstep pre x s (hmem x (List.mem_cons_self _ _)) h)
      simpa using this
  simpa using key l [] s0 (fun _ h => h) h0

theorem scan_cell_reached {R C : Nat} {m : Scan} (h : m.destinationReached = true) (i j : Int) :
    scan_cell R C m i j = m := by
  unfold scan_cell; simp [h]

theorem scan_row_reached {R C : Nat} {m : Scan} (h : m.destinationReached = true) (i : Int) :
    scan_row R C m i = m := by
  unfold scan_row
  induction (List.range C) with
  | nil => rfl
  | cons j l ih => rw [List.foldl_cons, scan_cell_reached h]; exact ih

theorem scan_pass_eq (R C : Nat) (m : Scan) :
    scan_pass R C m =
      { scan_all R C m with
        st := { (scan_all R C m).st with
                currentDepth := (scan_all R C m).st.currentDepth + 1 } } := by
  have h : ∀ m' : Scan, (fun (m : Scan) (i : Nat) =>
      if m.destinationReached then m else scan_row R C m i) m' =
      fun (i : Nat) => (List.range C).foldl (fun m (j : Nat) => scan_cell R C m i j) m' := by
    intro m'
    funext i
    by_cases hr : m'.destinationReached = true
    · show (if m'.destinationReached = true then m' else scan_row R C m' i) = _
      rw [if_pos hr]
      exact (scan_row_reached hr i).symm
    · show (if m'.destinationReached = true then m' else scan_row R C m' i) = _
      rw [if_neg hr]; rfl
  unfold scan_pass scan_all cellList
  rw [← nested_foldl_eq (fun m i j => scan_cell R C m i j)]
  have h' : (fun (m : Scan) (i : Nat) =>
      if m.destinationReached then m else scan_row R C m i) =
      fun m (i : Nat) => (List.range C).foldl (fun m (j : Nat) => scan_cell R C m i j) m := by
    funext m'; exact h m'
  simp only [h']

theorem scrub_depth_eq (R C : Nat) (s : State) (kr kc : Int) :
    scrub_depth R C s kr kc =
      (cellList R C).foldl (fun s c => scrub_cell kr kc s c.1 c.2) s := by
  unfold scrub_depth cellList
  exact nested_foldl_eq (fun s i j => scrub_cell kr kc s i j) C _ s

/-! ## Termination of the expansion loop -/

theorem mem_cellSet_inGrid {R C : Nat} {c : Nat × Nat} (h : c ∈ cellSet R C) :
    inGrid R C c.1 c.2 := by
  unfold cellSet at h
  rw [Finset.mem_product, Finset.mem_range, Finset.mem_range] at h
  unfold inGrid; omega

theorem inGrid_mem_cellSet {R C : Nat} {i j : Int} (h : inGrid R C i j) :
    (i.toNat, j.toNat) ∈ cellSet R C ∧ ((i.toNat : Nat) : Int) = i ∧ ((j.toNat : Nat) : Int) = j := by
  unfold cellSet
  rw [Finset.mem_product, Finset.mem_range, Finset.mem_range]
  unfold inGrid at h
  simp only
  omega

theorem countCells_le_size (R C : Nat) (g : Grid) (p : Int → Prop) [DecidablePred p] :
    countCells R C g p ≤ R * C := by
  unfold countCells cellSet
  calc _ ≤ (Finset.range R ×ˢ Finset.range C).card := Finset.card_filter_le _ _
    _ = R * C := by rw [Finset.card_product, Finset.card_range, Finset.card_range]

theorem freeCount_le {R C : Nat} {g g' : Grid}
    (h : ∀ i j, inGrid R C i j → g' i j = -1 → g i j = -1) :
    freeCount R C g' ≤ freeCount R C g := by
  unfold freeCount countCells
  apply Finset.card_le_card
  intro c hc
  rw [Finset.mem_filter] at hc ⊢
  exact ⟨hc.1, h _ _ (mem_cellSet_inGrid hc.1) hc.2⟩

theorem freeCount_lt {R C : Nat} {g g' : Grid}
    (h : ∀ i j, inGrid R C i j → g' i j = -1 → g i j = -1)
    (hex : ∃ i j, inGrid R C i j ∧ g i j = -1 ∧ g' i j ≠ -1) :
    freeCount R C g' < freeCount R C g := by
  unfold freeCount countCells
  apply Finset.card_lt_card
  rw [Finset.ssubset_iff_of_subset]
  · obtain ⟨i, j, hin, hg, hg'⟩ := hex
    obtain ⟨hm, hi, hj⟩ := inGrid_mem_cellSet hin
    refine ⟨(i.toNat, j.toNat), ?_, ?_⟩
    · rw [Finset.mem_filter]
      simp only [hi, hj]
      exact ⟨hm, hg⟩
    · rw [Finset.mem_filter]
      simp only [hi, hj]
      exact fun hc => hg' hc.2
  · intro c hc
    rw [Finset.mem_filter] at hc ⊢
    exact ⟨hc.1, h _ _ (mem_cellSet_inGrid hc.1) hc.2⟩

theorem Stamped.free_mono {R C : Nat} {d : Int} {a : Int × Int} {g g' : Grid}
    (h : Stamped R C d a g g') (i j : Int) (h1 : g' i j = -1) : g i j = -1 := by
  rcases h i j with h' | ⟨h', h'', _⟩
  · rw [← h']; exact h1
  · exact h'

theorem scan_cell_skip {R C : Nat} {m : Scan} {i j : Int}
    (h : m.st.grid i j ≠ m.st.currentDepth) : scan_cell R C m i j = m := by
  unfold scan_cell; simp [h]

theorem scan_cell_visit {R C : Nat} {m : Scan} {i j : Int}
    (hr : m.destinationReached = false) (h : m.st.grid i j = m.st.currentDepth) :
    (scan_cell R C m i j).st = (modify_adjacent R C m.st i j).1 ∧
    ((modify_adjacent R C m.st i j).2 = -2 →
      (scan_cell R C m i j).destinationReached = true ∧
      (scan_cell R C m i j).continueChecking = false) ∧
    ((modify_adjacent R C m.st i j).2 = 1 →
      (scan_cell R C m i j).destinationReached = false ∧
      (scan_cell R C m i j).continueChecking = true) ∧
    ((modify_adjacent R C m.st i j).2 = 0 →
      (scan_cell R C m i j).destinationReached = false ∧
      (scan_cell R C m i j).continueChecking = m.continueChecking) := by
  unfold scan_cell
  simp only [hr, h, if_true, Bool.false_eq_true, if_false]
  refine ⟨?_, ?_, ?_, ?_⟩
  · split_ifs <;> rfl
  · intro h2; simp [h2]
  · intro h1; simp [h1, hr]
  · intro h0; simp [h0, hr]

theorem TermInv.scan_step {R C n : Nat} {d : Int} (hd : 0 ≤ d) {m : Scan} (h : TermInv R C n d m)
    (i j : Int) : TermInv R C n d (scan_cell R C m i j) := by
  by_cases hr : m.destinationReached = true
  · rw [scan_cell_reached hr]; exact h
  by_cases hg : m.st.grid i j = m.st.currentDepth
  · have hr' : m.destinationReached = false := by simpa using hr
    obtain ⟨hst, h2, h1, h0⟩ := scan_cell_visit (R := R) (C := C) hr' hg
    have hs := modify_adjacent_spec R C m.st i j (by rw [h.1]; exact hd)
    have hle : freeCount R C (modify_adjacent R C m.st i j).1.grid ≤ freeCount R C m.st.grid :=
      freeCount_le fun a b _ => hs.stamped.free_mono a b
    refine ⟨by rw [hst, hs.depth]; exact h.1, by rw [hst]; exact le_trans hle h.2.1, ?_⟩
    intro hc
    rw [hst]
    rcases hs.ret with hret | hret | hret
    · rw [(h2 hret).2] at hc; simp at hc
    · obtain ⟨a, b, hin, hf, hn⟩ := hs.one hret
      refine lt_of_lt_of_le (freeCount_lt
        (fun a b _ => hs.stamped.free_mono a b)
        ⟨a, b, hin, hf, ?_⟩) h.2.1
      rw [hn, h.1]; omega
    · rw [(h0 hret).2] at hc
      exact lt_of_le_of_lt hle (h.2.2 hc)
  · rw [scan_cell_skip hg]; exact h

theorem scan_all_term (R C : Nat) (m : Scan) (hd : 0 ≤ m.st.currentDepth) :
    TermInv R C (freeCount R C m.st.grid) m.st.currentDepth (scan_all R C m) := by
  unfold scan_all
  refine foldl_prefix_inv (fun (m : Scan) (c : Int × Int) => scan_cell R C m c.1 c.2)
    (fun _ x => TermInv R C (freeCount R C m.st.grid) m.st.currentDepth x) _ _ ?_ ?_
  · exact ⟨rfl, le_refl _, by simp⟩
  · intro _ c x _ hx
    exact hx.scan_step hd c.1 c.2

theorem expansion_terminates (R C : Nat) (fuel : Nat) (m : Scan) (hd : 0 ≤ m.st.currentDepth)
    (h1 : 1 ≤ fuel) (h2 : m.continueChecking = true → freeCount R C m.st.grid + 2 ≤ fuel) :
    ∃ m', expansion R C fuel m = some m' := by
  induction fuel generalizing m with
  | zero => omega
  | succ f ih =>
    unfold expansion
    by_cases hc : m.continueChecking = true
    · rw [if_pos hc]
      have ht := scan_all_term R C m hd
      have h2' := h2 hc
      apply ih
      · rw [scan_pass_eq]; simp only; rw [ht.1]; omega
      · omega
      · intro hc'
        rw [scan_pass_eq] at hc' ⊢
        simp only at hc' ⊢
        have := ht.2.2 hc'
        omega
    · rw [if_neg hc]; exact ⟨m, rfl⟩

theorem expand_terminates (R C : Nat) (g : Grid) : ∃ m, expand R C g = some m := by
  unfold expand
  apply expansion_terminates
  · simp
  · omega
  · intro _
    have := countCells_le_size R C g (fun v => v = -1)
    unfold freeCount
    simp only
    omega

/-! ## Distances in the input grid -/

theorem Reach.in_grid {R C : Nat} {g : Grid} {n : Nat} {c : Int × Int} (h : Reach R C g n c) :
    inGrid R C c.1 c.2 := by
  cases n with
  | zero => exact h.1
  | succ n => exact h.1

theorem Reach.value {R C : Nat} {g : Grid} {n : Nat} {c : Int × Int} (h : Reach R C g n c) :
    (n = 0 ∧ g c.1 c.2 = 0) ∨ (1 ≤ n ∧ g c.1 c.2 = -1) := by
  cases n with
  | zero => exact Or.inl ⟨rfl, h.2⟩
  | succ n => exact Or.inr ⟨by omega, h.2.1⟩

theorem Reach.exists_dist {R C : Nat} {g : Grid} {m : Nat} {c : Int × Int}
    (h : Reach R C g m c) : ∃ n, n ≤ m ∧ Dist R C g n c := by
  induction m using Nat.strong_induction_on with
  | _ m ih =>
    by_cases hm : ∀ k, k < m → ¬ Reach R C g k c
    · exact ⟨m, le_refl _, h, hm⟩
    · push_neg at hm
      obtain ⟨k, hk, hr⟩ := hm
      obtain ⟨n, hn, hd⟩ := ih k hk hr
      exact ⟨n, by omega, hd⟩

theorem Dist.pred {R C : Nat} {g : Grid} {n : Nat} {c : Int × Int}
    (h : Dist R C g (n + 1) c) : ∃ c', adjacent c' c ∧ Dist R C g n c' := by
  obtain ⟨⟨hin, hf, c', hadj, hr⟩, hmin⟩ := h
  refine ⟨c', hadj, hr, ?_⟩
  intro m hm hr'
  exact hmin (m + 1) (by omega) ⟨hin, hf, c', hadj, hr'⟩

theorem Dist.unique {R C : Nat} {g : Grid} {n m : Nat} {c : Int × Int}
    (h : Dist R C g n c) (h' : Dist R C g m c) : n = m := by
  rcases Nat.lt_trichotomy n m with hlt | heq | hgt
  · exact absurd h.1 (h'.2 n hlt)
  · exact heq
  · exact absurd h'.1 (h.2 m hgt)

theorem Dist.exists_below {R C : Nat} {g : Grid} {n : Nat} {c : Int × Int}
    (h : Dist R C g n c) (m : Nat) (hm : m ≤ n) : ∃ c', Dist R C g m c' := by
  induction n generalizing c with
  | zero =>
    have : m = 0 := by omega
    subst this; exact ⟨c, h⟩
  | succ n ih =>
    by_cases hmn : m = n + 1
    · subst hmn; exact ⟨c, h⟩
    · obtain ⟨c', _, hc'⟩ := h.pred
      exact ih hc' (by omega)

theorem countCells_one {R C : Nat} {g : Grid} {p : Int → Prop} [DecidablePred p]
    (h : countCells R C g p = 1) :
    ∃ a : Int × Int, inGrid R C a.1 a.2 ∧ p (g a.1 a.2) ∧
      ∀ i j, inGrid R C i j → p (g i j) → (i, j) = a := by
  unfold countCells at h
  obtain ⟨x, hx⟩ := Finset.card_eq_one.1 h
  have hxm : x ∈ (cellSet R C).filter fun c => p (g c.1 c.2) := by rw [hx]; simp
  rw [Finset.mem_filter] at hxm
  refine ⟨((x.1 : Int), (x.2 : Int)), mem_cellSet_inGrid hxm.1, hxm.2, ?_⟩
  intro i j hin hp
  obtain ⟨hm, hi, hj⟩ := inGrid_mem_cellSet hin
  have : (i.toNat, j.toNat) ∈ (cellSet R C).filter fun c => p (g c.1 c.2) := by
    rw [Finset.mem_filter]
    simp only [hi, hj]
    exact ⟨hm, hp⟩
  rw [hx, Finset.mem_singleton] at this
  rw [← this]
  simp only [hi, hj]

theorem Valid.exists_at {R C : Nat} {g : Grid} (h : Valid R C g) : ∃ a b, ValidAt R C g a b := by
  obtain ⟨h0, h2, hv⟩ := h
  obtain ⟨a, ha, hav, hau⟩ := countCells_one h0
  obtain ⟨b, hb, hbv, hbu⟩ := countCells_one h2
  refine ⟨a, b, ha, hav, hb, hbv, hau, hbu, ?_⟩
  intro i j hin
  obtain ⟨hm, hi, hj⟩ := inGrid_mem_cellSet hin
  have := hv _ hm
  simpa only [hi, hj] using this

/-! ## The wavefront invariant -/

theorem Layers.init {R C : Nat} {g0 : Grid} {a b : Int × Int} (hv : ValidAt R C g0 a b) :
    Layers R C g0 0 0 g0 where
  frame := fun _ _ _ => Or.inl rfl
  sound := by
    intro i j hin n hn
    have h0 : n = 0 := by
      rcases hv.vals i j hin with h | h | h | h <;> omega
    subst h0
    exact ⟨⟨hin, by simpa using hn⟩, fun m hm => by omega⟩
  complete := by
    intro i j _ n hn hd
    have h0 : n = 0 := by omega
    subst h0
    simpa using hd.1.2

theorem Layers.widen {R C : Nat} {g0 g : Grid} {b k : Nat} (h : Layers R C g0 b k g) :
    Layers R C g0 (b + 1) k g where
  frame := by
    intro i j hin
    rcases h.frame i j hin with h' | ⟨h', n, h1, h2, h3⟩
    · exact Or.inl h'
    · exact Or.inr ⟨h', n, h1, by omega, h3⟩
  sound := h.sound
  complete := h.complete

theorem Layers.free_input {R C : Nat} {g0 g : Grid} {b k : Nat} (h : Layers R C g0 b k g)
    {i j : Int} (hin : inGrid R C i j) (hf : g i j = -1) : g0 i j = -1 := by
  rcases h.frame i j hin with h' | ⟨h', _⟩
  · rw [← h']; exact hf
  · exact h'

theorem Layers.dest_iff {R C : Nat} {g0 g : Grid} {b k : Nat} (h : Layers R C g0 b k g)
    {i j : Int} (hin : inGrid R C i j) : g i j = -2 ↔ g0 i j = -2 := by
  rcases h.frame i j hin with h' | ⟨h', n, h1, _, h3⟩
  · rw [h']
  · constructor <;> intro h'' <;> omega

/-- Stamping the free neighbours of a cell of layer `k` keeps the wavefront invariant. -/
theorem Layers.stamp {R C : Nat} {g0 g g' : Grid} {k : Nat} (h : Layers R C g0 (k + 1) k g)
    {a : Int × Int} (ha : inGrid R C a.1 a.2) (hak : g a.1 a.2 = k)
    (hs : Stamped R C k a g g') : Layers R C g0 (k + 1) k g' where
  frame := by
    intro i j hin
    rcases hs i j with h' | ⟨hf, h', _, _⟩
    · rw [h']; exact h.frame i j hin
    · exact Or.inr ⟨h.free_input hin hf, k + 1, by omega, le_refl _, by rw [h']; simp⟩
  sound := by
    intro i j hin n hn
    rcases hs i j with h' | ⟨hf, h', _, hadj⟩
    · rw [h'] at hn; exact h.sound i j hin n hn
    · have hn' : n = k + 1 := by omega
      subst hn'
      have hda := h.sound a.1 a.2 ha k hak
      refine ⟨⟨hin, h.free_input hin hf, a, hadj, hda.1⟩, ?_⟩
      intro m hm hr
      obtain ⟨n', hn', hd'⟩ := hr.exists_dist
      have := h.complete i j hin n' (by omega) hd'
      omega
  complete := by
    intro i j hin n hn hd
    have hg := h.complete i j hin n hn hd
    rcases hs i j with h' | ⟨hf, _⟩
    · rw [h']; exact hg
    · omega

theorem PassInv.cell_step {R C : Nat} {g0 : Grid} {k : Nat} {pre : List (Int × Int)} {m : Scan}
    (h : PassInv R C g0 k pre m) {c : Int × Int} (hc : inGrid R C c.1 c.2) :
    PassInv R C g0 k (pre ++ [c]) (scan_cell R C m c.1 c.2) := by
  by_cases hr : m.destinationReached = true
  · rw [scan_cell_reached hr]
    exact ⟨h.depth, h.layers, fun h' => by rw [hr] at h'; simp at h',
      fun h' => by rw [hr] at h'; simp at h', h.found⟩
  have hr' : m.destinationReached = false := by simpa using hr
  by_cases hg : m.st.grid c.1 c.2 = m.st.currentDepth
  · obtain ⟨hst, h2, h1, h0⟩ := scan_cell_visit (R := R) (C := C) hr' hg
    have hd : 0 ≤ m.st.currentDepth := by rw [h.depth]; omega
    have hs := modify_adjacent_spec R C m.st c.1 c.2 hd
    have hstamp : Stamped R C k c m.st.grid (modify_adjacent R C m.st c.1 c.2).1.grid := by
      have := hs.stamped; rwa [h.depth] at this
    have hlay := h.layers.stamp hc (by rw [hg, h.depth]) hstamp
    have hkeep : ∀ i j, (modify_adjacent R C m.st c.1 c.2).1.grid i j = k →
        m.st.grid i j = k := by
      intro i j hk
      rcases hstamp i j with h' | ⟨_, h', _⟩
      · rw [← h']; exact hk
      · omega
    have hnf : ∀ i j, m.st.grid i j ≠ -1 →
        (modify_adjacent R C m.st c.1 c.2).1.grid i j ≠ -1 := by
      intro i j hk
      rcases hstamp i j with h' | ⟨h', _⟩
      · rw [h']; exact hk
      · exact absurd h' hk
    refine ⟨by rw [hst, hs.depth]; exact h.depth, by rw [hst]; exact hlay, ?_, ?_, ?_⟩
    · intro hnr x hx hxk i j hadj hin
      rw [hst] at hxk ⊢
      have hne2 : (modify_adjacent R C m.st c.1 c.2).2 ≠ -2 := by
        intro h2'; rw [(h2 h2').1] at hnr; simp at hnr
      rcases List.mem_append.1 hx with hx | hx
      · have := h.closed hr' x hx (hkeep _ _ hxk) i j hadj hin
        exact ⟨hnf i j this.1, this.2⟩
      · rw [List.mem_singleton] at hx
        subst hx
        have := hs.closed hne2 i j hadj hin
        exact ⟨this.1, fun h' => this.2 ((h.layers.dest_iff hin).2 h')⟩
    · intro hnr hq i j hin
      rw [hst]
      rcases hs.ret with hret | hret | hret
      · rw [(h2 hret).1] at hnr; simp at hnr
      · rw [(h1 hret).2] at hq; simp at hq
      · rw [hs.zero hret]
        rw [(h0 hret).2] at hq
        exact h.quiet hr' hq i j hin
    · intro hre
      rcases hs.ret with hret | hret | hret
      · obtain ⟨i, j, hadj, hin, hv, hdr, hdc⟩ := hs.found hret
        rw [hst, hdr, hdc]
        refine ⟨(h2 hret).2, hin, (h.layers.dest_iff hin).1 hv, c, hc, ?_, hadj⟩
        rcases hstamp c.1 c.2 with h' | ⟨h', _⟩
        · rw [h', hg, h.depth]
        · rw [hg, h.depth] at h'; omega
      · rw [(h1 hret).1] at hre; simp at hre
      · rw [(h0 hret).1] at hre; simp at hre
  · rw [scan_cell_skip hg]
    refine ⟨h.depth, h.layers, ?_, h.quiet, h.found⟩
    intro hnr x hx hxk i j hadj hin
    rcases List.mem_append.1 hx with hx | hx
    · exact h.closed hnr x hx hxk i j hadj hin
    · rw [List.mem_singleton] at hx
      subst hx
      rw [h.depth] at hg
      exact absurd hxk hg

/-! ## Correctness of the expansion loop -/

theorem LoopInv.scan_all {R C : Nat} {g0 : Grid} {a b : Int × Int} (hv : ValidAt R C g0 a b)
    {k : Nat} {m : Scan} (h : LoopInv R C g0 k m) :
    PassInv R C g0 k (cellList R C) (scan_all R C m) := by
  unfold Grassfire.scan_all
  refine foldl_prefix_inv (fun (m : Scan) (c : Int × Int) => scan_cell R C m c.1 c.2)
    (fun pre x => PassInv R C g0 k pre x) _ _ ?_ ?_
  · refine ⟨h.depth, h.layers.widen, by simp, ?_, ?_⟩
    · intro _ _ i j hin hk
      simp only at hk
      rcases h.layers.frame i j hin with h' | ⟨_, n, _, h2, h3⟩
      · rw [h'] at hk
        rcases hv.vals i j hin with h'' | h'' | h'' | h'' <;> omega
      · omega
    · intro hr
      have := h.notReached
      simp only at hr
      rw [hr] at this; simp at this
  · intro pre c x hc hx
    exact hx.cell_step (mem_cellList.1 hc)

theorem PassInv.complete_next {R C : Nat} {g0 : Grid} {k : Nat} {m : Scan}
    (h : PassInv R C g0 k (cellList R C) m) (hr : m.destinationReached = false) :
    Layers R C g0 (k + 1) (k + 1) m.st.grid where
  frame := h.layers.frame
  sound := h.layers.sound
  complete := by
    intro i j hin n hn hd
    by_cases hnk : n ≤ k
    · exact h.layers.complete i j hin n hnk hd
    · have hn' : n = k + 1 := by omega
      subst hn'
      obtain ⟨c', hadj, hc'⟩ := hd.pred
      have hin' := hc'.1.in_grid
      have hck := h.layers.complete c'.1 c'.2 hin' k (le_refl _) hc'
      have hcl := h.closed hr c' (mem_cellList.2 hin') hck i j hadj hin
      rcases h.layers.frame i j hin with h' | ⟨_, n, h1, h2, h3⟩
      · exfalso
        apply hcl.1
        rw [h']
        exact hd.1.2.1
      · have := (h.layers.sound i j hin n h3).unique hd
        rw [h3, this]

theorem PassInv.nodest_next {R C : Nat} {g0 : Grid} {k : Nat} {m : Scan}
    (h : PassInv R C g0 k (cellList R C) m) (hr : m.destinationReached = false)
    (hn : NoDest R C g0 k) : NoDest R C g0 (k + 1) := by
  intro n hnk c hc i j hadj hin
  obtain ⟨n', hn', hd'⟩ := hc.exists_dist
  by_cases hlt : n' < k
  · exact hn n' hlt c hd'.1 i j hadj hin
  · have : n' = k := by omega
    subst this
    have hin' := hc.in_grid
    have hck := h.layers.complete c.1 c.2 hin' n' (le_refl _) hd'
    exact (h.closed hr c (mem_cellList.2 hin') hck i j hadj hin).2

/-- What one pass of the expansion loop establishes. -/
theorem LoopInv.scan_pass {R C : Nat} {g0 : Grid} {a b : Int × Int} (hv : ValidAt R C g0 a b)
    {k : Nat} {m : Scan} (h : LoopInv R C g0 k m) :
    (Found R C g0 b k (scan_pass R C m) ∧ (scan_pass R C m).continueChecking = false) ∨
    (Exhausted R C g0 k (scan_pass R C m) ∧ (scan_pass R C m).continueChecking = false) ∨
    (LoopInv R C g0 (k + 1) (scan_pass R C m) ∧
      (scan_pass R C m).continueChecking = true) := by
  have hp := h.scan_all hv
  rw [scan_pass_eq]
  by_cases hr : (Grassfire.scan_all R C m).destinationReached = true
  · left
    obtain ⟨hc, hin, hd, p, hpin, hpk, hadj⟩ := hp.found hr
    have hb : (_, _) = b := hv.uniq2 _ _ hin hd
    refine ⟨⟨hr, by simp only; rw [hp.depth], hp.layers, h.nodest, ?_, ?_, p, hpin, hpk, ?_⟩, hc⟩
    · rw [← hb]
    · rw [← hb]
    · rw [← hb]; exact hadj
  · have hr' : (Grassfire.scan_all R C m).destinationReached = false := by simpa using hr
    have hl := hp.complete_next hr'
    have hn := hp.nodest_next hr' h.nodest
    by_cases hc : (Grassfire.scan_all R C m).continueChecking = true
    · right; right
      exact ⟨⟨by simp only; rw [hp.depth]; push_cast; ring, hr', hl, hn⟩, hc⟩
    · right; left
      have hc' : (Grassfire.scan_all R C m).continueChecking = false := by simpa using hc
      have hq := hp.quiet hr' hc'
      refine ⟨⟨hr', by simp only; rw [hp.depth], ⟨?_, hl.sound, ?_⟩, hn, ?_⟩, hc'⟩
      · intro i j hin
        rcases hl.frame i j hin with h' | ⟨h', n, h1, h2, h3⟩
        · exact Or.inl h'
        · refine Or.inr ⟨h', n, h1, ?_, h3⟩
          have := hq i j hin
          rw [h3] at this
          by_contra hcon
          have : n = k + 1 := by omega
          subst this
          simp at *
      · intro i j hin n hnk hd
        exact hl.complete i j hin n (by omega) hd
      · intro c hd
        have hin := hd.1.in_grid
        exact hq c.1 c.2 hin (by simpa using hl.complete c.1 c.2 hin (k + 1) (le_refl _) hd)

theorem expansion_correct {R C : Nat} {g0 : Grid} {a b : Int × Int} (hv : ValidAt R C g0 a b)
    (fuel : Nat) {k : Nat} {m m' : Scan} (h : LoopInv R C g0 k m)
    (hc : m.continueChecking = true) (he : expansion R C fuel m = some m') :
    (∃ k', Found R C g0 b k' m') ∨ (∃ k', Exhausted R C g0 k' m') := by
  induction fuel generalizing k m with
  | zero => simp [expansion] at he
  | succ f ih =>
    unfold expansion at he
    rw [if_pos hc] at he
    rcases h.scan_pass hv with ⟨hf, hc'⟩ | ⟨hx, hc'⟩ | ⟨hl, hc'⟩
    · cases f with
      | zero => simp [expansion] at he
      | succ f =>
        unfold expansion at he
        rw [hc'] at he
        simp only [Bool.false_eq_true, if_false, Option.some.injEq] at he
        rw [← he]; exact Or.inl ⟨k, hf⟩
    · cases f with
      | zero => simp [expansion] at he
      | succ f =>
        unfold expansion at he
        rw [hc'] at he
        simp only [Bool.false_eq_true, if_false, Option.some.injEq] at he
        rw [← he]; exact Or.inr ⟨k, hx⟩
    · exact ih hl hc' he

theorem expand_correct {R C : Nat} {g0 : Grid} {a b : Int × Int} (hv : ValidAt R C g0 a b) :
    ∃ m, expand R C g0 = some m ∧
      ((∃ k, Found R C g0 b k m) ∨ (∃ k, Exhausted R C g0 k m)) := by
  obtain ⟨m, hm⟩ := expand_terminates R C g0
  refine ⟨m, hm, ?_⟩
  unfold expand at hm
  refine expansion_correct hv _ (k := 0) ⟨rfl, rfl, Layers.init hv, ?_⟩ rfl hm
  intro n hn; omega

/-! ## `scrub_depth` and `backtrack_grid` -/

theorem scrub_fold_spec (kr kc : Int) (l : List (Int × Int)) (s : State) :
    (l.foldl (fun s c => scrub_cell kr kc s c.1 c.2) s).currentDepth = s.currentDepth ∧
    (l.foldl (fun s c => scrub_cell kr kc s c.1 c.2) s).destinationRow = s.destinationRow ∧
    (l.foldl (fun s c => scrub_cell kr kc s c.1 c.2) s).destinationCol = s.destinationCol ∧
    ∀ i j, (l.foldl (fun s c => scrub_cell kr kc s c.1 c.2) s).grid i j =
      if (i, j) ∈ l ∧ ¬ (i = kr ∧ j = kc) ∧ s.grid i j = s.currentDepth then -1
      else s.grid i j := by
  induction l generalizing s with
  | nil => simp
  | cons c l ih =>
    rw [List.foldl_cons]
    obtain ⟨h1, h2, h3, h4⟩ := ih (scrub_cell kr kc s c.1 c.2)
    have hd : (scrub_cell kr kc s c.1 c.2).currentDepth = s.currentDepth := by
      unfold scrub_cell; split_ifs <;> rfl
    have hr : (scrub_cell kr kc s c.1 c.2).destinationRow = s.destinationRow := by
      unfold scrub_cell; split_ifs <;> rfl
    have hc : (scrub_cell kr kc s c.1 c.2).destinationCol = s.destinationCol := by
      unfold scrub_cell; split_ifs <;> rfl
    refine ⟨h1.trans hd, h2.trans hr, h3.trans hc, ?_⟩
    intro i j
    rw [h4 i j, hd]
    have hg : (scrub_cell kr kc s c.1 c.2).grid i j =
        if (i, j) = c ∧ ¬ (i = kr ∧ j = kc) ∧ s.grid i j = s.currentDepth then -1
        else s.grid i j := by
      unfold scrub_cell
      by_cases hc' : (i, j) = c
      · subst hc'
        simp only [true_and]
        split_ifs with h5
        · simp [setCell]
        · rfl
      · have hne : ¬ (i = c.1 ∧ j = c.2) := fun h => hc' (Prod.ext h.1 h.2)
        simp only [hc', false_and, if_false]
        split_ifs
        · simp [setCell, hne]
        · rfl
    by_cases hk : ¬ (i = kr ∧ j = kc) ∧ s.grid i j = s.currentDepth
    · by_cases hc' : (i, j) = c
      · rw [if_pos ⟨hc', hk⟩] at hg
        have e : (if (i, j) ∈ c :: l ∧ ¬ (i = kr ∧ j = kc) ∧ s.grid i j = s.currentDepth
            then (-1 : Int) else s.grid i j) = -1 :=
          if_pos ⟨by rw [hc']; exact List.mem_cons_self _ _, hk⟩
        rw [e, hg]
        split_ifs <;> rfl
      · rw [if_neg (fun h => hc' h.1)] at hg
        rw [hg]
        by_cases hl : (i, j) ∈ l
        · rw [if_pos ⟨hl, hk⟩, if_pos ⟨List.mem_cons_of_mem _ hl, hk⟩]
        · rw [if_neg (fun h => hl h.1), if_neg]
          rintro ⟨h, _⟩
          rcases List.mem_cons.1 h with h | h
          · exact hc' h
          · exact hl h
    · rw [if_neg (fun h => hk h.2)] at hg
      rw [hg, if_neg (fun h => hk h.2), if_neg (fun h => hk h.2)]

theorem scrub_depth_spec (R C : Nat) (s : State) (kr kc : Int) :
    (scrub_depth R C s kr kc).currentDepth = s.currentDepth ∧
    (scrub_depth R C s kr kc).destinationRow = s.destinationRow ∧
    (scrub_depth R C s kr kc).destinationCol = s.destinationCol ∧
    ∀ i j, (scrub_depth R C s kr kc).grid i j =
      if inGrid R C i j ∧ ¬ (i = kr ∧ j = kc) ∧ s.grid i j = s.currentDepth then -1
      else s.grid i j := by
  rw [scrub_depth_eq]
  obtain ⟨h1, h2, h3, h4⟩ := scrub_fold_spec kr kc (cellList R C) s
  refine ⟨h1, h2, h3, ?_⟩
  intro i j
  rw [h4 i j]
  by_cases hq : inGrid R C i j ∧ ¬ (i = kr ∧ j = kc) ∧ s.grid i j = s.currentDepth
  · rw [if_pos hq, if_pos ⟨mem_cellList.2 hq.1, hq.2⟩]
  · rw [if_neg hq, if_neg (fun h => hq ⟨mem_cellList.1 h.1, h.2⟩)]

theorem get_cell_info_pos {R C : Nat} {s : State} {i j v : Int}
    (h : get_cell_info R C s i j = v) (hv : 0 ≤ v) : inGrid R C i j ∧ s.grid i j = v := by
  by_cases hin : inGrid R C i j
  · rw [get_cell_info_in _ hin] at h; exact ⟨hin, h⟩
  · rw [get_cell_info_out _ hin] at h; omega

/-- The loop body of `backtrack_grid` either moves onto a neighbour holding the current
depth, scrubbing the other cells of that depth, or stays because no neighbour holds it. -/
theorem backtrack_step_cases (R C : Nat) (w : Walk) (hd : 0 ≤ w.st.currentDepth) :
    (∃ nb : Int × Int, inGrid R C nb.1 nb.2 ∧ adjacent (w.currentRow, w.currentCol) nb ∧
      w.st.grid nb.1 nb.2 = w.st.currentDepth ∧
      backtrack_step R C w =
        { st := { scrub_depth R C w.st nb.1 nb.2 with
                  currentDepth := (scrub_depth R C w.st nb.1 nb.2).currentDepth - 1 },
          currentRow := nb.1, currentCol := nb.2 }) ∨
    ((∀ nb : Int × Int, inGrid R C nb.1 nb.2 → adjacent (w.currentRow, w.currentCol) nb →
        w.st.grid nb.1 nb.2 ≠ w.st.currentDepth) ∧
      backtrack_step R C w =
        { w with st := { w.st with currentDepth := w.st.currentDepth - 1 } }) := by
  unfold backtrack_step
  by_cases h1 : get_cell_info R C w.st w.currentRow (w.currentCol + 1) = w.st.currentDepth
  · left
    obtain ⟨hin, hg⟩ := get_cell_info_pos h1 hd
    exact ⟨(w.currentRow, w.currentCol + 1), hin, adjacent_right _ _, hg, by simp [h1]⟩
  by_cases h2 : get_cell_info R C w.st (w.currentRow + 1) w.currentCol = w.st.currentDepth
  · left
    obtain ⟨hin, hg⟩ := get_cell_info_pos h2 hd
    exact ⟨(w.currentRow + 1, w.currentCol), hin, adjacent_bottom _ _, hg, by simp [h1, h2]⟩
  by_cases h3 : get_cell_info R C w.st w.currentRow (w.currentCol - 1) = w.st.currentDepth
  · left
    obtain ⟨hin, hg⟩ := get_cell_info_pos h3 hd
    exact ⟨(w.currentRow, w.currentCol - 1), hin, adjacent_left _ _, hg, by simp [h1, h2, h3]⟩
  by_cases h4 : get_cell_info R C w.st (w.currentRow - 1) w.currentCol = w.st.currentDepth
  · left
    obtain ⟨hin, hg⟩ := get_cell_info_pos h4 hd
    exact ⟨(w.currentRow - 1, w.currentCol), hin, adjacent_top _ _, hg,
      by simp [h1, h2, h3, h4]⟩
  · right
    refine ⟨?_, by simp [h1, h2, h3, h4]⟩
    intro nb hin hadj hg
    obtain ⟨i, j⟩ := nb
    rcases adjacent_cases hadj with ⟨rfl, rfl⟩ | ⟨rfl, rfl⟩ | ⟨rfl, rfl⟩ | ⟨rfl, rfl⟩
    · exact h1 (by rw [get_cell_info_in _ hin]; exact hg)
    · exact h4 (by rw [get_cell_info_in _ hin]; exact hg)
    · exact h3 (by rw [get_cell_info_in _ hin]; exact hg)
    · exact h2 (by rw [get_cell_info_in _ hin]; exact hg)

theorem BackInv.step {R C : Nat} {g0 : Grid} {a b : Int × Int} (hv : ValidAt R C g0 a b)
    {k m : Nat} {w : Walk} (h : BackInv R C g0 b k (m + 1) w) :
    BackInv R C g0 b k m (backtrack_step R C w) := by
  have hd : 0 ≤ w.st.currentDepth := by rw [h.depth]; omega
  rcases backtrack_step_cases R C w hd with ⟨nb, hnin, hnadj, hnv, hstep⟩ | ⟨hno, _⟩
  swap
  · obtain ⟨c, hc, hadj, hcv⟩ := h.pred (by omega)
    exact absurd (by rw [hcv, h.depth]) (hno c hc hadj)
  obtain ⟨s1, s2, s3, s4⟩ := scrub_depth_spec R C w.st nb.1 nb.2
  rw [h.depth] at hnv s1 s4
  rw [hstep]
  have hsame : ∀ i j, w.st.grid i j ≠ ((m + 1 : Nat) : Int) →
      (scrub_depth R C w.st nb.1 nb.2).grid i j = w.st.grid i j := by
    intro i j hne
    rw [s4, if_neg (fun hh => hne hh.2.2)]
  have hnbv : (scrub_depth R C w.st nb.1 nb.2).grid nb.1 nb.2 = ((m + 1 : Nat) : Int) := by
    rw [s4, if_neg (fun hh => hh.2.1 ⟨rfl, rfl⟩)]; exact hnv
  have hscr : ∀ i j, inGrid R C i j → (i, j) ≠ nb → w.st.grid i j = ((m + 1 : Nat) : Int) →
      (scrub_depth R C w.st nb.1 nb.2).grid i j = -1 := by
    intro i j hin hne hval
    rw [s4, if_pos ⟨hin, fun hh => hne (Prod.ext hh.1 hh.2), hval⟩]
  have hback : ∀ i j, ∀ n : Nat, (scrub_depth R C w.st nb.1 nb.2).grid i j = n →
      w.st.grid i j = n := by
    intro i j n hn
    by_cases hif : inGrid R C i j ∧ ¬ (i = nb.1 ∧ j = nb.2) ∧
        w.st.grid i j = ((m + 1 : Nat) : Int)
    · rw [s4, if_pos hif] at hn; omega
    · rw [s4, if_neg hif] at hn; exact hn
  obtain ⟨p, hpb, hpc, hp⟩ := h.chain
  refine ⟨by simp only; rw [s1]; push_cast; ring, by have := h.mle; omega, ⟨?_, ?_, ?_⟩, ?_, ?_⟩
  · intro i j hin
    simp only
    by_cases hval : w.st.grid i j = ((m + 1 : Nat) : Int)
    · by_cases hne : (i, j) = nb
      · have : (scrub_depth R C w.st nb.1 nb.2).grid i j = w.st.grid i j := by
          rw [s4, if_neg (fun hh =>
            hh.2.1 ⟨congrArg Prod.fst hne, congrArg Prod.snd hne⟩)]
        rw [this]; exact h.layers.frame i j hin
      · rw [hscr i j hin hne hval]
        rcases h.layers.frame i j hin with h' | ⟨h', _⟩
        · rcases hv.vals i j hin with h'' | h'' | h'' | h'' <;> omega
        · exact Or.inl h'.symm
    · rw [hsame i j hval]; exact h.layers.frame i j hin
  · intro i j hin n hn
    exact h.layers.sound i j hin n (hback i j n hn)
  · intro i j hin n hn hdist
    simp only
    have := h.layers.complete i j hin n (by omega) hdist
    rw [hsame i j (by rw [this]; omega)]; exact this
  · refine ⟨Function.update p (m + 1) nb, ?_, ?_, ?_⟩
    · rw [Function.update_noteq (by have := h.mle; omega)]; exact hpb
    · rw [Function.update_same]
    · intro n hmn hnk
      by_cases hn : n = m + 1
      · subst hn
        rw [Function.update_same, Function.update_noteq (by omega), hpc]
        refine ⟨hnin, hnbv, adjacent_symm hnadj, ?_⟩
        intro i j hin hval
        by_contra hne
        have h1 := hback i j _ hval
        have := hscr i j hin hne h1
        simp only at hval
        omega
      · rw [Function.update_noteq hn, Function.update_noteq (by omega)]
        obtain ⟨q1, q2, q3, q4⟩ := hp n (by omega) hnk
        refine ⟨q1, ?_, q3, ?_⟩
        · simp only
          rw [hsame _ _ (by rw [q2]; omega)]; exact q2
        · intro i j hin hval
          exact q4 i j hin (hback i j n hval)
  · intro hm1
    have hdn := h.layers.sound nb.1 nb.2 hnin (m + 1) hnv
    obtain ⟨c', hadj, hc'⟩ := hdn.pred
    have hin' := hc'.1.in_grid
    have hcv := h.layers.complete c'.1 c'.2 hin' m (by omega) hc'
    refine ⟨c', hin', adjacent_symm hadj, ?_⟩
    simp only
    rw [hsame _ _ (by rw [hcv]; omega)]; exact hcv

theorem BackInv.loop {R C : Nat} {g0 : Grid} {a b : Int × Int} (hv : ValidAt R C g0 a b)
    {k : Nat} (m : Nat) {w : Walk} (h : BackInv R C g0 b k m w) :
    BackInv R C g0 b k 0 (backtrack_loop R C m w) := by
  induction m generalizing w with
  | zero => exact h
  | succ m ih =>
    unfold backtrack_loop
    rw [if_pos (by rw [h.depth]; push_cast; omega)]
    exact ih (h.step hv)

/-- The first iteration of the loop of `backtrack_grid`, entered with the counter one above
the last layer: the cells of the unfinished layer `k + 1` are scrubbed and the walk stays on
the destination. -/
theorem Found.backtrack_init {R C : Nat} {g0 : Grid} {a b : Int × Int}
    (hv : ValidAt R C g0 a b) {k : Nat} {m : Scan} (h : Found R C g0 b k m) :
    BackInv R C g0 b k k (backtrack_step R C
      { st := scrub_depth R C m.st m.st.destinationRow m.st.destinationCol,
        currentRow := m.st.destinationRow, currentCol := m.st.destinationCol }) := by
  obtain ⟨s1, s2, s3, s4⟩ := scrub_depth_spec R C m.st m.st.destinationRow m.st.destinationCol
  rw [h.drow, h.dcol] at s1 s4 ⊢
  rw [h.depth] at s1 s4
  have hbv : m.st.grid b.1 b.2 = -2 := (h.layers.dest_iff hv.bin).2 hv.bval
  have hnone : ∀ i j, inGrid R C i j →
      (scrub_depth R C m.st b.1 b.2).grid i j ≠ (k : Int) + 1 := by
    intro i j hin hval
    by_cases hif : inGrid R C i j ∧ ¬ (i = b.1 ∧ j = b.2) ∧ m.st.grid i j = (k : Int) + 1
    · rw [s4, if_pos hif] at hval; omega
    · rw [s4, if_neg hif] at hval
      apply hif
      refine ⟨hin, ?_, hval⟩
      rintro ⟨rfl, rfl⟩
      omega
  have hsame : ∀ i j, m.st.grid i j ≠ (k : Int) + 1 →
      (scrub_depth R C m.st b.1 b.2).grid i j = m.st.grid i j := by
    intro i j hne
    rw [s4, if_neg (fun hh => hne hh.2.2)]
  have hd : 0 ≤ (scrub_depth R C m.st b.1 b.2).currentDepth := by rw [s1]; omega
  rcases backtrack_step_cases R C
    { st := scrub_depth R C m.st b.1 b.2, currentRow := b.1, currentCol := b.2 } hd with
    ⟨nb, hnin, _, hnv, _⟩ | ⟨_, hstep⟩
  · simp only at hnv
    rw [s1] at hnv
    exact absurd hnv (hnone _ _ hnin)
  rw [hstep]
  refine ⟨by simp only; rw [s1]; ring, le_refl _, ⟨?_, ?_, ?_⟩, ?_, ?_⟩
  · intro i j hin
    simp only
    rcases h.layers.frame i j hin with h' | ⟨h', n, h1, h2, h3⟩
    · left
      rw [hsame i j]
      · exact h'
      · rw [h']
        rcases hv.vals i j hin with h'' | h'' | h'' | h'' <;> omega
    · by_cases hn : n = k + 1
      · left
        subst hn
        have hnb : ¬ (i = b.1 ∧ j = b.2) := by
          rintro ⟨rfl, rfl⟩
          omega
        rw [s4, if_pos ⟨hin, hnb, by rw [h3]; push_cast; ring⟩, h']
      · right
        refine ⟨h', n, h1, by omega, ?_⟩
        rw [hsame i j (by rw [h3]; omega)]; exact h3
  · intro i j hin n hn
    simp only at hn
    apply h.layers.sound i j hin n
    by_cases hif : inGrid R C i j ∧ ¬ (i = b.1 ∧ j = b.2) ∧ m.st.grid i j = (k : Int) + 1
    · rw [s4, if_pos hif] at hn; omega
    · rw [s4, if_neg hif] at hn; exact hn
  · intro i j hin n hn hdist
    simp only
    have := h.layers.complete i j hin n hn hdist
    rw [hsame i j (by rw [this]; omega)]; exact this
  · exact ⟨fun _ => b, rfl, rfl, fun n h1 h2 => by omega⟩
  · intro hk
    obtain ⟨p, hpin, hpv, hadj⟩ := h.parent
    refine ⟨p, hpin, adjacent_symm hadj, ?_⟩
    simp only
    rw [hsame _ _ (by rw [hpv]; omega)]; exact hpv

theorem Found.backtrack {R C : Nat} {g0 : Grid} {a b : Int × Int}
    (hv : ValidAt R C g0 a b) {k : Nat} {m : Scan} (h : Found R C g0 b k m) :
    ∃ w, BackInv R C g0 b k 0 w ∧ backtrack_grid R C m.st = w.st := by
  refine ⟨_, (h.backtrack_init hv).loop hv k, ?_⟩
  unfold backtrack_grid
  simp only
  rw [h.depth]
  have : ((k : Int) + 1).toNat = k + 1 := by omega
  rw [this]
  conv_lhs => unfold backtrack_loop
  rw [if_pos]
  simp only
  rw [(scrub_depth_spec R C m.st _ _).1, h.depth]
  omega

/-! ## Walks as lists of cells -/

theorem isFreeWalk.reach {R C : Nat} {g : Grid} {c : Int × Int} {p : List (Int × Int)}
    (h : isFreeWalk R C g c p) : ∃ n, p.length = n + 1 ∧ Reach R C g n c := by
  induction p using List.reverseRecOn generalizing c with
  | nil =>
    obtain ⟨_, _, ⟨a, ha, _⟩, _⟩ := h
    simp at ha
  | append_singleton l x ih =>
    obtain ⟨hch, hin, ⟨a, ha, hav⟩, hlast, hfree⟩ := h
    rw [List.getLast?_concat] at hlast
    injection hlast with hlast
    subst hlast
    by_cases hl : l = []
    · subst hl
      simp only [List.nil_append, List.head?_cons, Option.some.injEq] at ha
      subst ha
      exact ⟨0, by simp, hin _ (by simp), hav⟩
    · obtain ⟨c', hc'⟩ : ∃ c', l.getLast? = some c' := by
        cases hg : l.getLast? with
        | none => exact absurd (List.getLast?_eq_none_iff.1 hg) hl
        | some c' => exact ⟨c', rfl⟩
      rw [List.chain'_append] at hch
      rw [List.tail_append_of_ne_nil hl] at hfree
      rw [List.head?_append_of_ne_nil _ hl] at ha
      have hw : isFreeWalk R C g c' l :=
        ⟨hch.1, fun y hy => hin y (List.mem_append_left _ hy), ⟨a, ha, hav⟩, hc',
          fun y hy => hfree y (List.mem_append_left _ hy)⟩
      obtain ⟨n, hn, hr⟩ := ih hw
      refine ⟨n + 1, by simp [hn], hin _ (by simp), hfree _ (by simp), c', ?_, hr⟩
      exact hch.2.2 c' (by simp [hc']) x (by simp)

theorem Reach.walk {R C : Nat} {g : Grid} {n : Nat} {c : Int × Int} (h : Reach R C g n c) :
    ∃ p, isFreeWalk R C g c p ∧ p.length = n + 1 := by
  induction n generalizing c with
  | zero =>
    refine ⟨[c], ⟨by simp, ?_, ⟨c, rfl, h.2⟩, rfl, by simp⟩, rfl⟩
    intro x hx
    rw [List.mem_singleton] at hx
    subst hx
    exact h.1
  | succ n ih =>
    obtain ⟨hin, hf, c', hadj, hr⟩ := h
    obtain ⟨p, ⟨hch, hpin, ⟨a, ha, hav⟩, hlast, hfree⟩, hlen⟩ := ih hr
    have hne : p ≠ [] := by
      intro hp; subst hp; simp at hlen
    refine ⟨p ++ [c], ⟨?_, ?_, ⟨a, ?_, hav⟩, List.getLast?_concat _, ?_⟩, by simp [hlen]⟩
    · rw [List.chain'_append]
      refine ⟨hch, by simp, ?_⟩
      intro x hx y hy
      rw [hlast] at hx
      simp only [Option.mem_def, Option.some.injEq, List.head?_cons] at hx hy
      subst hx; subst hy
      exact hadj
    · intro x hx
      rcases List.mem_append.1 hx with hx | hx
      · exact hpin x hx
      · rw [List.mem_singleton] at hx; subst hx; exact hin
    · rw [List.head?_append_of_ne_nil _ hne]; exact ha
    · rw [List.tail_append_of_ne_nil hne]
      intro x hx
      rcases List.mem_append.1 hx with hx | hx
      · exact hfree x hx
      · rw [List.mem_singleton] at hx; subst hx; exact hf

theorem Dist.shortest {R C : Nat} {g : Grid} {n : Nat} {c : Int × Int} (h : Dist R C g n c) :
    shortestDistance R C g c n := by
  refine ⟨h.1.walk, ?_⟩
  intro p hp
  obtain ⟨m, hm, hr⟩ := hp.reach
  by_contra hlt
  exact h.2 m (by omega) hr

theorem shortestDistance.dist {R C : Nat} {g : Grid} {n : Nat} {c : Int × Int}
    (h : shortestDistance R C g c n) : Dist R C g n c := by
  obtain ⟨⟨p, hp, hlen⟩, hmin⟩ := h
  obtain ⟨m, hm, hr⟩ := hp.reach
  have : m = n := by omega
  subst this
  refine ⟨hr, ?_⟩
  intro k hk hr'
  obtain ⟨q, hq, hqlen⟩ := hr'.walk
  have := hmin q hq
  omega

/-- A free path is a free walk to a neighbour of the destination, followed by the
destination. -/
theorem isFreePath.reach_neighbour {R C : Nat} {g : Grid} {p : List (Int × Int)}
    (h : isFreePath R C g p) :
    ∃ n c d, p.length = n + 2 ∧ Reach R C g n c ∧ adjacent c d ∧
      inGrid R C d.1 d.2 ∧ g d.1 d.2 = -2 := by
  obtain ⟨⟨hch, hin, ⟨a, ha, hav⟩, ⟨d, hd, hdv⟩⟩, hfree⟩ := h
  rcases List.eq_nil_or_concat p with rfl | ⟨l, x, rfl⟩
  · simp at ha
  rw [List.concat_eq_append] at *
  rw [List.getLast?_concat] at hd
  injection hd with hd
  subst hd
  have hl : l ≠ [] := by
    intro hl
    subst hl
    simp only [List.nil_append, List.head?_cons, Option.some.injEq] at ha
    subst ha
    omega
  obtain ⟨c, hc⟩ : ∃ c, l.getLast? = some c := by
    cases hg : l.getLast? with
    | none => exact absurd (List.getLast?_eq_none_iff.1 hg) hl
    | some c => exact ⟨c, rfl⟩
  rw [List.chain'_append] at hch
  rw [List.tail_append_of_ne_nil hl, List.dropLast_concat] at hfree
  rw [List.head?_append_of_ne_nil _ hl] at ha
  have hw : isFreeWalk R C g c l :=
    ⟨hch.1, fun y hy => hin y (List.mem_append_left _ hy), ⟨a, ha, hav⟩, hc, hfree⟩
  obtain ⟨n, hn, hr⟩ := hw.reach
  exact ⟨n, c, x, by simp [hn], hr, hch.2.2 c (by simp [hc]) x (by simp), hin _ (by simp), hdv⟩

theorem Reach.freePath {R C : Nat} {g : Grid} {n : Nat} {c d : Int × Int}
    (h : Reach R C g n c) (hadj : adjacent c d) (hin : inGrid R C d.1 d.2)
    (hd : g d.1 d.2 = -2) : ∃ p, isFreePath R C g p ∧ p.length = n + 2 := by
  obtain ⟨p, ⟨hch, hpin, ⟨a, ha, hav⟩, hlast, hfree⟩, hlen⟩ := h.walk
  have hne : p ≠ [] := by
    intro hp; subst hp; simp at hlen
  refine ⟨p ++ [d], ⟨⟨?_, ?_, ⟨a, ?_, hav⟩, ⟨d, List.getLast?_concat _, hd⟩⟩, ?_⟩,
    by simp [hlen]⟩
  · rw [List.chain'_append]
    refine ⟨hch, by simp, ?_⟩
    intro x hx y hy
    rw [hlast] at hx
    simp only [Option.mem_def, Option.some.injEq, List.head?_cons] at hx hy
    subst hx; subst hy
    exact hadj
  · intro x hx
    rcases List.mem_append.1 hx with hx | hx
    · exact hpin x hx
    · rw [List.mem_singleton] at hx; subst hx; exact hin
  · rw [List.head?_append_of_ne_nil _ hne]; exact ha
  · rw [List.tail_append_of_ne_nil hne, List.dropLast_concat]
    exact hfree

/-! ## The two outcomes of `main` -/

theorem main_cases {R C : Nat} {g : Grid} {a b : Int × Int} (hv : ValidAt R C g a b) :
    (∃ m k w, expand R C g = some m ∧ Found R C g b k m ∧ BackInv R C g b k 0 w ∧
        backtrack_grid R C m.st = w.st ∧ main R C g = some (Outcome.PathFound, w.st)) ∨
    (∃ m k, expand R C g = some m ∧ Exhausted R C g k m ∧
        main R C g = some (Outcome.NoPathFound, m.st)) := by
  obtain ⟨m, hm, ⟨k, hf⟩ | ⟨k, hx⟩⟩ := expand_correct hv
  · left
    obtain ⟨w, hw, hb⟩ := hf.backtrack hv
    refine ⟨m, k, w, hm, hf, hw, hb, ?_⟩
    unfold main
    rw [hm]
    simp only [hf.reached, if_true, hb]
  · right
    refine ⟨m, k, hm, hx, ?_⟩
    unfold main
    rw [hm]
    simp only [hx.notReached, Bool.false_eq_true, if_false]

theorem Layers.final_frame {R C : Nat} {g0 g : Grid} {b k : Nat} (h : Layers R C g0 b k g)
    (i j : Int) (hin : inGrid R C i j) : g i j = g0 i j ∨ (g0 i j = -1 ∧ 1 ≤ g i j) := by
  rcases h.frame i j hin with h' | ⟨h', n, h1, _, h3⟩
  · exact Or.inl h'
  · exact Or.inr ⟨h', by omega⟩

theorem Found.path {R C : Nat} {g : Grid} {a b : Int × Int} (hv : ValidAt R C g a b)
    {k : Nat} {m : Scan} (h : Found R C g b k m) : shortestPathLength R C g (k + 1) := by
  obtain ⟨p, hpin, hpv, hadj⟩ := h.parent
  have hd := h.layers.sound p.1 p.2 hpin k hpv
  refine ⟨hd.1.freePath hadj hv.bin hv.bval, ?_⟩
  intro q hq
  obtain ⟨n, c, d, hlen, hr, hadj', hdin, hdv⟩ := hq.reach_neighbour
  by_contra hlt
  exact h.nodest n (by omega) c hr d.1 d.2 hadj' hdin hdv

theorem Exhausted.bounded {R C : Nat} {g : Grid} {k : Nat} {m : Scan}
    (h : Exhausted R C g k m) {n : Nat} {c : Int × Int} (hd : Dist R C g n c) : n ≤ k := by
  by_contra hlt
  obtain ⟨c', hc'⟩ := hd.exists_below (k + 1) (by omega)
  exact h.last c' hc'

theorem Exhausted.no_path {R C : Nat} {g : Grid} {k : Nat} {m : Scan}
    (h : Exhausted R C g k m) : ¬ ∃ p, isFreePath R C g p := by
  rintro ⟨p, hp⟩
  obtain ⟨n, c, d, _, hr, hadj, hdin, hdv⟩ := hp.reach_neighbour
  obtain ⟨n', _, hd'⟩ := hr.exists_dist
  have := h.bounded hd'
  exact h.nodest n' (by omega) c hd'.1 d.1 d.2 hadj hdin hdv

theorem countCells_congr {R C : Nat} {g g' : Grid} {p : Int → Prop} [DecidablePred p]
    (h : ∀ i j, inGrid R C i j → (p (g' i j) ↔ p (g i j))) :
    countCells R C g' p = countCells R C g p := by
  unfold countCells
  congr 1
  apply Finset.filter_congr
  intro c hc
  exact h _ _ (mem_cellSet_inGrid hc)

/-- Both outcomes leave a grid that differs from the input only on free cells, which may
hold a layer number. -/
theorem main_frame {R C : Nat} {g : Grid} (h : Valid R C g) :
    ∃ o s, main R C g = some (o, s) ∧
      ∀ i j, inGrid R C i j → s.grid i j = g i j ∨ (g i j = -1 ∧ 1 ≤ s.grid i j) := by
  obtain ⟨a, b, hv⟩ := h.exists_at
  rcases main_cases hv with ⟨m, k, w, _, _, hw, _, hmain⟩ | ⟨m, k, _, hx, hmain⟩
  · exact ⟨_, _, hmain, hw.layers.final_frame⟩
  · exact ⟨_, _, hmain, hx.layers.final_frame⟩

theorem backtrack_positions_head (R C : Nat) (n : Nat) (w : Walk) :
    (w.currentRow, w.currentCol) ∈ backtrack_positions R C n w := by
  cases n <;> simp [backtrack_positions]

theorem backtrack_step_stable (R C : Nat) (w : Walk) (hd : 0 ≤ w.st.currentDepth) :
    (backtrack_step R C w).st.currentDepth = w.st.currentDepth - 1 ∧
    ∀ i j v, w.st.currentDepth < v →
      ((backtrack_step R C w).st.grid i j = v ↔ w.st.grid i j = v) := by
  rcases backtrack_step_cases R C w hd with ⟨nb, _, _, _, hstep⟩ | ⟨_, hstep⟩
  · obtain ⟨s1, _, _, s4⟩ := scrub_depth_spec R C w.st nb.1 nb.2
    rw [hstep]
    refine ⟨by simp only; rw [s1], ?_⟩
    intro i j v hv
    simp only
    by_cases hif : inGrid R C i j ∧ ¬ (i = nb.1 ∧ j = nb.2) ∧ w.st.grid i j = w.st.currentDepth
    · rw [s4, if_pos hif]
      constructor <;> intro h <;> omega
    · rw [s4, if_neg hif]
  · rw [hstep]
    exact ⟨rfl, fun _ _ _ _ => Iff.rfl⟩

theorem backtrack_loop_stable (R C : Nat) (n : Nat) (w : Walk) (hd : 0 ≤ w.st.currentDepth)
    (i j v : Int) (hv : w.st.currentDepth < v) :
    (backtrack_loop R C n w).st.grid i j = v ↔ w.st.grid i j = v := by
  induction n generalizing w with
  | zero => rfl
  | succ n ih =>
    unfold backtrack_loop
    by_cases hpos : w.st.currentDepth > 0
    · rw [if_pos hpos]
      obtain ⟨h1, h2⟩ := backtrack_step_stable R C w hd
      rw [ih _ (by rw [h1]; omega) (by rw [h1]; omega)]
      exact h2 i j v hv
    · rw [if_neg hpos]

theorem BackInv.loop_visited {R C : Nat} {g0 : Grid} {a b : Int × Int} (hv : ValidAt R C g0 a b)
    {k : Nat} (m : Nat) {w : Walk} (h : BackInv R C g0 b k m w) (i j : Int)
    (hin : inGrid R C i j) (n : Nat) (h1 : 1 ≤ n) (hn : n ≤ m)
    (hval : (backtrack_loop R C m w).st.grid i j = n) :
    (i, j) ∈ backtrack_positions R C m w := by
  induction m generalizing w with
  | zero => omega
  | succ m ih =>
    have hpos : w.st.currentDepth > 0 := by rw [h.depth]; push_cast; omega
    unfold backtrack_loop at hval
    unfold backtrack_positions
    rw [if_pos hpos] at hval ⊢
    apply List.mem_cons_of_mem
    have h' := h.step hv
    by_cases hnm : n ≤ m
    · exact ih h' hnm hval
    · have hnm' : n = m + 1 := by omega
      subst hnm'
      rw [backtrack_loop_stable R C m _ (by rw [h'.depth]; omega) i j _
        (by rw [h'.depth]; push_cast; omega)] at hval
      obtain ⟨p, _, hpc, hp⟩ := h'.chain
      have := (hp (m + 1) (by omega) h.mle).2.2.2 i j hin hval
      rw [this, hpc]
      exact backtrack_positions_head _ _ _ _

theorem Found.walk_visited {R C : Nat} {g0 : Grid} {a b : Int × Int} (hv : ValidAt R C g0 a b)
    {k : Nat} {m : Scan} (h : Found R C g0 b k m) (i j : Int) (hin : inGrid R C i j)
    (n : Nat) (h1 : 1 ≤ n) (hval : (backtrack_grid R C m.st).grid i j = n) :
    (i, j) ∈ Grassfire.visited R C m.st := by
  have hk : ((k : Int) + 1).toNat = k + 1 := by omega
  have hinit := h.backtrack_init hv
  have hloop := hinit.loop hv k
  unfold backtrack_grid at hval
  unfold Grassfire.visited
  simp only at hval
  rw [h.depth, hk] at hval ⊢
  have hpos : (scrub_depth R C m.st m.st.destinationRow m.st.destinationCol).currentDepth > 0 := by
    rw [(scrub_depth_spec R C m.st _ _).1, h.depth]; omega
  unfold backtrack_loop at hval
  unfold backtrack_positions
  simp only at hval ⊢
  rw [if_pos hpos] at hval ⊢
  apply List.mem_cons_of_mem
  have hnk : n ≤ k := by
    rcases hloop.layers.frame i j hin with h' | ⟨_, n', _, h2, h3⟩
    · rw [hval] at h'
      rcases hv.vals i j hin with h'' | h'' | h'' | h'' <;> omega
    · rw [hval] at h3; omega
  exact hinit.loop_visited hv k i j hin n h1 hnk hval

/-! ## Facts shared by the final theorems -/

theorem BackInv.count {R C : Nat} {g0 : Grid} {a b : Int × Int} (hv : ValidAt R C g0 a b)
    {k : Nat} {w : Walk} (h : BackInv R C g0 b k 0 w) :
    countCells R C w.st.grid (fun v => 1 ≤ v) = k := by
  obtain ⟨p, _, _, hp⟩ := h.chain
  have hlab : ∀ i j, inGrid R C i j → 1 ≤ w.st.grid i j →
      ∃ n : Nat, 1 ≤ n ∧ n ≤ k ∧ w.st.grid i j = n := by
    intro i j hin h1
    rcases h.layers.frame i j hin with h' | ⟨_, n, h2, h3, h4⟩
    · rw [h'] at h1
      rcases hv.vals i j hin with h'' | h'' | h'' | h'' <;> omega
    · exact ⟨n, h2, h3, h4⟩
  have hcard : (Finset.Icc 1 k).card = k := by simp
  unfold countCells
  rw [← hcard]
  refine Finset.card_bij (fun c _ => (w.st.grid c.1 c.2).toNat) ?_ ?_ ?_
  · intro c hc
    rw [Finset.mem_filter] at hc
    obtain ⟨n, h1, h2, h3⟩ := hlab _ _ (mem_cellSet_inGrid hc.1) hc.2
    rw [Finset.mem_Icc]
    simp only [h3, Int.toNat_ofNat]
    exact ⟨h1, h2⟩
  · intro c1 hc1 c2 hc2 heq
    rw [Finset.mem_filter] at hc1 hc2
    obtain ⟨n1, h1, h2, h3⟩ := hlab _ _ (mem_cellSet_inGrid hc1.1) hc1.2
    obtain ⟨n2, h1', h2', h3'⟩ := hlab _ _ (mem_cellSet_inGrid hc2.1) hc2.2
    simp only [h3, h3', Int.toNat_ofNat] at heq
    subst heq
    have e1 := (hp n1 (by omega) h2).2.2.2 _ _ (mem_cellSet_inGrid hc1.1) h3
    have e2 := (hp n1 (by omega) h2).2.2.2 _ _ (mem_cellSet_inGrid hc2.1) h3'
    have := e1.trans e2.symm
    simp only [Prod.mk.injEq, Nat.cast_inj] at this
    exact Prod.ext this.1 this.2
  · intro n hn
    rw [Finset.mem_Icc] at hn
    obtain ⟨q1, q2, _, _⟩ := hp n (by omega) hn.2
    obtain ⟨hm, hi, hj⟩ := inGrid_mem_cellSet q1
    refine ⟨((p n).1.toNat, (p n).2.toNat), ?_, ?_⟩
    · rw [Finset.mem_filter]
      simp only [hi, hj]
      exact ⟨hm, by rw [q2]; exact_mod_cast hn.1⟩
    · simp only [hi, hj, q2, Int.toNat_ofNat]

theorem mem_route_cases {c : Int × Int} {p : List (Int × Int)} (h : c ∈ p) :
    p.head? = some c ∨ p.getLast? = some c ∨ c ∈ p.tail.dropLast := by
  cases p with
  | nil => simp at h
  | cons a t =>
    rcases List.mem_cons.1 h with rfl | ht
    · exact Or.inl rfl
    · right
      rcases List.eq_nil_or_concat t with rfl | ⟨l, d, rfl⟩
      · simp at ht
      · rw [List.concat_eq_append] at ht ⊢
        rcases List.mem_append.1 ht with hl | hd
        · right
          simp only [List.tail_cons, List.dropLast_concat]
          exact hl
        · left
          rw [List.mem_singleton] at hd
          subst hd
          rw [← List.cons_append, List.getLast?_concat]

theorem isFreePath.no_obstacle {R C : Nat} {g : Grid} {p : List (Int × Int)}
    (h : isFreePath R C g p) (c : Int × Int) (hc : c ∈ p) : g c.1 c.2 ≠ -3 := by
  obtain ⟨⟨_, _, ⟨a, ha, hav⟩, ⟨d, hd, hdv⟩⟩, hfree⟩ := h
  rcases mem_route_cases hc with h' | h' | h'
  · rw [h'] at ha; injection ha with ha; subst ha; omega
  · rw [h'] at hd; injection hd with hd; subst hd; omega
  · rw [hfree c h']; decide

theorem main_injective {R C : Nat} {g : Grid} {o o' : Outcome} {s s' : State}
    (h : main R C g = some (o, s)) (h' : main R C g = some (o', s')) : o = o' ∧ s = s' := by
  rw [h] at h'
  injection h' with h'
  injection h' with h1 h2
  exact ⟨h1, h2⟩

theorem shortest_eq_depth {R C : Nat} {g : Grid} (h : Valid R C g) {m : Scan}
    (hm : expand R C g = some m) (hr : m.destinationReached = true) :
    shortestPathLength R C g m.st.currentDepth.toNat := by
  obtain ⟨a, b, hv⟩ := h.exists_at
  rcases main_cases hv with ⟨m', k, w, hm', hf, _, _, _⟩ | ⟨m', k, hm', hx, _⟩
  · rw [hm] at hm'
    injection hm' with hm'
    subst hm'
    rw [hf.depth]
    have : ((k : Int) + 1).toNat = k + 1 := by omega
    rw [this]
    exact hf.path hv
  · rw [hm] at hm'
    injection hm' with hm'
    subst hm'
    rw [hx.notReached] at hr
    simp at hr

theorem main3x4_found : ∃ s, main 3 4 grid3x4 = some (Outcome.PathFound, s) := by
  have h : (main 3 4 grid3x4).map Prod.fst = some Outcome.PathFound := by decide
  cases hm : main 3 4 grid3x4 with
  | none => rw [hm] at h; simp at h
  | some r =>
    obtain ⟨o, s⟩ := r
    rw [hm] at h
    simp only [Option.map_some', Option.some.injEq] at h
    subst h
    exact ⟨s, rfl⟩

theorem expand3x4_reached :
    ∃ m, expand 3 4 grid3x4 = some m ∧ m.destinationReached = true ∧ m.st.currentDepth = 5 := by
  have h : (expand 3 4 grid3x4).map (fun m => (m.destinationReached, m.st.currentDepth)) =
      some (true, 5) := by decide
  cases hm : expand 3 4 grid3x4 with
  | none => rw [hm] at h; simp at h
  | some m =>
    rw [hm] at h
    simp only [Option.map_some', Option.some.injEq, Prod.mk.injEq] at h
    exact ⟨m, rfl, h.1, h.2⟩

theorem gridBlocked_route {p : List (Int × Int)} (hch : p.Chain' adjacent)
    (hin : ∀ c ∈ p, inGrid 1 3 c.1 c.2) (x : Int × Int) (hx : p.head? = some x)
    (hx1 : x.2 ≤ 1) (y : Int × Int) (hy : p.getLast? = some y) (hy2 : y.2 = 2) :
    ((0 : Int), (1 : Int)) ∈ p := by
  induction p generalizing x with
  | nil => simp at hx
  | cons a t ih =>
    simp only [List.head?_cons, Option.some.injEq] at hx
    subst hx
    have hain := hin a (List.mem_cons_self _ _)
    by_cases ha : a.2 = 1
    · have : a = (0, 1) := by
        unfold inGrid at hain
        ext
        · simp only; omega
        · simp only; omega
      rw [this]; exact List.mem_cons_self _ _
    · cases t with
      | nil =>
        simp only [List.getLast?_singleton, Option.some.injEq] at hy
        subst hy; omega
      | cons a' t' =>
        apply List.mem_cons_of_mem
        rw [List.chain'_cons] at hch
        refine ih hch.2 (fun c hc => hin c (List.mem_cons_of_mem _ hc)) a' rfl ?_ ?_
        · have hadj := hch.1
          unfold adjacent at hadj
          unfold inGrid at hain
          omega
        · rw [List.getLast?_cons_cons] at hy; exact hy

/-! ## The claims of the specification -/

/-- Claim C1. On a valid grid the search reports `PathFound` exactly when a sequence of
orthogonally adjacent in-grid cells leads from the start to the destination through free
cells only, and it reports `NoPathFound` otherwise. -/
theorem pathFound_iff_freePath (R C : Nat) (g : Grid) (h : Valid R C g) :
    ((∃ s, main R C g = some (Outcome.PathFound, s)) ↔ ∃ p, isFreePath R C g p) ∧
    ((¬ ∃ p, isFreePath R C g p) → ∃ s, main R C g = some (Outcome.NoPathFound, s)) := by
  obtain ⟨a, b, hv⟩ := h.exists_at
  rcases main_cases hv with ⟨m, k, w, _, hf, _, _, hmain⟩ | ⟨m, k, _, hx, hmain⟩
  · have hp : ∃ p, isFreePath R C g p := by
      obtain ⟨⟨p, hp, _⟩, _⟩ := hf.path hv
      exact ⟨p, hp⟩
    exact ⟨⟨fun _ => hp, fun _ => ⟨_, hmain⟩⟩, fun hn => absurd hp hn⟩
  · refine ⟨⟨?_, fun hp => absurd hp hx.no_path⟩, fun _ => ⟨_, hmain⟩⟩
    rintro ⟨s, hs⟩
    have := (main_injective hs hmain).1
    cases this

/-- Claim C1 holds of the 3×4 scenario grid, which is valid. -/
theorem pathFound_iff_freePath_witness :
    Valid 3 4 grid3x4 ∧
    (((∃ s, main 3 4 grid3x4 = some (Outcome.PathFound, s)) ↔
        ∃ p, isFreePath 3 4 grid3x4 p) ∧
      ((¬ ∃ p, isFreePath 3 4 grid3x4 p) →
        ∃ s, main 3 4 grid3x4 = some (Outcome.NoPathFound, s))) :=
  ⟨by decide, pathFound_iff_freePath 3 4 grid3x4 (by decide)⟩

/-- Claim C2. On a valid grid on which the search reports `PathFound`, the number of cells
of the final grid holding a layer number `n ≥ 1`, plus one, is the length in moves of a
shortest free path from the start to the destination. -/
theorem layer_count_shortest (R C : Nat) (g : Grid) (h : Valid R C g) (s : State)
    (hs : main R C g = some (Outcome.PathFound, s)) :
    shortestPathLength R C g (countCells R C s.grid (fun v => 1 ≤ v) + 1) := by
  obtain ⟨a, b, hv⟩ := h.exists_at
  rcases main_cases hv with ⟨m, k, w, _, hf, hw, _, hmain⟩ | ⟨m, k, _, hx, hmain⟩
  · obtain ⟨_, rfl⟩ := main_injective hs hmain
    rw [hw.count hv]
    exact hf.path hv
  · have := (main_injective hs hmain).1
    cases this

/-- Claim C2 holds of the 3×4 scenario grid, on which the search reports `PathFound`. -/
theorem layer_count_shortest_witness :
    Valid 3 4 grid3x4 ∧ ∃ s, main 3 4 grid3x4 = some (Outcome.PathFound, s) ∧
      shortestPathLength 3 4 grid3x4 (countCells 3 4 s.grid (fun v => 1 ≤ v) + 1) := by
  obtain ⟨s, hs⟩ := main3x4_found
  exact ⟨by decide, s, hs, layer_count_shortest 3 4 grid3x4 (by decide) s hs⟩

/-- Claim C3. On a valid grid on which the search reports `PathFound` and leaves at least
one layer cell, the cells holding a layer number `≥ 1` are exactly the cells `p 1, …, p k`
of a chain `p 0, …, p (k + 1)` of in-grid cells, `p n` holding `n`, in which `p 0` is the
start, `p (k + 1)` the destination and consecutive cells are orthogonally adjacent. -/
theorem layer_cells_chain (R C : Nat) (g : Grid) (h : Valid R C g) (s : State)
    (hs : main R C g = some (Outcome.PathFound, s))
    (hl : ∃ i j, inGrid R C i j ∧ 1 ≤ s.grid i j) :
    ∃ (k : Nat) (p : Nat → Int × Int), 1 ≤ k ∧
      g (p 0).1 (p 0).2 = 0 ∧ s.grid (p 0).1 (p 0).2 = 0 ∧
      g (p (k + 1)).1 (p (k + 1)).2 = -2 ∧ s.grid (p (k + 1)).1 (p (k + 1)).2 = -2 ∧
      (∀ n, n ≤ k + 1 → inGrid R C (p n).1 (p n).2) ∧
      (∀ n, n ≤ k → adjacent (p n) (p (n + 1))) ∧
      ∀ i j, inGrid R C i j → ∀ v : Int, 1 ≤ v →
        (s.grid i j = v ↔ ∃ n : Nat, 1 ≤ n ∧ n ≤ k ∧ v = n ∧ (i, j) = p n) := by
  obtain ⟨a, b, hv⟩ := h.exists_at
  rcases main_cases hv with ⟨m, k, w, _, hf, hw, _, hmain⟩ | ⟨m, k, _, hx, hmain⟩
  swap
  · have := (main_injective hs hmain).1
    cases this
  obtain ⟨_, rfl⟩ := main_injective hs hmain
  obtain ⟨p, hpb, _, hp⟩ := hw.chain
  have hlab : ∀ i j, inGrid R C i j → 1 ≤ w.st.grid i j →
      ∃ n : Nat, 1 ≤ n ∧ n ≤ k ∧ w.st.grid i j = n := by
    intro i j hin h1
    rcases hw.layers.frame i j hin with h' | ⟨_, n, h2, h3, h4⟩
    · rw [h'] at h1
      rcases hv.vals i j hin with h'' | h'' | h'' | h'' <;> omega
    · exact ⟨n, h2, h3, h4⟩
  have hk : 1 ≤ k := by
    obtain ⟨i, j, hin, h1⟩ := hl
    obtain ⟨n, h2, h3, _⟩ := hlab i j hin h1
    omega
  have hsame : ∀ c : Int × Int, inGrid R C c.1 c.2 → g c.1 c.2 ≠ -1 →
      w.st.grid c.1 c.2 = g c.1 c.2 := by
    intro c hc hne
    rcases hw.layers.frame c.1 c.2 hc with h' | ⟨h', _⟩
    · exact h'
    · exact absurd h' hne
  have hstart : adjacent a (p 1) := by
    obtain ⟨q1, q2, _, _⟩ := hp 1 (by omega) hk
    obtain ⟨c', hadj, hc'⟩ := (hw.layers.sound _ _ q1 1 q2).pred
    have := hv.uniq0 c'.1 c'.2 hc'.1.1 hc'.1.2
    rw [← this]; exact hadj
  refine ⟨k, Function.update p 0 a, hk, ?_, ?_, ?_, ?_, ?_, ?_, ?_⟩
  · rw [Function.update_same]; exact hv.aval
  · rw [Function.update_same, hsame a hv.ain (by rw [hv.aval]; decide)]; exact hv.aval
  · rw [Function.update_noteq (by omega), hpb]; exact hv.bval
  · rw [Function.update_noteq (by omega), hpb, hsame b hv.bin (by rw [hv.bval]; decide)]
    exact hv.bval
  · intro n hn
    by_cases h0 : n = 0
    · subst h0; rw [Function.update_same]; exact hv.ain
    · rw [Function.update_noteq h0]
      by_cases hnk : n ≤ k
      · exact (hp n (by omega) hnk).1
      · have : n = k + 1 := by omega
        subst this; rw [hpb]; exact hv.bin
  · intro n hn
    by_cases h0 : n = 0
    · subst h0
      rw [Function.update_same, Function.update_noteq (by omega)]
      exact hstart
    · rw [Function.update_noteq h0, Function.update_noteq (by omega)]
      exact (hp n (by omega) hn).2.2.1
  · intro i j hin v hv1
    constructor
    · intro hval
      obtain ⟨n, h1, h2, h3⟩ := hlab i j hin (by rw [hval]; exact hv1)
      refine ⟨n, h1, h2, by rw [← hval, h3], ?_⟩
      rw [Function.update_noteq (by omega)]
      exact (hp n (by omega) h2).2.2.2 i j hin h3
    · rintro ⟨n, h1, h2, rfl, hij⟩
      rw [Function.update_noteq (by omega)] at hij
      have := (hp n (by omega) h2).2.1
      rw [← hij] at this
      exact this

/-- Claim C3 holds of the 3×4 scenario grid, whose final grid keeps a layer cell at (0,1). -/
theorem layer_cells_chain_witness :
    Valid 3 4 grid3x4 ∧ ∃ s, main 3 4 grid3x4 = some (Outcome.PathFound, s) ∧
      (∃ i j, inGrid 3 4 i j ∧ 1 ≤ s.grid i j) ∧
      ∃ (k : Nat) (p : Nat → Int × Int), 1 ≤ k ∧
        grid3x4 (p 0).1 (p 0).2 = 0 ∧ s.grid (p 0).1 (p 0).2 = 0 ∧
        grid3x4 (p (k + 1)).1 (p (k + 1)).2 = -2 ∧ s.grid (p (k + 1)).1 (p (k + 1)).2 = -2 ∧
        (∀ n, n ≤ k + 1 → inGrid 3 4 (p n).1 (p n).2) ∧
        (∀ n, n ≤ k → adjacent (p n) (p (n + 1))) ∧
        ∀ i j, inGrid 3 4 i j → ∀ v : Int, 1 ≤ v →
          (s.grid i j = v ↔ ∃ n : Nat, 1 ≤ n ∧ n ≤ k ∧ v = n ∧ (i, j) = p n) := by
  have h : (main 3 4 grid3x4).map (fun r => (r.1, decide (1 ≤ r.2.grid 0 1))) =
      some (Outcome.PathFound, true) := by decide
  cases hm : main 3 4 grid3x4 with
  | none => rw [hm] at h; simp at h
  | some r =>
    obtain ⟨o, s⟩ := r
    rw [hm] at h
    simp only [Option.map_some', Option.some.injEq, Prod.mk.injEq, decide_eq_true_eq] at h
    obtain ⟨rfl, h1⟩ := h
    have hl : ∃ i j, inGrid 3 4 i j ∧ 1 ≤ s.grid i j := ⟨0, 1, by decide, h1⟩
    exact ⟨by decide, s, rfl, hl, layer_cells_chain 3 4 grid3x4 (by decide) s hm hl⟩

/-- Claim C4. On a valid grid on which expansion reaches the destination, `backtrack_grid`
leaves free every cell that expansion stamped and the backward walk did not visit; with `k`
the layer of the cell from which the destination was found (the counter is `k + 1`), each
layer number from 1 to `k` is held by exactly one cell, the cell holding `k` is adjacent to
the destination, and no cell holds a larger number. -/
theorem cleanup_complete (R C : Nat) (g : Grid) (h : Valid R C g) (m : Scan)
    (hm : expand R C g = some m) (hr : m.destinationReached = true) :
    main R C g = some (Outcome.PathFound, backtrack_grid R C m.st) ∧
    (∀ i j, inGrid R C i j → 1 ≤ m.st.grid i j → (i, j) ∉ visited R C m.st →
      (backtrack_grid R C m.st).grid i j = -1) ∧
    ∃ k : Nat, m.st.currentDepth = (k : Int) + 1 ∧
      (∀ n : Nat, 1 ≤ n → n ≤ k →
        ∃! c : Int × Int, inGrid R C c.1 c.2 ∧ (backtrack_grid R C m.st).grid c.1 c.2 = n) ∧
      (∀ i j, inGrid R C i j → (backtrack_grid R C m.st).grid i j ≤ k) ∧
      (1 ≤ k → ∃ c : Int × Int, inGrid R C c.1 c.2 ∧
        (backtrack_grid R C m.st).grid c.1 c.2 = k ∧
        ∀ i j, inGrid R C i j → g i j = -2 → adjacent c (i, j)) := by
  obtain ⟨a, b, hv⟩ := h.exists_at
  rcases main_cases hv with ⟨m', k, w, hm', hf, hw, hb, hmain⟩ | ⟨m', k, hm', hx, _⟩
  swap
  · rw [hm] at hm'
    injection hm' with hm'
    subst hm'
    rw [hx.notReached] at hr
    simp at hr
  rw [hm] at hm'
  injection hm' with hm'
  subst hm'
  obtain ⟨p, hpb, _, hp⟩ := hw.chain
  have hlab : ∀ i j, inGrid R C i j → 1 ≤ w.st.grid i j →
      ∃ n : Nat, 1 ≤ n ∧ n ≤ k ∧ w.st.grid i j = n := by
    intro i j hin h1
    rcases hw.layers.frame i j hin with h' | ⟨_, n, h2, h3, h4⟩
    · rw [h'] at h1
      rcases hv.vals i j hin with h'' | h'' | h'' | h'' <;> omega
    · exact ⟨n, h2, h3, h4⟩
  refine ⟨by rw [hb]; exact hmain, ?_, k, hf.depth, ?_, ?_, ?_⟩
  · intro i j hin h1 hnot
    have hfree : g i j = -1 := by
      rcases hf.layers.frame i j hin with h' | ⟨h', _⟩
      · rw [h'] at h1
        rcases hv.vals i j hin with h'' | h'' | h'' | h'' <;> omega
      · exact h'
    rcases hw.layers.frame i j hin with h' | ⟨_, n, h2, _, h4⟩
    · rw [hb, h', hfree]
    · exact absurd (hf.walk_visited hv i j hin n h2 (by rw [hb]; exact h4)) hnot
  · intro n h1 h2
    obtain ⟨q1, q2, _, q4⟩ := hp n (by omega) h2
    refine ⟨p n, ⟨q1, by rw [hb]; exact q2⟩, ?_⟩
    rintro c ⟨hc, hcv⟩
    rw [hb] at hcv
    exact q4 c.1 c.2 hc hcv
  · intro i j hin
    rw [hb]
    rcases hw.layers.frame i j hin with h' | ⟨_, n, _, h3, h4⟩
    · rw [h']
      rcases hv.vals i j hin with h'' | h'' | h'' | h'' <;> omega
    · rw [h4]; exact_mod_cast h3
  · intro hk
    obtain ⟨q1, q2, q3, _⟩ := hp k (by omega) (le_refl _)
    refine ⟨p k, q1, by rw [hb]; exact q2, ?_⟩
    intro i j hin hd
    rw [hv.uniq2 i j hin hd, ← hpb]
    exact q3

/-- Claim C4 holds of the 3×4 scenario grid, on which expansion reaches the destination. -/
theorem cleanup_complete_witness :
    Valid 3 4 grid3x4 ∧ ∃ m, expand 3 4 grid3x4 = some m ∧ m.destinationReached = true ∧
      (main 3 4 grid3x4 = some (Outcome.PathFound, backtrack_grid 3 4 m.st) ∧
      (∀ i j, inGrid 3 4 i j → 1 ≤ m.st.grid i j → (i, j) ∉ visited 3 4 m.st →
        (backtrack_grid 3 4 m.st).grid i j = -1) ∧
      ∃ k : Nat, m.st.currentDepth = (k : Int) + 1 ∧
        (∀ n : Nat, 1 ≤ n → n ≤ k →
          ∃! c : Int × Int, inGrid 3 4 c.1 c.2 ∧ (backtrack_grid 3 4 m.st).grid c.1 c.2 = n) ∧
        (∀ i j, inGrid 3 4 i j → (backtrack_grid 3 4 m.st).grid i j ≤ k) ∧
        (1 ≤ k → ∃ c : Int × Int, inGrid 3 4 c.1 c.2 ∧
          (backtrack_grid 3 4 m.st).grid c.1 c.2 = k ∧
          ∀ i j, inGrid 3 4 i j → grid3x4 i j = -2 → adjacent c (i, j))) := by
  obtain ⟨m, hm, hr, _⟩ := expand3x4_reached
  exact ⟨by decide, m, hm, hr, cleanup_complete 3 4 grid3x4 (by decide) m hm hr⟩

/-- Claim C5. On a valid grid, when the expansion loop stops, a cell holding the layer
number `n` is at shortest distance exactly `n` from the start (moves through free cells of
the input grid); when it stops by exhaustion, every free cell of the input that a free walk
reaches holds a layer number and every other free cell is still free. -/
theorem layers_are_distances (R C : Nat) (g : Grid) (h : Valid R C g) (m : Scan)
    (hm : expand R C g = some m) :
    (∀ i j, inGrid R C i j → ∀ n : Nat, m.st.grid i j = n →
      shortestDistance R C g (i, j) n) ∧
    (m.destinationReached = false → ∀ i j, inGrid R C i j → g i j = -1 →
      ((∃ p, isFreeWalk R C g (i, j) p) → 1 ≤ m.st.grid i j) ∧
      ((¬ ∃ p, isFreeWalk R C g (i, j) p) → m.st.grid i j = -1)) := by
  obtain ⟨a, b, hv⟩ := h.exists_at
  rcases main_cases hv with ⟨m', k, w, hm', hf, _, _, _⟩ | ⟨m', k, hm', hx, _⟩
  · rw [hm] at hm'
    injection hm' with hm'
    subst hm'
    refine ⟨fun i j hin n hn => (hf.layers.sound i j hin n hn).shortest, ?_⟩
    intro hr
    rw [hf.reached] at hr
    simp at hr
  · rw [hm] at hm'
    injection hm' with hm'
    subst hm'
    refine ⟨fun i j hin n hn => (hx.layers.sound i j hin n hn).shortest, ?_⟩
    intro _ i j hin hfree
    constructor
    · rintro ⟨p, hp⟩
      obtain ⟨n, _, hr⟩ := hp.reach
      obtain ⟨n', _, hd'⟩ := hr.exists_dist
      have hval := hx.layers.complete i j hin n' (hx.bounded hd') hd'
      rcases hd'.1.value with ⟨_, h0⟩ | ⟨h1, _⟩
      · simp only at h0; omega
      · rw [hval]; exact_mod_cast h1
    · intro hno
      rcases hx.layers.frame i j hin with h' | ⟨_, n, _, _, h4⟩
      · rw [h', hfree]
      · exfalso
        apply hno
        obtain ⟨p, hp, _⟩ := (hx.layers.sound i j hin n h4).1.walk
        exact ⟨p, hp⟩

/-- Claim C5 holds of the grid left by expansion on the 3×4 scenario grid. -/
theorem layers_are_distances_witness :
    Valid 3 4 grid3x4 ∧ ∃ m, expand 3 4 grid3x4 = some m ∧
      ((∀ i j, inGrid 3 4 i j → ∀ n : Nat, m.st.grid i j = n →
        shortestDistance 3 4 grid3x4 (i, j) n) ∧
      (m.destinationReached = false → ∀ i j, inGrid 3 4 i j → grid3x4 i j = -1 →
        ((∃ p, isFreeWalk 3 4 grid3x4 (i, j) p) → 1 ≤ m.st.grid i j) ∧
        ((¬ ∃ p, isFreeWalk 3 4 grid3x4 (i, j) p) → m.st.grid i j = -1))) := by
  obtain ⟨m, hm, _, _⟩ := expand3x4_reached
  exact ⟨by decide, m, hm, layers_are_distances 3 4 grid3x4 (by decide) m hm⟩

/-- Claim C6. On a valid grid the search ends, with either outcome, on a grid in which
exactly one cell holds the start value 0 and exactly one the destination value, and these
are the cells that held them in the input. -/
theorem start_destination_preserved (R C : Nat) (g : Grid) (h : Valid R C g) :
    ∃ o s, main R C g = some (o, s) ∧
      countCells R C s.grid (fun v => v = 0) = 1 ∧
      countCells R C s.grid (fun v => v = -2) = 1 ∧
      ∀ i j, inGrid R C i j →
        (s.grid i j = 0 ↔ g i j = 0) ∧ (s.grid i j = -2 ↔ g i j = -2) := by
  obtain ⟨o, s, hmain, hframe⟩ := main_frame h
  have h0 : ∀ i j, inGrid R C i j → (s.grid i j = 0 ↔ g i j = 0) := by
    intro i j hin
    rcases hframe i j hin with h' | ⟨h', h1⟩
    · rw [h']
    · constructor <;> intro h'' <;> omega
  have h2 : ∀ i j, inGrid R C i j → (s.grid i j = -2 ↔ g i j = -2) := by
    intro i j hin
    rcases hframe i j hin with h' | ⟨h', h1⟩
    · rw [h']
    · constructor <;> intro h'' <;> omega
  refine ⟨o, s, hmain, ?_, ?_, fun i j hin => ⟨h0 i j hin, h2 i j hin⟩⟩
  · rw [countCells_congr (p := fun v => v = 0) h0]; exact h.1
  · rw [countCells_congr (p := fun v => v = -2) h2]; exact h.2.1

/-- Claim C6 holds of the 3×4 scenario grid. -/
theorem start_destination_preserved_witness :
    Valid 3 4 grid3x4 ∧ ∃ o s, main 3 4 grid3x4 = some (o, s) ∧
      countCells 3 4 s.grid (fun v => v = 0) = 1 ∧
      countCells 3 4 s.grid (fun v => v = -2) = 1 ∧
      ∀ i j, inGrid 3 4 i j →
        (s.grid i j = 0 ↔ grid3x4 i j = 0) ∧ (s.grid i j = -2 ↔ grid3x4 i j = -2) :=
  ⟨by decide, start_destination_preserved 3 4 grid3x4 (by decide)⟩

/-- Claim C7. On a valid grid a cell is an obstacle in the final grid of the search exactly
when it was one in the input grid, and the same holds for the grid left by expansion. -/
theorem obstacles_preserved (R C : Nat) (g : Grid) (h : Valid R C g) :
    ∃ o s, main R C g = some (o, s) ∧
      (∀ i j, inGrid R C i j → (s.grid i j = -3 ↔ g i j = -3)) ∧
      ∃ m, expand R C g = some m ∧
        ∀ i j, inGrid R C i j → (m.st.grid i j = -3 ↔ g i j = -3) := by
  have key : ∀ g' : Grid,
      (∀ i j, inGrid R C i j → g' i j = g i j ∨ (g i j = -1 ∧ 1 ≤ g' i j)) →
      ∀ i j, inGrid R C i j → (g' i j = -3 ↔ g i j = -3) := by
    intro g' hframe i j hin
    rcases hframe i j hin with h' | ⟨h', h1⟩
    · rw [h']
    · constructor <;> intro h'' <;> omega
  obtain ⟨a, b, hv⟩ := h.exists_at
  rcases main_cases hv with ⟨m, k, w, hm, hf, hw, _, hmain⟩ | ⟨m, k, hm, hx, hmain⟩
  · exact ⟨_, _, hmain, key _ hw.layers.final_frame, m, hm, key _ hf.layers.final_frame⟩
  · exact ⟨_, _, hmain, key _ hx.layers.final_frame, m, hm, key _ hx.layers.final_frame⟩

/-- Claim C7 holds of the 3×4 scenario grid. -/
theorem obstacles_preserved_witness :
    Valid 3 4 grid3x4 ∧ ∃ o s, main 3 4 grid3x4 = some (o, s) ∧
      (∀ i j, inGrid 3 4 i j → (s.grid i j = -3 ↔ grid3x4 i j = -3)) ∧
      ∃ m, expand 3 4 grid3x4 = some m ∧
        ∀ i j, inGrid 3 4 i j → (m.st.grid i j = -3 ↔ grid3x4 i j = -3) :=
  ⟨by decide, obstacles_preserved 3 4 grid3x4 (by decide)⟩

/-- Claim C8. On a valid grid in which every route from the start to the destination passes
through an obstacle, the search reports `NoPathFound`, and every cell of the final grid
holds its input content or was free and holds a layer number `≥ 1`. -/
theorem enclosed_no_path (R C : Nat) (g : Grid) (h : Valid R C g)
    (hen : ∀ p, isRoute R C g p → ∃ c ∈ p, g c.1 c.2 = -3) :
    ∃ s, main R C g = some (Outcome.NoPathFound, s) ∧
      ∀ i j, inGrid R C i j → s.grid i j = g i j ∨ (g i j = -1 ∧ 1 ≤ s.grid i j) := by
  have hno : ¬ ∃ p, isFreePath R C g p := by
    rintro ⟨p, hp⟩
    obtain ⟨c, hc, hcv⟩ := hen p hp.1
    exact hp.no_obstacle c hc hcv
  obtain ⟨a, b, hv⟩ := h.exists_at
  rcases main_cases hv with ⟨m, k, w, _, hf, _, _, _⟩ | ⟨m, k, _, hx, hmain⟩
  · exfalso
    apply hno
    obtain ⟨⟨p, hp, _⟩, _⟩ := hf.path hv
    exact ⟨p, hp⟩
  · exact ⟨_, hmain, hx.layers.final_frame⟩

/-- Claim C8 holds of the 1×3 grid `S x D`, every route of which passes the obstacle (0,1). -/
theorem enclosed_no_path_witness :
    Valid 1 3 gridBlocked ∧
    (∀ p, isRoute 1 3 gridBlocked p → ∃ c ∈ p, gridBlocked c.1 c.2 = -3) ∧
    ∃ s, main 1 3 gridBlocked = some (Outcome.NoPathFound, s) ∧
      ∀ i j, inGrid 1 3 i j →
        s.grid i j = gridBlocked i j ∨ (gridBlocked i j = -1 ∧ 1 ≤ s.grid i j) := by
  have hen : ∀ p, isRoute 1 3 gridBlocked p → ∃ c ∈ p, gridBlocked c.1 c.2 = -3 := by
    rintro p ⟨hch, hin, ⟨x, hx, hxv⟩, ⟨y, hy, hyv⟩⟩
    have hxin : inGrid 1 3 x.1 x.2 := hin x (List.mem_of_mem_head? hx)
    have hyin : inGrid 1 3 y.1 y.2 := hin y (List.mem_of_mem_getLast? hy)
    have hx0 : x.2 ≤ 1 := by
      unfold inGrid at hxin
      by_contra hcon
      have h1 : x.1 = 0 := by omega
      have h2 : x.2 = 2 := by omega
      rw [h1, h2] at hxv
      exact absurd hxv (by decide)
    have hy2 : y.2 = 2 := by
      unfold inGrid at hyin
      have h1 : y.1 = 0 := by omega
      rcases (by omega : y.2 = 0 ∨ y.2 = 1 ∨ y.2 = 2) with h2 | h2 | h2
      · rw [h1, h2] at hyv; exact absurd hyv (by decide)
      · rw [h1, h2] at hyv; exact absurd hyv (by decide)
      · exact h2
    exact ⟨(0, 1), gridBlocked_route hch hin x hx hx0 y hy hy2, by decide⟩
  exact ⟨by decide, hen, enclosed_no_path 1 3 gridBlocked (by decide) hen⟩

/-- Counterexample to claim C9 as stated: on the 3×3 grid `S . .` / `x x .` / `. . D` the
search does not report `NoPathFound`. -/
theorem grid3x3_not_noPath : ¬ ∃ s, main 3 3 grid3x3 = some (Outcome.NoPathFound, s) := by
  rintro ⟨s, hs⟩
  have h : (main 3 3 grid3x3).map Prod.fst = some Outcome.PathFound := by decide
  rw [hs] at h
  simp at h

/-- Claim C9, amended. On the 3×3 grid `S . .` / `x x .` / `. . D` the free cell (1,2) at the
end of the obstacle row leaves a way round: the cells (0,0), (0,1), (0,2), (1,2), (2,2) form
a free path and the search reports `PathFound` with the final grid `0 1 2` / `x x 3` /
`. . D`. -/
theorem grid3x3_pathFound :
    isFreePath 3 3 grid3x3 [(0, 0), (0, 1), (0, 2), (1, 2), (2, 2)] ∧
    (main 3 3 grid3x3).map (fun r => (r.1, rows 3 3 r.2.grid)) =
      some (Outcome.PathFound, [[0, 1, 2], [-3, -3, 3], [-1, -1, -2]]) := by
  refine ⟨?_, by decide⟩
  unfold isFreePath isRoute
  simp [grid3x3, ofRows, inGrid, adjacent]

/-- Claim C10. On the 3×4 grid `S . . .` / `x x x .` / `. . . D` the search reports
`PathFound`, the shortest path has 5 moves, and the final grid is `0 1 2 3` / `x x x 4` /
`. . . D`. -/
theorem grid3x4_pathFound :
    shortestPathLength 3 4 grid3x4 5 ∧
    (main 3 4 grid3x4).map (fun r => (r.1, rows 3 4 r.2.grid)) =
      some (Outcome.PathFound, [[0, 1, 2, 3], [-3, -3, -3, 4], [-1, -1, -1, -2]]) := by
  refine ⟨?_, by decide⟩
  obtain ⟨m, hm, hr, hd⟩ := expand3x4_reached
  have := shortest_eq_depth (by decide : Valid 3 4 grid3x4) hm hr
  rw [hd] at this
  exact this

theorem PassChange.after_stamp {R C : Nat} {d : Int} {g0 g g' : Grid} {a : Int × Int}
    (h : PassChange R C d g0 g) (hs : Stamped R C d a g g') : PassChange R C d g0 g' := by
  intro i j
  rcases hs i j with h' | ⟨hf, h', hin, _⟩
  · rw [h']; exact h i j
  · right
    refine ⟨?_, h', hin⟩
    rcases h i j with h'' | ⟨h'', _⟩
    · rw [← h'']; exact hf
    · exact h''

theorem ChangeInv.scan_cell_change {R C : Nat} {d : Int} (hd : 0 ≤ d) {g0 : Grid} {m : Scan}
    (h : ChangeInv R C d g0 m) (i j : Int) : ChangeInv R C d g0 (scan_cell R C m i j) := by
  by_cases hr : m.destinationReached = true
  · rw [scan_cell_reached hr]; exact h
  by_cases hg : m.st.grid i j = m.st.currentDepth
  · have hr' : m.destinationReached = false := by simpa using hr
    obtain ⟨hst, h2, h1, h0⟩ := scan_cell_visit (R := R) (C := C) hr' hg
    have hs := modify_adjacent_spec R C m.st i j (by rw [h.1]; exact hd)
    have hstamp : Stamped R C d (i, j) m.st.grid (modify_adjacent R C m.st i j).1.grid := by
      have := hs.stamped; rwa [h.1] at this
    have hpc := h.2.1.after_stamp hstamp
    refine ⟨by rw [hst, hs.depth]; exact h.1, by rw [hst]; exact hpc, ?_⟩
    intro hc
    rw [hst]
    rcases hs.ret with hret | hret | hret
    · rw [(h2 hret).2] at hc; simp at hc
    · obtain ⟨a, b, hin, hf, hn⟩ := hs.one hret
      refine ⟨a, b, hin, ?_, by rw [hn, h.1]⟩
      rcases h.2.1 a b with h'' | ⟨h'', _⟩
      · rw [← h'']; exact hf
      · exact h''
    · rw [(h0 hret).2] at hc
      rw [hs.zero hret]
      exact h.2.2 hc
  · rw [scan_cell_skip hg]; exact h

theorem scan_pass_change (R C : Nat) (m : Scan) (hd : 0 ≤ m.st.currentDepth) :
    (scan_pass R C m).st.currentDepth = m.st.currentDepth + 1 ∧
    PassChange R C m.st.currentDepth m.st.grid (scan_pass R C m).st.grid ∧
    ((scan_pass R C m).continueChecking = true →
      ∃ i j, inGrid R C i j ∧ m.st.grid i j = -1 ∧
        (scan_pass R C m).st.grid i j = m.st.currentDepth + 1) := by
  have key : ChangeInv R C m.st.currentDepth m.st.grid (scan_all R C m) := by
    unfold scan_all
    refine foldl_prefix_inv (fun (m : Scan) (c : Int × Int) => scan_cell R C m c.1 c.2)
      (fun _ x => ChangeInv R C m.st.currentDepth m.st.grid x) _ _ ?_ ?_
    · exact ⟨rfl, fun _ _ => Or.inl rfl, by simp⟩
    · intro _ c x _ hx
      exact hx.scan_cell_change hd c.1 c.2
  rw [scan_pass_eq]
  exact ⟨by simp only; rw [key.1], key.2.1, key.2.2⟩

theorem expansion_passes_bound (R C : Nat) (fuel : Nat) (m : Scan) (hd : 0 ≤ m.st.currentDepth)
    (h1 : 1 ≤ fuel) (h2 : m.continueChecking = true → freeCount R C m.st.grid + 2 ≤ fuel) :
    ∃ m' n, expansion R C fuel m = some m' ∧ expansion_passes R C fuel m = some n ∧
      m'.st.currentDepth = m.st.currentDepth + n ∧
      (m.continueChecking = true → 1 ≤ n ∧ n ≤ freeCount R C m.st.grid + 1) ∧
      (m.continueChecking = false → n = 0) := by
  induction fuel generalizing m with
  | zero => omega
  | succ f ih =>
    unfold expansion expansion_passes
    by_cases hc : m.continueChecking = true
    · rw [if_pos hc, if_pos hc]
      have ht := scan_all_term R C m hd
      have h2' := h2 hc
      have hdep : (scan_pass R C m).st.currentDepth = m.st.currentDepth + 1 :=
        (scan_pass_change R C m hd).1
      have hfc : freeCount R C (scan_pass R C m).st.grid ≤ freeCount R C m.st.grid := by
        rw [scan_pass_eq]; exact ht.2.1
      have hlt : (scan_pass R C m).continueChecking = true →
          freeCount R C (scan_pass R C m).st.grid < freeCount R C m.st.grid := by
        intro hc'
        rw [scan_pass_eq] at hc' ⊢
        exact ht.2.2 hc'
      obtain ⟨m', n, he, hp, hdn, hn1, hn0⟩ :=
        ih (scan_pass R C m) (by rw [hdep]; omega) (by omega)
          (fun hc' => by have := hlt hc'; omega)
      refine ⟨m', n + 1, he, by rw [hp]; rfl, by rw [hdn, hdep]; push_cast; ring, ?_, ?_⟩
      · intro _
        refine ⟨by omega, ?_⟩
        by_cases hc' : (scan_pass R C m).continueChecking = true
        · have := hlt hc'
          have := (hn1 hc').2
          omega
        · have := hn0 (by simpa using hc')
          omega
      · intro hf; rw [hc] at hf; simp at hf
    · rw [if_neg hc, if_neg hc]
      exact ⟨m, 0, rfl, rfl, by simp, fun h => absurd h hc, fun _ => rfl⟩

theorem backtrack_iterations_eq (R C : Nat) (fuel : Nat) (w : Walk)
    (hf : w.st.currentDepth.toNat ≤ fuel) :
    backtrack_iterations R C fuel w = w.st.currentDepth.toNat ∧
    ¬ (backtrack_loop R C fuel w).st.currentDepth > 0 ∧
    (0 ≤ w.st.currentDepth → (backtrack_loop R C fuel w).st.currentDepth = 0) := by
  induction fuel generalizing w with
  | zero =>
    unfold backtrack_iterations backtrack_loop
    exact ⟨by omega, by omega, fun _ => by omega⟩
  | succ n ih =>
    unfold backtrack_iterations backtrack_loop
    by_cases hpos : w.st.currentDepth > 0
    · rw [if_pos hpos, if_pos hpos]
      have hstep := (backtrack_step_stable R C w (by omega)).1
      obtain ⟨h1, h2, h3⟩ := ih (backtrack_step R C w) (by rw [hstep]; omega)
      exact ⟨by rw [h1, hstep]; omega, h2, fun _ => h3 (by rw [hstep]; omega)⟩
    · rw [if_neg hpos, if_neg hpos]
      exact ⟨by omega, hpos, fun _ => by omega⟩

/-- Claim C11. On every grid, valid or not, the expansion loop of `main` started with the
depth counter 0 terminates; a pass that asks for another pass has turned a free cell of the
grid into a cell of the next layer, so the number of passes is at least 1 and at most the
number of free cells of the input plus one (and it is the final value of the counter); the
loop of `backtrack_grid` stops by its own condition after exactly as many iterations as the
non-negative counter value it starts with. -/
theorem expansion_backtrack_terminate (R C : Nat) (g : Grid) :
    (∃ m n, expand R C g = some m ∧
      expansion_passes R C (R * C + 2)
        { st := { grid := g, destinationRow := 0, destinationCol := 0, currentDepth := 0 },
          continueChecking := true, destinationReached := false } = some n ∧
      m.st.currentDepth = n ∧ 1 ≤ n ∧ n ≤ freeCount R C g + 1) ∧
    (∀ m : Scan, 0 ≤ m.st.currentDepth → (scan_pass R C m).continueChecking = true →
      ∃ i j, inGrid R C i j ∧ m.st.grid i j = -1 ∧
        (scan_pass R C m).st.grid i j = m.st.currentDepth + 1) ∧
    (∀ s : State, 0 ≤ s.currentDepth →
      backtrack_iterations R C s.currentDepth.toNat
        { st := scrub_depth R C s s.destinationRow s.destinationCol,
          currentRow := s.destinationRow, currentCol := s.destinationCol } =
        s.currentDepth.toNat ∧
      (backtrack_grid R C s).currentDepth = 0) := by
  refine ⟨?_, fun m hd hc => (scan_pass_change R C m hd).2.2 hc, ?_⟩
  · have hsz := countCells_le_size R C g (fun v => v = -1)
    obtain ⟨m, n, he, hp, hdn, hn1, _⟩ := expansion_passes_bound R C (R * C + 2)
      { st := { grid := g, destinationRow := 0, destinationCol := 0, currentDepth := 0 },
        continueChecking := true, destinationReached := false } (by simp) (by omega)
      (fun _ => by unfold freeCount; simp only; omega)
    exact ⟨m, n, he, hp, by simpa using hdn, (hn1 rfl).1, (hn1 rfl).2⟩
  · intro s hs
    have hd := (scrub_depth_spec R C s s.destinationRow s.destinationCol).1
    obtain ⟨h1, _, h3⟩ := backtrack_iterations_eq R C s.currentDepth.toNat
      { st := scrub_depth R C s s.destinationRow s.destinationCol,
        currentRow := s.destinationRow, currentCol := s.destinationCol }
      (by simp only; rw [hd])
    refine ⟨by rw [h1]; simp only; rw [hd], ?_⟩
    unfold backtrack_grid
    exact h3 (by simp only; rw [hd]; exact hs)

/-! ## Writes stay inside the grid -/

theorem expansion_offgrid (R C : Nat) (fuel : Nat) (m m' : Scan) (hd : 0 ≤ m.st.currentDepth)
    (he : expansion R C fuel m = some m') (i j : Int) (hout : ¬ inGrid R C i j) :
    m'.st.grid i j = m.st.grid i j := by
  induction fuel generalizing m with
  | zero => simp [expansion] at he
  | succ f ih =>
    unfold expansion at he
    by_cases hc : m.continueChecking = true
    · rw [if_pos hc] at he
      obtain ⟨hdep, hpc, _⟩ := scan_pass_change R C m hd
      rw [ih (scan_pass R C m) (by rw [hdep]; omega) he]
      rcases hpc i j with h' | ⟨_, _, hin⟩
      · exact h'
      · exact absurd hin hout
    · rw [if_neg hc] at he
      injection he with he
      rw [he]

theorem scrub_depth_offgrid (R C : Nat) (s : State) (kr kc i j : Int)
    (hne : (scrub_depth R C s kr kc).grid i j ≠ s.grid i j) : inGrid R C i j := by
  by_contra hout
  apply hne
  rw [(scrub_depth_spec R C s kr kc).2.2.2 i j, if_neg (fun h => hout h.1)]

theorem backtrack_step_offgrid (R C : Nat) (w : Walk) (hd : 0 ≤ w.st.currentDepth) :
    (∀ i j, (backtrack_step R C w).st.grid i j ≠ w.st.grid i j → inGrid R C i j) ∧
    (inGrid R C w.currentRow w.currentCol →
      inGrid R C (backtrack_step R C w).currentRow (backtrack_step R C w).currentCol) := by
  rcases backtrack_step_cases R C w hd with ⟨nb, hin, _, _, hstep⟩ | ⟨_, hstep⟩
  · rw [hstep]
    exact ⟨fun i j hne => scrub_depth_offgrid R C w.st nb.1 nb.2 i j hne, fun _ => hin⟩
  · rw [hstep]
    exact ⟨fun i j hne => absurd rfl hne, fun h => h⟩

theorem backtrack_loop_offgrid (R C : Nat) (n : Nat) (w : Walk) (hd : 0 ≤ w.st.currentDepth)
    (hin : inGrid R C w.currentRow w.currentCol) :
    (∀ i j, ¬ inGrid R C i j → (backtrack_loop R C n w).st.grid i j = w.st.grid i j) ∧
    ∀ c ∈ backtrack_positions R C n w, inGrid R C c.1 c.2 := by
  induction n generalizing w with
  | zero =>
    unfold backtrack_loop backtrack_positions
    refine ⟨fun _ _ _ => rfl, ?_⟩
    intro c hc
    rw [List.mem_singleton] at hc
    rw [hc]; exact hin
  | succ n ih =>
    unfold backtrack_loop backtrack_positions
    by_cases hpos : w.st.currentDepth > 0
    · rw [if_pos hpos, if_pos hpos]
      obtain ⟨h1, h2⟩ := backtrack_step_offgrid R C w hd
      obtain ⟨h3, h4⟩ := ih (backtrack_step R C w)
        (by rw [(backtrack_step_stable R C w hd).1]; omega) (h2 hin)
      refine ⟨?_, ?_⟩
      · intro i j hout
        rw [h3 i j hout]
        by_contra hne
        exact hout (h1 i j hne)
      · intro c hc
        rcases List.mem_cons.1 hc with rfl | hc
        · exact hin
        · exact h4 c hc
    · rw [if_neg hpos, if_neg hpos]
      refine ⟨fun _ _ _ => rfl, ?_⟩
      intro c hc
      simp only [List.mem_cons, List.not_mem_nil, or_false] at hc
      rw [hc]; exact hin

theorem backtrack_grid_offgrid (R C : Nat) (s : State) (hd : 0 ≤ s.currentDepth)
    (hin : inGrid R C s.destinationRow s.destinationCol) :
    (∀ i j, ¬ inGrid R C i j → (backtrack_grid R C s).grid i j = s.grid i j) ∧
    ∀ c ∈ visited R C s, inGrid R C c.1 c.2 := by
  obtain ⟨s1, _, _, s4⟩ := scrub_depth_spec R C s s.destinationRow s.destinationCol
  obtain ⟨h1, h2⟩ := backtrack_loop_offgrid R C s.currentDepth.toNat
    { st := scrub_depth R C s s.destinationRow s.destinationCol,
      currentRow := s.destinationRow, currentCol := s.destinationCol }
    (by simp only; rw [s1]; exact hd) hin
  refine ⟨?_, h2⟩
  intro i j hout
  unfold backtrack_grid
  simp only
  rw [h1 i j hout]
  simp only
  rw [s4 i j, if_neg (fun h => hout h.1)]

theorem expand_offgrid {R C : Nat} {g : Grid} {m : Scan} (hm : expand R C g = some m)
    (i j : Int) (hout : ¬ inGrid R C i j) : m.st.grid i j = g i j := by
  unfold expand at hm
  exact expansion_offgrid R C _ _ m (by simp) hm i j hout

/-- Claim C14. On a valid grid on which expansion finds the destination, the depth counter
with which `backtrack_grid` starts is one more than the layer of a cell adjacent to the
recorded destination (the parent that discovered it), it is the length in moves of a
shortest free path from the start to the destination, and the recorded `destinationRow`,
`destinationCol` are the coordinates of the destination cell. -/
theorem depth_handoff (R C : Nat) (g : Grid) (h : Valid R C g) (m : Scan)
    (hm : expand R C g = some m) (hr : m.destinationReached = true) :
    main R C g = some (Outcome.PathFound, backtrack_grid R C m.st) ∧
    (∃ i j, inGrid R C i j ∧ adjacent (i, j) (m.st.destinationRow, m.st.destinationCol) ∧
      0 ≤ m.st.grid i j ∧ m.st.currentDepth = m.st.grid i j + 1) ∧
    0 < m.st.currentDepth ∧
    shortestPathLength R C g m.st.currentDepth.toNat ∧
    inGrid R C m.st.destinationRow m.st.destinationCol ∧
    g m.st.destinationRow m.st.destinationCol = -2 ∧
    m.st.grid m.st.destinationRow m.st.destinationCol = -2 := by
  obtain ⟨a, b, hv⟩ := h.exists_at
  rcases main_cases hv with ⟨m', k, w, hm', hf, _, hb, hmain⟩ | ⟨m', k, hm', hx, _⟩
  swap
  · rw [hm] at hm'
    injection hm' with hm'
    subst hm'
    rw [hx.notReached] at hr
    simp at hr
  rw [hm] at hm'
  injection hm' with hm'
  subst hm'
  obtain ⟨p, hpin, hpv, hadj⟩ := hf.parent
  refine ⟨by rw [hb]; exact hmain, ⟨p.1, p.2, hpin, ?_, by rw [hpv]; omega, by rw [hf.depth, hpv]⟩,
    by rw [hf.depth]; omega, shortest_eq_depth h hm hr, ?_, ?_, ?_⟩
  · rw [hf.drow, hf.dcol]; exact hadj
  · rw [hf.drow, hf.dcol]; exact hv.bin
  · rw [hf.drow, hf.dcol]; exact hv.bval
  · rw [hf.drow, hf.dcol]; exact (hf.layers.dest_iff hv.bin).2 hv.bval

/-- Claim C14 holds of the 3×4 scenario grid, on which expansion reaches the destination. -/
theorem depth_handoff_witness :
    Valid 3 4 grid3x4 ∧ ∃ m, expand 3 4 grid3x4 = some m ∧ m.destinationReached = true ∧
      (main 3 4 grid3x4 = some (Outcome.PathFound, backtrack_grid 3 4 m.st) ∧
      (∃ i j, inGrid 3 4 i j ∧ adjacent (i, j) (m.st.destinationRow, m.st.destinationCol) ∧
        0 ≤ m.st.grid i j ∧ m.st.currentDepth = m.st.grid i j + 1) ∧
      0 < m.st.currentDepth ∧
      shortestPathLength 3 4 grid3x4 m.st.currentDepth.toNat ∧
      inGrid 3 4 m.st.destinationRow m.st.destinationCol ∧
      grid3x4 m.st.destinationRow m.st.destinationCol = -2 ∧
      m.st.grid m.st.destinationRow m.st.destinationCol = -2) := by
  obtain ⟨m, hm, hr, _⟩ := expand3x4_reached
  exact ⟨by decide, m, hm, hr, depth_handoff 3 4 grid3x4 (by decide) m hm hr⟩

/-- Claim C18. On a valid grid the run writes only inside the grid and the backward walk
stays inside it. Every write of the program changes the cell it writes (a stamp puts
`currentDepth + 1 ≥ 1` on a cell holding `-1`, a scrub puts `-1` on a cell holding
`currentDepth > 0`), so "written" is stated as "changed": a cell changed by
`modify_adjacent`, `scrub_depth` or an iteration of `backtrack_grid` lies in the grid, and an
iteration keeps the position in the grid; off-grid contents after expansion and after
`backtrack_grid` are those of the input and every visited position is in the grid;
`get_cell_info` returns the content for in-grid coordinates and `-4` for the others, and no
in-grid cell ever holds `-4`, so `-4` is returned exactly off the grid. -/
theorem writes_in_grid (R C : Nat) (g : Grid) (h : Valid R C g) (m : Scan)
    (hm : expand R C g = some m) :
    (∀ (s : State) (row col : Int), 0 ≤ s.currentDepth →
      ∀ i j, (modify_adjacent R C s row col).1.grid i j ≠ s.grid i j → inGrid R C i j) ∧
    (∀ (s : State) (kr kc i j : Int),
      (scrub_depth R C s kr kc).grid i j ≠ s.grid i j → inGrid R C i j) ∧
    (∀ w : Walk, 0 ≤ w.st.currentDepth →
      (∀ i j, (backtrack_step R C w).st.grid i j ≠ w.st.grid i j → inGrid R C i j) ∧
      (inGrid R C w.currentRow w.currentCol →
        inGrid R C (backtrack_step R C w).currentRow (backtrack_step R C w).currentCol)) ∧
    (∀ (s : State) (r c : Int),
      (inGrid R C r c → get_cell_info R C s r c = s.grid r c) ∧
      (¬ inGrid R C r c → get_cell_info R C s r c = -4)) ∧
    (∀ i j, ¬ inGrid R C i j → m.st.grid i j = g i j) ∧
    (∀ r c, get_cell_info R C m.st r c = -4 ↔ ¬ inGrid R C r c) ∧
    (m.destinationReached = true →
      (∀ c ∈ visited R C m.st, inGrid R C c.1 c.2) ∧
      (∀ i j, ¬ inGrid R C i j → (backtrack_grid R C m.st).grid i j = g i j) ∧
      ∀ r c, get_cell_info R C (backtrack_grid R C m.st) r c = -4 ↔ ¬ inGrid R C r c) := by
  have hinfo : ∀ (s : State), (∀ i j, inGrid R C i j → s.grid i j ≠ -4) →
      ∀ r c, get_cell_info R C s r c = -4 ↔ ¬ inGrid R C r c := by
    intro s hs r c
    constructor
    · intro h4 hin
      rw [get_cell_info_in _ hin] at h4
      exact hs r c hin h4
    · intro hout
      exact get_cell_info_out _ hout
  have hframe : ∀ g' : Grid,
      (∀ i j, inGrid R C i j → g' i j = g i j ∨ (g i j = -1 ∧ 1 ≤ g' i j)) →
      ∀ i j, inGrid R C i j → g' i j ≠ -4 := by
    intro g' hf i j hin
    obtain ⟨a, b, hv⟩ := h.exists_at
    rcases hf i j hin with h' | ⟨_, h'⟩
    · rw [h']
      rcases hv.vals i j hin with h'' | h'' | h'' | h'' <;> omega
    · omega
  refine ⟨?_, scrub_depth_offgrid R C, backtrack_step_offgrid R C,
    fun s r c => ⟨fun hin => get_cell_info_in s hin, fun hout => get_cell_info_out s hout⟩,
    fun i j hout => expand_offgrid hm i j hout, ?_, ?_⟩
  · intro s row col hd i j hne
    rcases (modify_adjacent_spec R C s row col hd).stamped i j with h' | ⟨_, _, hin, _⟩
    · exact absurd h' hne
    · exact hin
  · obtain ⟨a, b, hv⟩ := h.exists_at
    rcases main_cases hv with ⟨m', k, w, hm', hf, _, _, _⟩ | ⟨m', k, hm', hx, _⟩
    · rw [hm] at hm'; injection hm' with hm'; subst hm'
      exact hinfo _ (hframe _ hf.layers.final_frame)
    · rw [hm] at hm'; injection hm' with hm'; subst hm'
      exact hinfo _ (hframe _ hx.layers.final_frame)
  · intro hr
    obtain ⟨a, b, hv⟩ := h.exists_at
    rcases main_cases hv with ⟨m', k, w, hm', hf, hw, hb, _⟩ | ⟨m', k, hm', hx, _⟩
    swap
    · rw [hm] at hm'; injection hm' with hm'; subst hm'
      rw [hx.notReached] at hr
      simp at hr
    rw [hm] at hm'; injection hm' with hm'; subst hm'
    have hdin : inGrid R C m.st.destinationRow m.st.destinationCol := by
      rw [hf.drow, hf.dcol]; exact hv.bin
    obtain ⟨h1, h2⟩ := backtrack_grid_offgrid R C m.st (by rw [hf.depth]; omega) hdin
    refine ⟨h2, ?_, ?_⟩
    · intro i j hout
      rw [h1 i j hout]
      exact expand_offgrid hm i j hout
    · rw [hb]
      exact hinfo _ (hframe _ hw.layers.final_frame)

/-- Claim C18 holds of the 3×4 scenario grid. -/
theorem writes_in_grid_witness :
    Valid 3 4 grid3x4 ∧ ∃ m, expand 3 4 grid3x4 = some m ∧ m.destinationReached = true ∧
      (∀ c ∈ visited 3 4 m.st, inGrid 3 4 c.1 c.2) ∧
      (∀ i j, ¬ inGrid 3 4 i j → (backtrack_grid 3 4 m.st).grid i j = grid3x4 i j) := by
  obtain ⟨m, hm, hr, _⟩ := expand3x4_reached
  have := (writes_in_grid 3 4 grid3x4 (by decide) m hm).2.2.2.2.2.2 hr
  exact ⟨by decide, m, hm, hr, this.1, this.2.1⟩

/-- Claim C20. On a valid grid whose start and destination are orthogonally adjacent the
search reports `PathFound` and the final grid is the input grid: every cell stamped before
the destination was reached is free again and no layer cell other than the start remains. -/
theorem adjacent_start_destination (R C : Nat) (g : Grid) (h : Valid R C g)
    (hadj : ∃ a b : Int × Int, inGrid R C a.1 a.2 ∧ inGrid R C b.1 b.2 ∧ g a.1 a.2 = 0 ∧
      g b.1 b.2 = -2 ∧ adjacent a b) :
    ∃ s, main R C g = some (Outcome.PathFound, s) ∧ s.grid = g ∧
      ∀ i j, inGrid R C i j → 1 ≤ s.grid i j → False := by
  obtain ⟨a', b', ha', hb', hav, hbv, hab⟩ := hadj
  obtain ⟨a, b, hv⟩ := h.exists_at
  have hreach : Reach R C g 0 a' := ⟨ha', hav⟩
  rcases main_cases hv with ⟨m, k, w, hm, hf, hw, hb, hmain⟩ | ⟨m, k, _, hx, _⟩
  swap
  · exact absurd hbv (hx.nodest 0 (by omega) a' hreach b'.1 b'.2 hab hb')
  have hk : k = 0 := by
    by_contra hk
    exact hf.nodest 0 (by omega) a' hreach b'.1 b'.2 hab hb' hbv
  subst hk
  have hin : ∀ i j, inGrid R C i j → w.st.grid i j = g i j := by
    intro i j hin
    rcases hw.layers.frame i j hin with h' | ⟨_, n, h1, h2, _⟩
    · exact h'
    · omega
  refine ⟨w.st, hmain, ?_, ?_⟩
  · funext i j
    by_cases hij : inGrid R C i j
    · exact hin i j hij
    · have hdin : inGrid R C m.st.destinationRow m.st.destinationCol := by
        rw [hf.drow, hf.dcol]; exact hv.bin
      rw [← hb, (backtrack_grid_offgrid R C m.st (by rw [hf.depth]; omega) hdin).1 i j hij]
      exact expand_offgrid hm i j hij
  · intro i j hij h1
    rw [hin i j hij] at h1
    rcases hv.vals i j hij with h'' | h'' | h'' | h'' <;> omega

/-- Claim C20 holds of the 3×3 grid `. . .` / `. S .` / `. D .`, where three neighbours of
the start are stamped before the destination is reached. -/
theorem adjacent_start_destination_witness :
    Valid 3 3 gridAdjacent ∧
    (∃ a b : Int × Int, inGrid 3 3 a.1 a.2 ∧ inGrid 3 3 b.1 b.2 ∧ gridAdjacent a.1 a.2 = 0 ∧
      gridAdjacent b.1 b.2 = -2 ∧ adjacent a b) ∧
    (expand 3 3 gridAdjacent).map (fun m => rows 3 3 m.st.grid) =
      some [[-1, 1, -1], [1, 0, 1], [-1, -2, -1]] ∧
    ∃ s, main 3 3 gridAdjacent = some (Outcome.PathFound, s) ∧ s.grid = gridAdjacent ∧
      ∀ i j, inGrid 3 3 i j → 1 ≤ s.grid i j → False :=
  have hadj : ∃ a b : Int × Int, inGrid 3 3 a.1 a.2 ∧ inGrid 3 3 b.1 b.2 ∧
      gridAdjacent a.1 a.2 = 0 ∧ gridAdjacent b.1 b.2 = -2 ∧ adjacent a b :=
    ⟨(1, 1), (2, 1), by decide, by decide, by decide, by decide, by decide⟩
  ⟨by decide, hadj, by decide, adjacent_start_destination 3 3 gridAdjacent (by decide) hadj⟩

/-! ## Scan orders -/

theorem backtrack_step_first (R C : Nat) (w : Walk) :
    (∀ nb, first_holding R C w.st w.currentRow w.currentCol = some nb →
      backtrack_step R C w =
        { st := { scrub_depth R C w.st nb.1 nb.2 with
                  currentDepth := (scrub_depth R C w.st nb.1 nb.2).currentDepth - 1 },
          currentRow := nb.1, currentCol := nb.2 }) ∧
    (first_holding R C w.st w.currentRow w.currentCol = none →
      backtrack_step R C w =
        { w with st := { w.st with currentDepth := w.st.currentDepth - 1 } }) := by
  unfold first_holding backtrack_order backtrack_step
  by_cases h1 : get_cell_info R C w.st w.currentRow (w.currentCol + 1) = w.st.currentDepth
  · simp [List.find?, h1]
  by_cases h2 : get_cell_info R C w.st (w.currentRow + 1) w.currentCol = w.st.currentDepth
  · simp [List.find?, h1, h2]
  by_cases h3 : get_cell_info R C w.st w.currentRow (w.currentCol - 1) = w.st.currentDepth
  · simp [List.find?, h1, h2, h3]
  by_cases h4 : get_cell_info R C w.st (w.currentRow - 1) w.currentCol = w.st.currentDepth
  · simp [List.find?, h1, h2, h3, h4]
  · simp [List.find?, h1, h2, h3, h4]

/-- Claim C17. At a step of `backtrack_grid` the walk moves onto the first neighbour, in
the order east, south, west, north, that holds the depth being sought: that cell keeps its
layer number, every other grid cell of that layer becomes free and the other cells are
unchanged. On the valid 2×2 grid `S .` / `. D` the second pass finds the destination while
scanning (0,1), yet the final grid keeps layer 1 at (1,0) and has (0,1) free. -/
theorem backtrack_tie_break :
    (∀ (R C : Nat) (w : Walk) (nb : Int × Int), 0 < w.st.currentDepth →
      first_holding R C w.st w.currentRow w.currentCol = some nb →
      nb ∈ backtrack_order w.currentRow w.currentCol ∧ inGrid R C nb.1 nb.2 ∧
      w.st.grid nb.1 nb.2 = w.st.currentDepth ∧
      (backtrack_step R C w).currentRow = nb.1 ∧ (backtrack_step R C w).currentCol = nb.2 ∧
      (backtrack_step R C w).st.currentDepth = w.st.currentDepth - 1 ∧
      (backtrack_step R C w).st.grid nb.1 nb.2 = w.st.currentDepth ∧
      (∀ i j, inGrid R C i j → (i, j) ≠ nb → w.st.grid i j = w.st.currentDepth →
        (backtrack_step R C w).st.grid i j = -1) ∧
      (∀ i j, w.st.grid i j ≠ w.st.currentDepth →
        (backtrack_step R C w).st.grid i j = w.st.grid i j)) ∧
    Valid 2 2 grid2x2 ∧
    (scan_cell 2 2 scan2x2 0 0).destinationReached = false ∧
    (scan_cell 2 2 (scan_cell 2 2 scan2x2 0 0) 0 1).destinationReached = true ∧
    (main 2 2 grid2x2).map (fun r => (r.1, rows 2 2 r.2.grid)) =
      some (Outcome.PathFound, [[0, -1], [1, -2]]) := by
  refine ⟨?_, by decide, by decide, by decide, by decide⟩
  intro R C w nb hd hf
  have hmem : nb ∈ backtrack_order w.currentRow w.currentCol := by
    unfold first_holding at hf
    exact List.mem_of_find?_eq_some hf
  have hval : get_cell_info R C w.st nb.1 nb.2 = w.st.currentDepth := by
    unfold first_holding at hf
    simpa using List.find?_some hf
  obtain ⟨hin, hg⟩ := get_cell_info_pos hval (by omega)
  obtain ⟨s1, _, _, s4⟩ := scrub_depth_spec R C w.st nb.1 nb.2
  rw [(backtrack_step_first R C w).1 nb hf]
  refine ⟨hmem, hin, hg, rfl, rfl, by simp only; rw [s1], ?_, ?_, ?_⟩
  · simp only
    rw [s4, if_neg (fun h => h.2.1 ⟨rfl, rfl⟩)]; exact hg
  · intro i j hij hne hv
    simp only
    rw [s4, if_pos ⟨hij, fun h => hne (Prod.ext h.1 h.2), hv⟩]
  · intro i j hv
    simp only
    rw [s4, if_neg (fun h => hv h.2.2)]

theorem Exact.entry (R C : Nat) (s0 : State) : Exact R C s0 [] (s0, false) where
  depth := rfl
  drow := rfl
  dcol := rfl
  grid := by simp

theorem Exact.found {R C : Nat} {s0 : State} {done : List (Int × Int)} {p : State × Bool}
    (hp : Exact R C s0 done p) {r c : Int} (hn : (r, c) ∉ done) {s' : State}
    (h : check_neighbour R C p r c = Except.error s') :
    inGrid R C r c ∧ s0.grid r c = -2 ∧ s'.currentDepth = s0.currentDepth ∧
      s'.destinationRow = r ∧ s'.destinationCol = c ∧ s'.grid = p.1.grid := by
  obtain ⟨hin, h2, rfl⟩ := check_neighbour_error h
  refine ⟨hin, ?_, hp.depth, rfl, rfl, rfl⟩
  rw [hp.grid r c, if_neg (fun hh => hn hh.1)] at h2
  exact h2

theorem Exact.next {R C : Nat} {s0 : State} {done : List (Int × Int)} {p : State × Bool}
    (hp : Exact R C s0 done p) {r c : Int} (hn : (r, c) ∉ done) {p' : State × Bool}
    (h : check_neighbour R C p r c = Except.ok p') : Exact R C s0 (done ++ [(r, c)]) p' := by
  have hrc : p.1.grid r c = s0.grid r c := by
    rw [hp.grid r c, if_neg (fun hh => hn hh.1)]
  obtain ⟨_, h' | h'⟩ := check_neighbour_ok h
  · obtain ⟨hin, h1, rfl⟩ := h'
    rw [hrc] at h1
    refine ⟨hp.depth, hp.drow, hp.dcol, ?_⟩
    intro i j
    simp only [setCell]
    by_cases hij : i = r ∧ j = c
    · obtain ⟨rfl, rfl⟩ := hij
      rw [if_pos ⟨rfl, rfl⟩, if_pos ⟨by simp, hin, h1⟩, hp.depth]
    · rw [if_neg hij, hp.grid i j]
      have : (i, j) ∈ done ++ [(r, c)] ↔ (i, j) ∈ done := by
        simp only [List.mem_append, List.mem_singleton, Prod.mk.injEq]
        exact ⟨fun hh => hh.resolve_right hij, Or.inl⟩
      simp only [this]
  · obtain ⟨hn1, hpp⟩ := h'
    rw [hpp]
    refine ⟨hp.depth, hp.drow, hp.dcol, ?_⟩
    intro i j
    rw [hp.grid i j]
    by_cases hij : i = r ∧ j = c
    · obtain ⟨rfl, rfl⟩ := hij
      have hno : ¬ (inGrid R C i j ∧ s0.grid i j = -1) := by
        rw [← hrc]; exact hn1
      rw [if_neg (fun hh => hno hh.2), if_neg (fun hh => hno hh.2)]
    · have : (i, j) ∈ done ++ [(r, c)] ↔ (i, j) ∈ done := by
        simp only [List.mem_append, List.mem_singleton, Prod.mk.injEq]
        exact ⟨fun hh => hh.resolve_right hij, Or.inl⟩
      simp only [this]

/-- When `modify_adjacent` returns `-2` the destination is the `n`-th neighbour in scan
order, the free in-grid neighbours before it hold the next layer and every other cell is as
on entry. -/
theorem modify_adjacent_found (R C : Nat) (s : State) (row col : Int)
    (hf : (modify_adjacent R C s row col).2 = -2) :
    ∃ n d, (expansion_order row col)[n]? = some d ∧ inGrid R C d.1 d.2 ∧
      s.grid d.1 d.2 = -2 ∧
      (modify_adjacent R C s row col).1.currentDepth = s.currentDepth ∧
      (modify_adjacent R C s row col).1.destinationRow = d.1 ∧
      (modify_adjacent R C s row col).1.destinationCol = d.2 ∧
      ∀ i j, (modify_adjacent R C s row col).1.grid i j =
        if (i, j) ∈ (expansion_order row col).take n ∧ inGrid R C i j ∧ s.grid i j = -1
        then s.currentDepth + 1 else s.grid i j := by
  unfold modify_adjacent at hf ⊢
  have h0 := Exact.entry R C s
  cases h1 : check_neighbour R C (s, false) row (col + 1) with
  | error s1 =>
    obtain ⟨q1, q2, q3, q4, q5, q6⟩ := h0.found (by simp) h1
    refine ⟨0, (row, col + 1), rfl, q1, q2, q3, q4, q5, ?_⟩
    intro i j
    dsimp only
    rw [q6, h0.grid i j]
    simp [expansion_order]
  | ok p1 =>
    rw [h1] at hf
    dsimp only at hf ⊢
    have hp1 := h0.next (by simp) h1
    cases h2 : check_neighbour R C p1 (row - 1) col with
    | error s2 =>
      obtain ⟨q1, q2, q3, q4, q5, q6⟩ := hp1.found (by simp) h2
      refine ⟨1, (row - 1, col), rfl, q1, q2, q3, q4, q5, ?_⟩
      intro i j
      dsimp only
      rw [q6, hp1.grid i j]
      simp [expansion_order]
    | ok p2 =>
      rw [h2] at hf
      dsimp only at hf ⊢
      have hp2 := hp1.next (by simp) h2
      cases h3 : check_neighbour R C p2 row (col - 1) with
      | error s3 =>
        obtain ⟨q1, q2, q3, q4, q5, q6⟩ := hp2.found (by simp; omega) h3
        refine ⟨2, (row, col - 1), rfl, q1, q2, q3, q4, q5, ?_⟩
        intro i j
        dsimp only
        rw [q6, hp2.grid i j]
        simp [expansion_order]
      | ok p3 =>
        rw [h3] at hf
        dsimp only at hf ⊢
        have hp3 := hp2.next (by simp; omega) h3
        cases h4 : check_neighbour R C p3 (row + 1) col with
        | error s4 =>
          obtain ⟨q1, q2, q3, q4, q5, q6⟩ := hp3.found (by simp; omega) h4
          refine ⟨3, (row + 1, col), rfl, q1, q2, q3, q4, q5, ?_⟩
          intro i j
          dsimp only
          rw [q6, hp3.grid i j]
          simp [expansion_order]
        | ok p4 =>
          rw [h4] at hf
          dsimp only at hf
          split_ifs at hf

theorem expansion_order_nodup (row col : Int) : (expansion_order row col).Nodup := by
  unfold expansion_order
  simp only [List.nodup_cons, List.mem_cons, Prod.mk.injEq, List.mem_singleton,
    List.not_mem_nil, not_false_eq_true, List.nodup_nil, and_true, true_and, or_false]
  omega

theorem foldl_scan_reached (R C : Nat) (rest : List (Int × Int)) (m : Scan)
    (h : m.destinationReached = true) :
    rest.foldl (fun m c => scan_cell R C m c.1 c.2) m = m := by
  induction rest with
  | nil => rfl
  | cons c l ih => rw [List.foldl_cons, scan_cell_reached h]; exact ih

/-- Claim C16. When the scan of the frontier cell `(i, j)` reaches the destination, among
the neighbours of `(i, j)` only the free in-grid ones before the destination in scan order
(east, north, west, south) hold the next layer; the destination and the later neighbours,
like every other cell, keep their content; the scan of any further cells changes nothing;
and when `(i, j)` is met in the pass started from `m0`, that pass ends in this state with
the counter advanced and the expansion loop stops on it. -/
theorem short_circuit (R C : Nat) (m : Scan) (i j : Int)
    (hr : m.destinationReached = false) (hg : m.st.grid i j = m.st.currentDepth)
    (hfound : (modify_adjacent R C m.st i j).2 = -2) :
    (scan_cell R C m i j).destinationReached = true ∧
    (scan_cell R C m i j).continueChecking = false ∧
    (∃ n d, (expansion_order i j)[n]? = some d ∧ inGrid R C d.1 d.2 ∧
      m.st.grid d.1 d.2 = -2 ∧
      (scan_cell R C m i j).st.destinationRow = d.1 ∧
      (scan_cell R C m i j).st.destinationCol = d.2 ∧
      (∀ x y, (scan_cell R C m i j).st.grid x y =
        if (x, y) ∈ (expansion_order i j).take n ∧ inGrid R C x y ∧ m.st.grid x y = -1
        then m.st.currentDepth + 1 else m.st.grid x y) ∧
      ∀ c ∈ (expansion_order i j).drop n,
        (scan_cell R C m i j).st.grid c.1 c.2 = m.st.grid c.1 c.2) ∧
    (∀ rest : List (Int × Int),
      rest.foldl (fun m c => scan_cell R C m c.1 c.2) (scan_cell R C m i j) =
        scan_cell R C m i j) ∧
    (∀ (pre post : List (Int × Int)) (m0 : Scan), cellList R C = pre ++ (i, j) :: post →
      m = pre.foldl (fun m c => scan_cell R C m c.1 c.2) { m0 with continueChecking := false } →
      scan_pass R C m0 =
        { scan_cell R C m i j with
          st := { (scan_cell R C m i j).st with
                  currentDepth := (scan_cell R C m i j).st.currentDepth + 1 } } ∧
      ∀ fuel, expansion R C (fuel + 1) (scan_pass R C m0) = some (scan_pass R C m0)) := by
  obtain ⟨hst, h2, _, _⟩ := scan_cell_visit (R := R) (C := C) hr hg
  obtain ⟨hreach, hcont⟩ := h2 hfound
  obtain ⟨n, d, hn, hdin, hdv, _, hdr, hdc, hgrid⟩ := modify_adjacent_found R C m.st i j hfound
  refine ⟨hreach, hcont, ⟨n, d, hn, hdin, hdv, by rw [hst]; exact hdr, by rw [hst]; exact hdc,
    by rw [hst]; exact hgrid, ?_⟩, fun rest => foldl_scan_reached R C rest _ hreach, ?_⟩
  · intro c hc
    rw [hst, hgrid c.1 c.2, if_neg]
    rintro ⟨hmem, _⟩
    exact List.disjoint_take_drop (expansion_order_nodup i j) (le_refl n) hmem hc
  · intro pre post m0 hsplit hm
    have hpass : scan_all R C m0 = scan_cell R C m i j := by
      unfold scan_all
      rw [hsplit, List.foldl_append, List.foldl_cons, ← hm]
      exact foldl_scan_reached R C post _ hreach
    have heq : scan_pass R C m0 =
        { scan_cell R C m i j with
          st := { (scan_cell R C m i j).st with
                  currentDepth := (scan_cell R C m i j).st.currentDepth + 1 } } := by
      rw [scan_pass_eq, hpass]
    refine ⟨heq, ?_⟩
    intro fuel
    unfold expansion
    rw [if_neg]
    rw [heq]
    simp only [hcont]
    simp

/-- Claim C16 holds of the second pass on the 2×2 grid `S .` / `. D`, where the scan of the
cell (0,1) reaches the destination. -/
theorem short_circuit_witness :
    scan2x2.destinationReached = false ∧ scan2x2.st.grid 0 1 = scan2x2.st.currentDepth ∧
    (modify_adjacent 2 2 scan2x2.st 0 1).2 = -2 ∧
    (scan_cell 2 2 scan2x2 0 1).destinationReached = true ∧
    (∀ rest : List (Int × Int),
      rest.foldl (fun m c => scan_cell 2 2 m c.1 c.2) (scan_cell 2 2 scan2x2 0 1) =
        scan_cell 2 2 scan2x2 0 1) :=
  have h := short_circuit 2 2 scan2x2 0 1 (by decide) (by decide) (by decide)
  ⟨by decide, by decide, by decide, h.1, h.2.2.2.1⟩

/-! ## Reconstruction against the loop of the specification -/

theorem scrub_depth_prune (R C : Nat) (s : State) (kr kc : Int) :
    (scrub_depth R C s kr kc).grid = spec_prune R C s.grid s.currentDepth (kr, kc) := by
  funext i j
  rw [(scrub_depth_spec R C s kr kc).2.2.2 i j]
  unfold spec_prune
  by_cases h : inGrid R C i j ∧ ¬ (i = kr ∧ j = kc) ∧ s.grid i j = s.currentDepth
  · rw [if_pos h, if_pos ⟨h.1, h.2.2, fun hh => h.2.1 (Prod.mk.inj hh)⟩]
  · rw [if_neg h, if_neg]
    rintro ⟨h1, h2, h3⟩
    exact h ⟨h1, fun hh => h3 (Prod.ext hh.1 hh.2), h2⟩

theorem first_holding_eq (R C : Nat) (s : State) (r c : Int) (hd : 0 < s.currentDepth) :
    first_holding R C s r c = spec_step_back R C s.grid s.currentDepth (r, c) := by
  unfold first_holding spec_step_back
  congr 1
  funext x
  by_cases hin : inGrid R C x.1 x.2
  · rw [get_cell_info_in _ hin]
    simp [hin]
  · rw [get_cell_info_out _ hin]
    have : ¬ ((-4 : Int) = s.currentDepth) := by omega
    simp [hin, this]

theorem backtrack_loop_amended (R C : Nat) (n : Nat) (w : Walk) :
    (backtrack_loop R C n w).st.grid =
      amended_reconstruct_loop R C n w.st.grid w.st.currentDepth
        (w.currentRow, w.currentCol) := by
  induction n generalizing w with
  | zero => rfl
  | succ n ih =>
    unfold backtrack_loop amended_reconstruct_loop
    by_cases hpos : w.st.currentDepth > 0
    · rw [if_pos hpos, if_pos hpos, ih, ← first_holding_eq R C w.st _ _ hpos]
      cases hf : first_holding R C w.st w.currentRow w.currentCol with
      | none =>
        rw [(backtrack_step_first R C w).2 hf]
      | some nb =>
        rw [(backtrack_step_first R C w).1 nb hf]
        simp only
        rw [scrub_depth_prune, (scrub_depth_spec R C w.st nb.1 nb.2).1]
    · rw [if_neg hpos, if_neg hpos]

/-- Counterexample to claim C15 as stated: on the 3×4 scenario grid expansion reaches the
destination, `backtrack_grid` keeps the path `0 1 2 3` / `x x x 4` / `. . . D`, and the loop
of the specification, which prunes a layer before looking for a neighbour in it, erases every
layer cell. -/
theorem spec_reconstruct_differs :
    ¬ ∀ m, expand 3 4 grid3x4 = some m → m.destinationReached = true →
      (backtrack_grid 3 4 m.st).grid = spec_reconstruct 3 4 m.st := by
  intro hall
  have h : (expand 3 4 grid3x4).map (fun m => (m.destinationReached,
      rows 3 4 (backtrack_grid 3 4 m.st).grid, rows 3 4 (spec_reconstruct 3 4 m.st))) =
      some (true, [[0, 1, 2, 3], [-3, -3, -3, 4], [-1, -1, -1, -2]],
        [[0, -1, -1, -1], [-3, -3, -3, -1], [-1, -1, -1, -2]]) := by decide
  cases hm : expand 3 4 grid3x4 with
  | none => rw [hm] at h; simp at h
  | some m =>
    rw [hm] at h
    simp only [Option.map_some', Option.some.injEq, Prod.mk.injEq] at h
    obtain ⟨hr, h1, h2⟩ := h
    rw [hall m hm hr, h2] at h1
    revert h1
    decide

/-- Claim C15, amended. For every grid and counter value, `backtrack_grid` produces the
final grid of this loop: first every cell holding `Layer(currentDepth)` other than
`destinationCell` is reset to free; then, starting at `destinationCell`, while
`currentDepth > 0`, (1) the first neighbour in the order east, south, west, north holding
`Layer(currentDepth)` is looked for, (2) if there is one, every other cell holding
`Layer(currentDepth)` is reset to free and the current position moves onto it, (3)
`currentDepth` is decremented. -/
theorem backtrack_grid_refines (R C : Nat) (s : State) :
    (backtrack_grid R C s).grid = amended_reconstruct R C s := by
  unfold backtrack_grid amended_reconstruct
  simp only
  rw [backtrack_loop_amended]
  simp only
  rw [scrub_depth_prune, (scrub_depth_spec R C s _ _).1]

end Grassfire

namespace KnightsTour

/-! ## `jumpValid` and `allVisited` -/

theorem jumpValid_eq_true (F Rk : Nat) (b : Board) (f r df dr : Int) :
    jumpValid F Rk b f r df dr = true ↔
      inBoard F Rk (f + df) (r + dr) ∧ b (f + df) (r + dr) = 0 := by
  unfold jumpValid inBoard
  simp only
  by_cases h : b (f + df) (r + dr) ≠ 0 ∨ f + df < 0 ∨ f + df ≥ F ∨ r + dr < 0 ∨ r + dr ≥ Rk
  · rw [if_pos h]
    simp only [Bool.false_eq_true, false_iff]
    rintro ⟨h1, h2⟩
    rcases h with h | h | h | h | h
    · exact h h2
    all_goals omega
  · rw [if_neg h]
    simp only [true_iff]
    push_neg at h
    exact ⟨⟨by omega, by omega, by omega, by omega⟩, h.1⟩

/-- Claim C19. `jumpValid` returns true exactly when the target square lies inside the board
and holds 0; for a target outside the board it returns false whatever the board function
yields there, that is, whatever the read performed before the bounds test returns. -/
theorem jumpValid_iff (F Rk : Nat) (board : Board) (f r df dr : Int) :
    (jumpValid F Rk board f r df dr = true ↔
      inBoard F Rk (f + df) (r + dr) ∧ board (f + df) (r + dr) = 0) ∧
    (¬ inBoard F Rk (f + df) (r + dr) →
      ∀ board' : Board, jumpValid F Rk board' f r df dr = false) := by
  refine ⟨jumpValid_eq_true F Rk board f r df dr, ?_⟩
  intro hout b
  cases hv : jumpValid F Rk b f r df dr with
  | false => rfl
  | true => exact absurd ((jumpValid_eq_true F Rk b f r df dr).1 hv).1 hout

theorem mem_squareSet_inBoard {F Rk : Nat} {c : Nat × Nat} (h : c ∈ squareSet F Rk) :
    inBoard F Rk c.1 c.2 := by
  unfold squareSet at h
  rw [Finset.mem_product, Finset.mem_range, Finset.mem_range] at h
  unfold inBoard; omega

theorem inBoard_mem_squareSet {F Rk : Nat} {f r : Int} (h : inBoard F Rk f r) :
    (f.toNat, r.toNat) ∈ squareSet F Rk ∧ ((f.toNat : Nat) : Int) = f ∧
      ((r.toNat : Nat) : Int) = r := by
  unfold squareSet
  rw [Finset.mem_product, Finset.mem_range, Finset.mem_range]
  unfold inBoard at h
  simp only
  omega

theorem allVisited_iff (F Rk : Nat) (b : Board) :
    allVisited F Rk b = true ↔ ∀ f r, inBoard F Rk f r → b f r ≠ 0 := by
  unfold allVisited
  simp only [List.all_eq_true, List.mem_range, decide_eq_true_eq]
  constructor
  · intro h f r hin
    unfold inBoard at hin
    have := h f.toNat (by omega) r.toNat (by omega)
    rwa [show ((f.toNat : Nat) : Int) = f by omega, show ((r.toNat : Nat) : Int) = r by omega]
      at this
  · intro h f hf r hr
    exact h f r (by unfold inBoard; omega)

theorem zeroCount_eq_zero_iff (F Rk : Nat) (b : Board) :
    zeroCount F Rk b = 0 ↔ ∀ f r, inBoard F Rk f r → b f r ≠ 0 := by
  unfold zeroCount
  rw [Finset.card_eq_zero, Finset.filter_eq_empty_iff]
  constructor
  · intro h f r hin
    obtain ⟨hm, hf, hr⟩ := inBoard_mem_squareSet hin
    have := h hm
    simpa only [hf, hr] using this
  · intro h c hc
    exact h _ _ (mem_squareSet_inBoard hc)

theorem zeroCount_setSquare {F Rk : Nat} {b : Board} {f r v : Int} (hin : inBoard F Rk f r)
    (h0 : b f r = 0) (hv : v ≠ 0) :
    zeroCount F Rk (setSquare b f r v) + 1 = zeroCount F Rk b := by
  obtain ⟨hm, hf, hr⟩ := inBoard_mem_squareSet hin
  unfold zeroCount
  have hmem : (f.toNat, r.toNat) ∈ (squareSet F Rk).filter fun c => b c.1 c.2 = 0 := by
    rw [Finset.mem_filter]
    simp only [hf, hr]
    exact ⟨hm, h0⟩
  have heq : ((squareSet F Rk).filter fun c => setSquare b f r v c.1 c.2 = 0) =
      ((squareSet F Rk).filter fun c => b c.1 c.2 = 0).erase (f.toNat, r.toNat) := by
    ext c
    rw [Finset.mem_erase, Finset.mem_filter, Finset.mem_filter]
    unfold setSquare
    have hc : c = (f.toNat, r.toNat) ↔ ((c.1 : Int) = f ∧ (c.2 : Int) = r) := by
      constructor
      · rintro rfl; exact ⟨hf, hr⟩
      · rintro ⟨h1, h2⟩
        ext
        · simp only; omega
        · simp only; omega
    by_cases hcc : (c.1 : Int) = f ∧ (c.2 : Int) = r
    · rw [if_pos hcc]
      constructor
      · intro h; exact absurd h.2 hv
      · intro h; exact absurd (hc.2 hcc) h.1
    · rw [if_neg hcc]
      constructor
      · intro h; exact ⟨fun h' => hcc (hc.1 h'), h⟩
      · intro h; exact h.2
  rw [heq, Finset.card_erase_of_mem hmem]
  have : 0 < ((squareSet F Rk).filter fun c => b c.1 c.2 = 0).card :=
    Finset.card_pos.2 ⟨_, hmem⟩
  omega

theorem zeroCount_all (F Rk : Nat) (b : Board) (h : ∀ f r, inBoard F Rk f r → b f r = 0) :
    zeroCount F Rk b = F * Rk := by
  unfold zeroCount
  rw [Finset.filter_true_of_mem]
  · unfold squareSet
    rw [Finset.card_product, Finset.card_range, Finset.card_range]
  · intro c hc
    exact h _ _ (mem_squareSet_inBoard hc)

/-! ## The marked squares form a path -/

theorem Prefix.empty (F Rk : Nat) (f0 r0 : Int) (b : Board) (cur : Int × Int)
    (h : ∀ f r, inBoard F Rk f r → b f r = 0) : Prefix F Rk f0 r0 b 0 cur where
  range := by
    intro f r hin
    rw [h f r hin]; simp
  inj := by
    intro f r f' r' hin _ hne
    exact absurd (h f r hin) hne
  first := by intro h1; omega
  last := by intro h1; omega
  step := by
    intro f r f' r' hin _ h1
    rw [h f r hin] at h1; omega
  zeros := by rw [zeroCount_all F Rk b h]; rfl

theorem Prefix.mark {F Rk : Nat} {f0 r0 : Int} {b : Board} {d : Nat} {cur : Int × Int}
    (h : Prefix F Rk f0 r0 b d cur) {f r : Int} (hin : inBoard F Rk f r) (h0 : b f r = 0)
    (hstart : d = 0 → f = f0 ∧ r = r0) (hmove : 1 ≤ d → knightMove cur (f, r)) :
    Prefix F Rk f0 r0 (setSquare b f r ((d : Int) + 1)) (d + 1) (f, r) where
  range := by
    intro x y hxy
    unfold setSquare
    split_ifs
    · constructor <;> push_cast <;> omega
    · have := h.range x y hxy
      constructor <;> push_cast <;> omega
  inj := by
    intro x y x' y' hxy hxy' hne heq
    unfold setSquare at hne heq
    by_cases h1 : x = f ∧ y = r
    · by_cases h2 : x' = f ∧ y' = r
      · exact ⟨h1.1.trans h2.1.symm, h1.2.trans h2.2.symm⟩
      · rw [if_pos h1, if_neg h2] at heq
        have := h.range x' y' hxy'
        omega
    · by_cases h2 : x' = f ∧ y' = r
      · rw [if_neg h1, if_pos h2] at heq
        have := h.range x y hxy
        omega
      · rw [if_neg h1] at hne
        rw [if_neg h1, if_neg h2] at heq
        exact h.inj x y x' y' hxy hxy' hne heq
  first := by
    intro _
    unfold setSquare
    by_cases hd : d = 0
    · obtain ⟨rfl, rfl⟩ := hstart hd
      rw [if_pos ⟨rfl, rfl⟩, hd]; rfl
    · have h1 := h.first (by omega)
      rw [if_neg, h1]
      rintro ⟨rfl, rfl⟩
      omega
  last := by
    intro _
    refine ⟨hin, ?_⟩
    unfold setSquare
    rw [if_pos ⟨rfl, rfl⟩]; push_cast; rfl
  step := by
    intro x y x' y' hxy hxy' h1 heq
    unfold setSquare at h1 heq
    by_cases h2 : x' = f ∧ y' = r
    · obtain ⟨rfl, rfl⟩ := h2
      rw [if_pos ⟨rfl, rfl⟩] at heq
      by_cases h3 : x = x' ∧ y = y'
      · rw [if_pos h3] at heq; omega
      · rw [if_neg h3] at heq h1
        have hd : 1 ≤ d := by omega
        obtain ⟨hcin, hcv⟩ := h.last hd
        have := h.inj x y cur.1 cur.2 hxy hcin (by omega) (by rw [hcv]; omega)
        have hc : (x, y) = cur := Prod.ext this.1 this.2
        rw [hc]; exact hmove hd
    · rw [if_neg h2] at heq
      by_cases h3 : x = f ∧ y = r
      · rw [if_pos h3] at heq
        have := h.range x' y' hxy'
        omega
      · rw [if_neg h3] at heq h1
        exact h.step x y x' y' hxy hxy' h1 heq
  zeros := by
    have := zeroCount_setSquare (v := (d : Int) + 1) hin h0 (by omega)
    have := h.zeros
    omega

theorem Prefix.tour {F Rk : Nat} {f0 r0 : Int} {b : Board} {d : Nat} {cur : Int × Int}
    (h : Prefix F Rk f0 r0 b d cur) (hd : 1 ≤ d) (hall : ∀ f r, inBoard F Rk f r → b f r ≠ 0) :
    d = F * Rk ∧ isTour F Rk f0 r0 b := by
  have hz := (zeroCount_eq_zero_iff F Rk b).2 hall
  have hdn : d = F * Rk := by have := h.zeros; omega
  refine ⟨hdn, ?_, ?_, h.first hd, ?_⟩
  · intro f r hin
    have := h.range f r hin
    have := hall f r hin
    rw [← hdn]
    constructor <;> omega
  · intro f r f' r' hin hin' heq
    exact h.inj f r f' r' hin hin' (hall f r hin) heq
  · intro f r f' r' hin hin' heq
    have := h.range f r hin
    have := hall f r hin
    exact h.step f r f' r' hin hin' (by omega) heq

theorem Prefix.not_full {F Rk : Nat} {f0 r0 : Int} {b : Board} {d : Nat} {cur : Int × Int}
    (h : Prefix F Rk f0 r0 b d cur) (hnot : ¬ ∀ f r, inBoard F Rk f r → b f r ≠ 0) :
    d < F * Rk := by
  have hz : zeroCount F Rk b ≠ 0 := fun hz => hnot ((zeroCount_eq_zero_iff F Rk b).1 hz)
  have := h.zeros
  omega

/-- In a complete tour every number from 1 to the number of squares is held by a square. -/
theorem isTour.surjective {F Rk : Nat} {f0 r0 : Int} {t : Board} (h : isTour F Rk f0 r0 t)
    (k : Nat) (h1 : 1 ≤ k) (hk : k ≤ F * Rk) : ∃ f r, inBoard F Rk f r ∧ t f r = k := by
  obtain ⟨hrange, hinj, _, _⟩ := h
  have hcard : (Finset.Icc 1 (F * Rk)).card ≤ (squareSet F Rk).card := by
    unfold squareSet
    rw [Finset.card_product, Finset.card_range, Finset.card_range]
    simp
  have := Finset.surj_on_of_inj_on_of_card_le
    (s := squareSet F Rk) (t := Finset.Icc 1 (F * Rk))
    (fun c _ => (t c.1 c.2).toNat) ?_ ?_ hcard k (Finset.mem_Icc.2 ⟨h1, hk⟩)
  · obtain ⟨c, hc, hck⟩ := this
    refine ⟨c.1, c.2, mem_squareSet_inBoard hc, ?_⟩
    have := hrange _ _ (mem_squareSet_inBoard hc)
    simp only at hck
    omega
  · intro c hc
    have := hrange _ _ (mem_squareSet_inBoard hc)
    rw [Finset.mem_Icc]
    simp only
    omega
  · intro c1 c2 hc1 hc2 heq
    have r1 := hrange _ _ (mem_squareSet_inBoard hc1)
    have r2 := hrange _ _ (mem_squareSet_inBoard hc2)
    simp only at heq
    have := hinj _ _ _ _ (mem_squareSet_inBoard hc1) (mem_squareSet_inBoard hc2) (by omega)
    ext
    · exact_mod_cast this.1
    · exact_mod_cast this.2

theorem knightMove_mem_jumpPairs {a b : Int × Int} (h : knightMove a b) :
    (b.1 - a.1, b.2 - a.2) ∈ jumpPairs ∧ (b.1 - a.1).natAbs ≠ (b.2 - a.2).natAbs := by
  unfold knightMove at h
  refine ⟨?_, by omega⟩
  have h1 : b.1 - a.1 = 1 ∨ b.1 - a.1 = -1 ∨ b.1 - a.1 = 2 ∨ b.1 - a.1 = -2 := by omega
  have h2 : b.2 - a.2 = 1 ∨ b.2 - a.2 = -1 ∨ b.2 - a.2 = 2 ∨ b.2 - a.2 = -2 := by omega
  rcases h1 with h1 | h1 | h1 | h1 <;> rcases h2 with h2 | h2 | h2 | h2 <;>
    rw [h1, h2] <;> decide

theorem mem_jumpCoords {a : Int} (h : a ∈ jumpCoords) : a = 1 ∨ a = -1 ∨ a = 2 ∨ a = -2 := by
  simpa [jumpCoords] using h

theorem knightMove_of_pair {c : Int × Int} {fj rj : Int} (hmem : (fj, rj) ∈ jumpPairs)
    (hne : fj.natAbs ≠ rj.natAbs) : knightMove c (c.1 + fj, c.2 + rj) := by
  unfold jumpPairs at hmem
  rw [List.mem_flatMap] at hmem
  obtain ⟨a, ha, hab⟩ := hmem
  rw [List.mem_map] at hab
  obtain ⟨b, hb, heq⟩ := hab
  injection heq with e1 e2
  subst e1; subst e2
  have h1 := mem_jumpCoords ha
  have h2 := mem_jumpCoords hb
  unfold knightMove
  simp only [add_sub_cancel_left]
  omega

/-! ## The search of `jump` -/

theorem Extends.of_mark {F Rk : Nat} {b t : Board} {f r v : Int} (h0 : b f r = 0)
    (h : Extends F Rk (setSquare b f r v) t) : Extends F Rk b t := by
  intro x y hxy hne
  have hxy' : ¬ (x = f ∧ y = r) := by
    rintro ⟨rfl, rfl⟩; exact hne h0
  have := h x y hxy
  unfold setSquare at this
  rw [if_neg hxy'] at this
  exact this hne

theorem jump_loop_spec {F Rk : Nat} {f0 r0 : Int}
    {rec : Board → Int → Int → Int → Int → Int → Option (Board × Int)} {b1 : Board} {d : Nat}
    {cur : Int × Int} (hF : 0 < F * Rk) (hrec : RecSpec F Rk f0 r0 rec b1 d cur)
    (moves : List (Int × Int)) (hsub : ∀ mv ∈ moves, mv ∈ jumpPairs) :
    ∃ res, jump_loop F Rk rec d cur.1 cur.2 moves b1 = some res ∧
      ((∃ b' r, res = (b', some r) ∧ Success F Rk f0 r0 b1 b' r) ∨
        (res = (b1, none) ∧ ∀ mv ∈ moves, mv.1.natAbs ≠ mv.2.natAbs →
          jumpValid F Rk b1 cur.1 cur.2 mv.1 mv.2 = true →
          NoTour F Rk f0 r0 (setSquare b1 (cur.1 + mv.1) (cur.2 + mv.2) ((d : Int) + 1)))) := by
  induction moves with
  | nil => exact ⟨_, rfl, Or.inr ⟨rfl, by simp⟩⟩
  | cons mv rest ih =>
    obtain ⟨fj, rj⟩ := mv
    obtain ⟨res, hres, hcase⟩ := ih (fun m hm => hsub m (List.mem_cons_of_mem _ hm))
    have hmem : (fj, rj) ∈ jumpPairs := hsub _ (List.mem_cons_self _ _)
    rw [jump_loop]
    by_cases habs : fj.natAbs = rj.natAbs
    · rw [if_pos habs]
      refine ⟨res, hres, ?_⟩
      rcases hcase with hs | ⟨hn, hall⟩
      · exact Or.inl hs
      · refine Or.inr ⟨hn, ?_⟩
        intro mv hmv h1 h2
        rcases List.mem_cons.1 hmv with rfl | hmv
        · exact absurd habs h1
        · exact hall mv hmv h1 h2
    rw [if_neg habs]
    by_cases hval : jumpValid F Rk b1 cur.1 cur.2 fj rj = true
    · rw [if_pos hval]
      obtain ⟨hin, h0⟩ := (jumpValid_eq_true F Rk b1 cur.1 cur.2 fj rj).1 hval
      obtain ⟨b', r, hr, hs | ⟨hr1, hb, hno⟩⟩ := hrec fj rj hin h0 (knightMove_of_pair hmem habs)
      · rw [hr]
        have hpos : r > 0 := by rw [hs.1]; exact_mod_cast hF
        simp only [hpos, if_true]
        exact ⟨_, rfl, Or.inl ⟨b', r, rfl, hs.1, hs.2.1, hs.2.2.of_mark h0⟩⟩
      · rw [hr]
        have hneg : ¬ r > 0 := by rw [hr1]; decide
        simp only [hneg, if_false]
        rw [hb]
        refine ⟨res, hres, ?_⟩
        rcases hcase with hs | ⟨hn, hall⟩
        · exact Or.inl hs
        · refine Or.inr ⟨hn, ?_⟩
          intro mv hmv h1 h2
          rcases List.mem_cons.1 hmv with rfl | hmv
          · exact hno
          · exact hall mv hmv h1 h2
    · rw [if_neg hval]
      refine ⟨res, hres, ?_⟩
      rcases hcase with hs | ⟨hn, hall⟩
      · exact Or.inl hs
      · refine Or.inr ⟨hn, ?_⟩
        intro mv hmv h1 h2
        rcases List.mem_cons.1 hmv with rfl | hmv
        · exact absurd h2 hval
        · exact hall mv hmv h1 h2

theorem setSquare_undo {b : Board} {f r v : Int} (h0 : b f r = 0) :
    setSquare (setSquare b f r v) f r 0 = b := by
  funext x y
  unfold setSquare
  by_cases h : x = f ∧ y = r
  · rw [if_pos h, h.1, h.2, h0]
  · rw [if_neg h, if_neg h]

/-- Total correctness of `jump`: called on a board holding a knight's path of `d` squares
that ends at `cur`, with a free target square, it returns with a complete tour and the
number of squares, or with the board it was given and `-1`, in which case no complete tour
continues the path through the target. -/
theorem jump_spec (F Rk : Nat) (f0 r0 : Int) (fuel : Nat) (b : Board) (d : Nat)
    (cur : Int × Int) (fj rj : Int) (h : Prefix F Rk f0 r0 b d cur)
    (hin : inBoard F Rk (cur.1 + fj) (cur.2 + rj)) (h0 : b (cur.1 + fj) (cur.2 + rj) = 0)
    (hstart : d = 0 → cur.1 + fj = f0 ∧ cur.2 + rj = r0)
    (hmove : 1 ≤ d → knightMove cur (cur.1 + fj, cur.2 + rj)) (hfuel : F * Rk ≤ fuel + d) :
    ∃ b' r, jump F Rk fuel b d cur.1 cur.2 fj rj = some (b', r) ∧
      (Success F Rk f0 r0 (setSquare b (cur.1 + fj) (cur.2 + rj) ((d : Int) + 1)) b' r ∨
        (r = -1 ∧ b' = b ∧
          NoTour F Rk f0 r0 (setSquare b (cur.1 + fj) (cur.2 + rj) ((d : Int) + 1)))) := by
  have hmark := h.mark hin h0 hstart hmove
  have hdlt : d < F * Rk := h.not_full (fun hall => hall _ _ hin h0)
  induction fuel generalizing b d cur fj rj with
  | zero => omega
  | succ fuel ih =>
    rw [jump]
    by_cases hall : allVisited F Rk (setSquare b (cur.1 + fj) (cur.2 + rj) ((d : Int) + 1)) = true
    · rw [if_pos hall]
      obtain ⟨hd, ht⟩ := hmark.tour (by omega) ((allVisited_iff F Rk _).1 hall)
      exact ⟨_, _, rfl, Or.inl ⟨by rw [← hd]; push_cast; rfl, ht, fun _ _ _ _ => rfl⟩⟩
    · rw [if_neg hall]
      have hlt : d + 1 < F * Rk :=
        hmark.not_full (fun hh => hall ((allVisited_iff F Rk _).2 hh))
      have hrec : RecSpec F Rk f0 r0 (jump F Rk fuel)
          (setSquare b (cur.1 + fj) (cur.2 + rj) ((d : Int) + 1)) (d + 1)
          (cur.1 + fj, cur.2 + rj) := by
        intro fj' rj' hin' h0' hmove'
        have := ih _ (d + 1) (cur.1 + fj, cur.2 + rj) fj' rj' hmark hin' h0'
          (fun hd => by omega) (fun _ => hmove') (by omega)
          (hmark.mark hin' h0' (fun hd => by omega) (fun _ => hmove'))
          hlt
        exact this
      obtain ⟨res, hres, hcase⟩ := jump_loop_spec (by omega) hrec jumpPairs (fun _ hm => hm)
      have hcast : (((d + 1 : Nat) : Int)) = (d : Int) + 1 := by push_cast; rfl
      rw [hcast] at hres
      simp only at hres
      rw [hres]
      rcases hcase with ⟨b', r, rfl, hs⟩ | ⟨rfl, hno⟩
      · exact ⟨b', r, rfl, Or.inl hs⟩
      · refine ⟨_, _, rfl, Or.inr ⟨rfl, setSquare_undo h0, ?_⟩⟩
        rintro ⟨t, ht, hext⟩
        have htgt : t (cur.1 + fj) (cur.2 + rj) = (d : Int) + 1 := by
          rw [hext _ _ hin]
          · exact (hmark.last (by omega)).2.trans (by push_cast; rfl)
          · rw [(hmark.last (by omega)).2]; push_cast; omega
        obtain ⟨f', r', hin', hv'⟩ := ht.surjective (d + 2) (by omega) (by omega)
        have hkm : knightMove (cur.1 + fj, cur.2 + rj) (f', r') :=
          ht.2.2.2 _ _ _ _ hin hin' (by rw [hv', htgt]; push_cast; ring)
        have hz : setSquare b (cur.1 + fj) (cur.2 + rj) ((d : Int) + 1) f' r' = 0 := by
          by_contra hne
          have h1 := hext f' r' hin' hne
          have h2 := hmark.range f' r' hin'
          rw [← h1, hv'] at h2
          push_cast at h2
          omega
        obtain ⟨hmem, habs⟩ := knightMove_mem_jumpPairs hkm
        simp only at hmem habs
        have e1 : cur.1 + fj + (f' - (cur.1 + fj)) = f' := by omega
        have e2 : cur.2 + rj + (r' - (cur.2 + rj)) = r' := by omega
        have hval : jumpValid F Rk (setSquare b (cur.1 + fj) (cur.2 + rj) ((d : Int) + 1))
            (cur.1 + fj) (cur.2 + rj) (f' - (cur.1 + fj)) (r' - (cur.2 + rj)) = true := by
          rw [jumpValid_eq_true, e1, e2]
          exact ⟨hin', hz⟩
        have hnt := hno _ hmem habs hval
        simp only [e1, e2] at hnt
        apply hnt
        refine ⟨t, ht, ?_⟩
        intro x y hxy hne
        unfold setSquare at hne ⊢
        by_cases hx : x = f' ∧ y = r'
        · rw [if_pos hx, hx.1, hx.2, hv']
          push_cast; ring
        · rw [if_neg hx] at hne ⊢
          exact hext x y hxy hne

/-! ## The claims on the knight's tour -/

theorem jump_initial (F Rk : Nat) (b : Board) (f0 r0 : Int)
    (hb : ∀ f r, inBoard F Rk f r → b f r = 0) (hin : inBoard F Rk f0 r0) :
    ∃ b' r, jump F Rk (F * Rk) b 0 f0 r0 0 0 = some (b', r) ∧
      ((r = ((F * Rk : Nat) : Int) ∧ isTour F Rk f0 r0 b') ∨
        (r = -1 ∧ b' = b ∧ ¬ ∃ t, isTour F Rk f0 r0 t)) := by
  have hin' : inBoard F Rk ((f0, r0).1 + 0) ((f0, r0).2 + 0) := by simpa using hin
  have h0 : b ((f0, r0).1 + 0) ((f0, r0).2 + 0) = 0 := by simpa using hb f0 r0 hin
  obtain ⟨b', r, hj, hcase⟩ := jump_spec F Rk f0 r0 (F * Rk) b 0 (f0, r0) 0 0
    (Prefix.empty F Rk f0 r0 b (f0, r0) hb) hin' h0 (fun _ => by simp) (fun h => by omega)
    (by omega)
  simp only [Nat.cast_zero, add_zero, zero_add] at hj hcase
  refine ⟨b', r, hj, ?_⟩
  rcases hcase with hs | ⟨hr, hb', hno⟩
  · exact Or.inl ⟨hs.1, hs.2.1⟩
  · refine Or.inr ⟨hr, hb', ?_⟩
    rintro ⟨t, ht⟩
    apply hno
    refine ⟨t, ht, ?_⟩
    intro f r hfr hne
    unfold setSquare at hne ⊢
    by_cases h : f = f0 ∧ r = r0
    · rw [if_pos h, h.1, h.2]; exact ht.2.2.1
    · rw [if_neg h] at hne
      exact absurd (hb f r hfr) hne

/-- Claim C12. For the call `jump(board, 0, f0, r0, 0, 0)` on an all-zero board with
`(f0, r0)` in bounds, a positive result is the number of squares and the board is then a
complete knight's tour starting at `(f0, r0)`. -/
theorem jump_positive_tour (F Rk : Nat) (b : Board) (f0 r0 : Int)
    (hb : ∀ f r, inBoard F Rk f r → b f r = 0) (hin : inBoard F Rk f0 r0) (b' : Board)
    (r : Int) (hj : jump F Rk (F * Rk) b 0 f0 r0 0 0 = some (b', r)) (hpos : 0 < r) :
    r = ((F * Rk : Nat) : Int) ∧ isTour F Rk f0 r0 b' := by
  obtain ⟨b'', r'', hj', hcase⟩ := jump_initial F Rk b f0 r0 hb hin
  rw [hj] at hj'
  injection hj' with hj'
  injection hj' with h1 h2
  subst h1; subst h2
  rcases hcase with hs | ⟨hr, _, _⟩
  · exact hs
  · omega

/-- Claim C12 holds of the 3×4 board started at (0,0), on which `jump` returns 12. -/
theorem jump_positive_tour_witness :
    (∀ f r, inBoard 3 4 f r → emptyBoard f r = 0) ∧ inBoard 3 4 0 0 ∧
    ∃ b' r, jump 3 4 (3 * 4) emptyBoard 0 0 0 0 0 = some (b', r) ∧ 0 < r ∧
      squares 3 4 b' = [[1, 4, 7, 10], [8, 11, 2, 5], [3, 6, 9, 12]] ∧
      r = ((3 * 4 : Nat) : Int) ∧ isTour 3 4 0 0 b' := by
  have h : (jump 3 4 (3 * 4) emptyBoard 0 0 0 0 0).map (fun p => (squares 3 4 p.1, p.2)) =
      some ([[1, 4, 7, 10], [8, 11, 2, 5], [3, 6, 9, 12]], 12) := by decide
  cases hj : jump 3 4 (3 * 4) emptyBoard 0 0 0 0 0 with
  | none => rw [hj] at h; simp at h
  | some p =>
    obtain ⟨b', r⟩ := p
    rw [hj] at h
    simp only [Option.map_some', Option.some.injEq, Prod.mk.injEq] at h
    have hpos : 0 < r := by rw [h.2]; decide
    exact ⟨fun _ _ _ => rfl, by decide, b', r, rfl, hpos, h.1,
      jump_positive_tour 3 4 emptyBoard 0 0 (fun _ _ _ => rfl) (by decide) b' r hj hpos⟩

/-- Claim C13. The call `jump(board, 0, f0, r0, 0, 0)` on an all-zero board with `(f0, r0)`
in bounds returns, with `-1` or the number of squares; it returns `-1` exactly when no
knight's tour of the board starting at `(f0, r0)` exists, and the board is then the all-zero
board it was given. -/
theorem jump_fails_iff_no_tour (F Rk : Nat) (b : Board) (f0 r0 : Int)
    (hb : ∀ f r, inBoard F Rk f r → b f r = 0) (hin : inBoard F Rk f0 r0) :
    ∃ b' r, jump F Rk (F * Rk) b 0 f0 r0 0 0 = some (b', r) ∧
      (r = -1 ∨ r = ((F * Rk : Nat) : Int)) ∧
      (r = -1 ↔ ¬ ∃ t, isTour F Rk f0 r0 t) ∧
      (r = -1 → b' = b ∧ ∀ f r, inBoard F Rk f r → b' f r = 0) := by
  obtain ⟨b', r, hj, hcase⟩ := jump_initial F Rk b f0 r0 hb hin
  refine ⟨b', r, hj, ?_⟩
  rcases hcase with ⟨hr, ht⟩ | ⟨hr, hb', hno⟩
  · have hne : r ≠ -1 := by rw [hr]; omega
    exact ⟨Or.inr hr, ⟨fun h => absurd h hne, fun h => absurd ⟨b', ht⟩ h⟩,
      fun h => absurd h hne⟩
  · exact ⟨Or.inl hr, ⟨fun _ => hno, fun _ => hr⟩, fun _ => ⟨hb', by rw [hb']; exact hb⟩⟩

/-- Claim C13 holds of the 3×3 board started at (0,0), which has no knight's tour: `jump`
returns `-1` and the all-zero board. -/
theorem jump_fails_iff_no_tour_witness :
    (∀ f r, inBoard 3 3 f r → emptyBoard f r = 0) ∧ inBoard 3 3 0 0 ∧
    (jump 3 3 (3 * 3) emptyBoard 0 0 0 0 0).map (fun p => (squares 3 3 p.1, p.2)) =
      some ([[0, 0, 0], [0, 0, 0], [0, 0, 0]], -1) ∧
    ∃ b' r, jump 3 3 (3 * 3) emptyBoard 0 0 0 0 0 = some (b', r) ∧
      (r = -1 ∨ r = ((3 * 3 : Nat) : Int)) ∧
      (r = -1 ↔ ¬ ∃ t, isTour 3 3 0 0 t) ∧
      (r = -1 → b' = emptyBoard ∧ ∀ f r, inBoard 3 3 f r → b' f r = 0) :=
  ⟨fun _ _ _ => rfl, by decide, by decide,
    jump_fails_iff_no_tour 3 3 emptyBoard 0 0 (fun _ _ _ => rfl) (by decide)⟩

end KnightsTour
